import Mathlib

/-!
# Verification of the fbs build engine against its specification

Shallow embedding of the fbs task-graph build engine (Go) in Lean 4:
task hashing (`ComputeTaskHash`), the DAG container (`Graph.AddTask`,
`Graph.TopologicalSort`), the cache-backed runner (`Runner.executeTask`,
sequential and parallel execution), and the Gradle version-catalog
resolution, together with theorems settling the specification claims.
-/

set_option maxHeartbeats 1000000

set_option maxRecDepth 10000

/-! ## Association-list helpers (model of Go maps keyed by strings) -/

/-- Lookup in an association list (Go `m[k]` with `ok` flag). -/
def lookupA {α : Type} : List (String × α) → String → Option α
  | [], _ => none
  | (k, v) :: rest, key => if k = key then some v else lookupA rest key

/-- Map assignment `m[k] = v` (overwrites an existing binding). -/
def setA {α : Type} : List (String × α) → String → α → List (String × α)
  | [], key, v => [(key, v)]
  | (k, w) :: rest, key, v =>
      if k = key then (key, v) :: rest else (k, w) :: setA rest key v

/-! ## SHA-256 over byte lists

Model of Go's `crypto/sha256`, used by `ComputeTaskHash` and the per-task
`Hash()` implementations.  Bytes and 32-bit words are `Nat` with explicit
reduction mod `2^32` where Go would overflow. -/

namespace SHA256

def M32 : Nat := 4294967296

def add32 (a b : Nat) : Nat := (a + b) % M32

def rotr (n x : Nat) : Nat := ((x >>> n) ||| (x <<< (32 - n))) % M32

def K : List Nat :=
  [1116352408, 1899447441, 3049323471, 3921009573, 961987163,
   1508970993, 2453635748, 2870763221, 3624381080, 310598401,
   607225278, 1426881987, 1925078388, 2162078206, 2614888103,
   3248222580, 3835390401, 4022224774, 264347078, 604807628,
   770255983, 1249150122, 1555081692, 1996064986, 2554220882,
   2821834349, 2952996808, 3210313671, 3336571891, 3584528711,
   113926993, 338241895, 666307205, 773529912, 1294757372,
   1396182291, 1695183700, 1986661051, 2177026350, 2456956037,
   2730485921, 2820302411, 3259730800, 3345764771, 3516065817,
   3600352804, 4094571909, 275423344, 430227734, 506948616,
   659060556, 883997877, 958139571, 1322822218, 1537002063,
   1747873779, 1955562222, 2024104815, 2227730452, 2361852424,
   2428436474, 2756734187, 3204031479, 3329325298]

def initH : List Nat :=
  [1779033703, 3144134277, 1013904242, 2773480762,
   1359893119, 2600822924, 528734635, 1541459225]

/-- Big-endian 8-byte encoding of a 64-bit length. -/
def bytes64 (n : Nat) : List Nat :=
  [(n >>> 56) % 256, (n >>> 48) % 256, (n >>> 40) % 256, (n >>> 32) % 256,
   (n >>> 24) % 256, (n >>> 16) % 256, (n >>> 8) % 256, n % 256]

/-- SHA-256 padding: append 0x80, zero bytes to 56 mod 64, then the bit length. -/
def pad (msg : List Nat) : List Nat :=
  let len := msg.length
  let zeros := (119 - len % 64) % 64
  msg ++ 0x80 :: List.replicate zeros 0 ++ bytes64 (len * 8)

/-- Split a byte list into big-endian 32-bit words (length must be a multiple of 4). -/
def toWords : List Nat → List Nat
  | b0 :: b1 :: b2 :: b3 :: rest =>
      (((b0 * 256 + b1) * 256 + b2) * 256 + b3) :: toWords rest
  | _ => []

/-- Split a word list into blocks of 16 words (padded input is always a
multiple of 16 words, so the final catch-all is never hit on real input). -/
def toBlocks : List Nat → List (List Nat)
  | w0 :: w1 :: w2 :: w3 :: w4 :: w5 :: w6 :: w7 ::
    w8 :: w9 :: w10 :: w11 :: w12 :: w13 :: w14 :: w15 :: rest =>
      [w0, w1, w2, w3, w4, w5, w6, w7, w8, w9, w10, w11, w12, w13, w14, w15] ::
        toBlocks rest
  | _ => []

/-- Message-schedule extension: extend 16 words to 64. -/
def schedule (w : Array Nat) : Array Nat :=
  (List.range 48).foldl (fun w i =>
    let t := i + 16
    let w15 := w.getD (t - 15) 0
    let w2 := w.getD (t - 2) 0
    let s0 := ((rotr 7 w15) ^^^ (rotr 18 w15) ^^^ (w15 >>> 3)) % M32
    let s1 := ((rotr 17 w2) ^^^ (rotr 19 w2) ^^^ (w2 >>> 10)) % M32
    w.push ((w.getD (t - 16) 0 + s0 + w.getD (t - 7) 0 + s1) % M32)) w

/-- One compression round. -/
def round (st : List Nat) (k w : Nat) : List Nat :=
  match st with
  | [a, b, c, d, e, f, g, h] =>
    let s1 := (rotr 6 e) ^^^ (rotr 11 e) ^^^ (rotr 25 e)
    let ch := (e &&& f) ^^^ ((M32 - 1 - e) &&& g)
    let temp1 := (h + s1 + ch + k + w) % M32
    let s0 := (rotr 2 a) ^^^ (rotr 13 a) ^^^ (rotr 22 a)
    let maj := (a &&& b) ^^^ (a &&& c) ^^^ (b &&& c)
    let temp2 := (s0 + maj) % M32
    [(temp1 + temp2) % M32, a, b, c, (d + temp1) % M32, e, f, g]
  | _ => st

/-- Compress one 16-word block into the hash state. -/
def compress (h : List Nat) (block : List Nat) : List Nat :=
  let w := schedule block.toArray
  let st := (List.range 64).foldl (fun st i => round st (K.getD i 0) (w.getD i 0)) h
  (h.zip st).map (fun p => (p.1 + p.2) % M32)

/-- The SHA-256 digest of a byte list, as eight 32-bit words. -/
def digestWords (msg : List Nat) : List Nat :=
  (toBlocks (toWords (pad msg))).foldl compress initH

def hexChar (n : Nat) : Char :=
  if n < 10 then Char.ofNat (48 + n) else Char.ofNat (87 + n)

/-- Lower-case hex of one 32-bit word (8 hex digits). -/
def wordHex (w : Nat) : List Char :=
  [hexChar ((w >>> 28) % 16), hexChar ((w >>> 24) % 16),
   hexChar ((w >>> 20) % 16), hexChar ((w >>> 16) % 16),
   hexChar ((w >>> 12) % 16), hexChar ((w >>> 8) % 16),
   hexChar ((w >>> 4) % 16), hexChar (w % 16)]

/-- Hex string of a digest, as Go's `fmt.Sprintf("%x", h.Sum(nil))` produces. -/
def digestHex (msg : List Nat) : String :=
  String.mk ((digestWords msg).flatMap wordHex)

end SHA256

/-- Byte encoding of a string.  The strings fed to the hashers in this
development are ASCII, for which the code points coincide with Go's UTF-8
bytes written by `h.Write([]byte(s))`. -/
def strBytes (s : String) : List Nat :=
  s.data.map Char.toNat

/-- `sha256hex` over a list of written strings: Go's incremental
`h.Write([]byte(s₁)); …; h.Write([]byte(sₙ)); fmt.Sprintf("%x", h.Sum(nil))`. -/
def sha256hex (parts : List String) : String :=
  SHA256.digestHex (parts.flatMap strBytes)

/-! ## String ordering and sorting (model of Go `sort.Strings`)

Go sorts strings by byte-wise lexicographic `<`; UTF-8 byte order coincides
with code-point order, so we compare `Char` code points.  The sort is
modelled by insertion sort: `sort.Strings` produces the unique sorted
permutation of its input (duplicate strings are indistinguishable), which
any correct sorting algorithm yields. -/

/-- Lexicographic `≤` on char lists by code point. -/
def lexLe : List Char → List Char → Bool
  | [], _ => true
  | _ :: _, [] => false
  | c :: a, d :: b =>
      if c.toNat < d.toNat then true
      else if d.toNat < c.toNat then false
      else lexLe a b

/-- Lexicographic `≤` on strings (Go's `s <= t`). -/
def strLe (a b : String) : Bool := lexLe a.data b.data

/-- Insert a string into a sorted list (helper of `sortStrings`). -/
def insertSorted (s : String) : List String → List String
  | [] => [s]
  | t :: ts => if strLe s t then s :: t :: ts else t :: insertSorted s ts

/-- Ascending lexicographic sort: model of Go's `sort.Strings`. -/
def sortStrings : List String → List String
  | [] => []
  | s :: ss => insertSorted s (sortStrings ss)

/-- Sortedness predicate used below: every element `≤` all later ones. -/
def StrSorted (l : List String) : Prop :=
  List.Pairwise (fun a b => strLe a b = true) l

/-! ## The Task interface and `ComputeTaskHash`

A Go `graph.Task` is observed through `ID()`, `Hash()`, `Dependencies()`
and `Execute(ctx, workDir, dependencyInputs)`.  `GoTask` carries exactly
these observations; `exec` abstracts the task-specific `Execute` body as a
function of the dependency inputs (the work directory is a fresh scratch
directory; a contract-abiding task writes exactly the files it returns). -/

/-- Go `graph.TaskResult`. -/
structure TaskResult where
  files : List String
  error : Option String
deriving DecidableEq

/-- Go `graph.DependencyInput`. -/
structure DependencyInput where
  taskId : String
  outputDir : String
  files : List String
deriving DecidableEq

/-- A task: `ID()`, `Hash()`, `Dependencies()`, `Execute`. -/
inductive GoTask where
  | mk (id : String) (hash : String) (deps : List GoTask)
      (exec : List DependencyInput → TaskResult)

def GoTask.id : GoTask → String
  | .mk i _ _ _ => i

def GoTask.hash : GoTask → String
  | .mk _ h _ _ => h

def GoTask.deps : GoTask → List GoTask
  | .mk _ _ d _ => d

def GoTask.exec : GoTask → List DependencyInput → TaskResult
  | .mk _ _ _ e => e

mutual

/-- Go `graph.ComputeTaskHash`: sha-256 over the task's own hash followed by
the recursively computed dependency hashes, sorted. -/
def ComputeTaskHash : GoTask → String
  | .mk _ hash deps _ => sha256hex (hash :: sortStrings (hashList deps))

/-- `ComputeTaskHash` mapped over a dependency list. -/
def hashList : List GoTask → List String
  | [] => []
  | t :: ts => ComputeTaskHash t :: hashList ts
end

/-- A do-nothing `Execute` body, used for concrete example tasks. -/
def trivialExec : List DependencyInput → TaskResult := fun _ => ⟨[], none⟩

/-! ## The graph container (Go `graph.Graph`) -/

/-- Go `graph.Graph`: the task list and the edge map from task ID to the
dependency IDs recorded when the task was inserted. -/
structure Graph where
  tasks : List GoTask
  edges : List (String × List String)

/-- Go `graph.NewGraph`. -/
def Graph.empty : Graph := ⟨[], []⟩

/-- Go `Graph.AddTask`: reject if a task with the same `ID()` exists, else
append the task and record its dependency IDs in the edge map. -/
def Graph.AddTask (g : Graph) (t : GoTask) : Except String Graph :=
  if g.tasks.any (fun ex => ex.id = t.id) then
    .error ("task with ID " ++ t.id ++ " already exists")
  else
    .ok { tasks := g.tasks ++ [t],
          edges := setA g.edges t.id (t.deps.map GoTask.id) }

/-- Go `Graph.GetTask`: first task with the given ID. -/
def Graph.GetTask (g : Graph) (id : String) : Except String GoTask :=
  match g.tasks.find? (fun t => t.id = id) with
  | some t => .ok t
  | none => .error ("task with ID " ++ id ++ " not found")

/-! ## KotlinCompile identity (Go `kotlin.KotlinCompile`)

`KotlinCompile.ID()` returns `Hash()`, the sha-256 of the task's own
configuration (type tag, source dir, file list with mtimes, classpath);
dependencies are not hashed.  `mtime` models `os.Stat` on the file system:
the modification time in epoch seconds of each existing file. -/

structure KotlinCompile where
  sourceDir : String
  kotlinFiles : List String
  classpath : List String
  dependencies : List GoTask

/-- Go `KotlinCompile.Hash`: tag, source dir, then each file name followed
by its decimal mtime when the file exists, then the classpath entries. -/
def KotlinCompile.Hash (mtime : String → Option Nat) (k : KotlinCompile) : String :=
  sha256hex ("KotlinCompile" :: k.sourceDir ::
    (k.kotlinFiles.flatMap (fun f =>
      match mtime (k.sourceDir ++ "/" ++ f) with
      | some t => [f, toString t]
      | none => [f]) ++ k.classpath))

/-- Go `KotlinCompile.ID`: "returns the unique identifier for this task
(using hash)". -/
def KotlinCompile.ID (mtime : String → Option Nat) (k : KotlinCompile) : String :=
  k.Hash mtime

/-- Tasks used by the C3 counterexample: same configuration hash (hence the
same closure-hash, both having no dependencies) but distinct IDs. -/
def taskCdupA : GoTask := .mk "idA" "cfg" [] trivialExec

def taskCdupB : GoTask := .mk "idB" "cfg" [] trivialExec

/-! ## The cache-backed runner (Go `graph.Runner`)

The file system is modelled by the cache directory tree plus the set of
live scratch directories.  `cache` maps a published directory path
(`<resultDir>/<closure-hash>`) to the relative paths of the files below it;
a present-but-empty directory maps to `[]`.  A contract-abiding task writes
into its scratch directory exactly the files it returns, so publishing
stores the result's file list.  `filepath.Walk` visits files in lexical
order, modelled by `sortStrings`. -/

structure FS where
  cache : List (String × List String)
  temps : List Nat
  nextTemp : Nat

/-- The empty file system (fresh cache root, no scratch directories). -/
def FS.empty : FS := ⟨[], [], 0⟩

/-- `os.RemoveAll` on a scratch directory. -/
def FS.removeTemp (fs : FS) (id : Nat) : FS :=
  { fs with temps := fs.temps.filter (fun i => i ≠ id) }

/-- Go `graph.ExecutionResult`. -/
structure ExecutionResult where
  task : GoTask
  taskHash : String
  outputDir : String
  result : TaskResult
  cacheHit : Bool

/-- Observable execution events: an `Execute` invocation (with the inputs
passed and the file system at that moment), and a completion being recorded
in the executed-tasks map. -/
inductive Event where
  | execCall (task : GoTask) (inputs : List DependencyInput) (fsAt : FS)
  | collected (id : String) (res : ExecutionResult)

/-- Go `Runner.isCached`: the output directory exists and has entries. -/
def Runner.isCached (fs : FS) (outputDir : String) : Bool :=
  match lookupA fs.cache outputDir with
  | some entries => !entries.isEmpty
  | none => false

/-- Go `Runner.loadCachedResult`: walk the directory, collect relative file
paths (lexical order), tag as cache hit. -/
def Runner.loadCachedResult (t : GoTask) (taskHash outputDir : String)
    (entries : List String) : ExecutionResult :=
  { task := t, taskHash := taskHash, outputDir := outputDir,
    result := { files := sortStrings entries, error := none }, cacheHit := true }

/-- The dependency-input gathering loop of `Runner.executeTask`: abort with
the missing dependency's ID on the first dependency absent from the
executed-tasks map. -/
def gatherDeps : List GoTask → List (String × ExecutionResult) →
    Except String (List DependencyInput)
  | [], _ => .ok []
  | d :: ds, m =>
    match lookupA m d.id with
    | none => .error d.id
    | some depResult =>
      match gatherDeps ds m with
      | .error e => .error e
      | .ok rest =>
          .ok ({ taskId := d.id, outputDir := depResult.outputDir,
                 files := depResult.result.files } :: rest)

/-- Result of one `Runner.executeTask` call: the file system afterwards,
the events it emitted, and its return value. -/
structure ExecOutcome where
  fs : FS
  events : List Event
  outcome : Except String ExecutionResult

/-- Go `Runner.executeTask`: probe the cache; on a miss create a scratch
directory, gather dependency inputs, run `Execute`, publish into
`<resultDir>/<closure-hash>` on success, and remove the scratch directory
on every path (the `defer os.RemoveAll`). -/
def Runner.executeTask (resultDir : String) (fs : FS) (t : GoTask)
    (executedTasks : List (String × ExecutionResult)) : ExecOutcome :=
  let taskHash := ComputeTaskHash t
  let outputDir := resultDir ++ "/" ++ taskHash
  if Runner.isCached fs outputDir then
    { fs := fs, events := [],
      outcome := .ok (Runner.loadCachedResult t taskHash outputDir
        ((lookupA fs.cache outputDir).getD [])) }
  else
    let tempId := fs.nextTemp
    let fs1 : FS := { fs with temps := fs.temps ++ [tempId],
                              nextTemp := fs.nextTemp + 1 }
    match gatherDeps t.deps executedTasks with
    | .error missing =>
        { fs := fs1.removeTemp tempId, events := [],
          outcome := .error ("dependency " ++ missing ++
            " not found in executed tasks") }
    | .ok inputs =>
        let taskResult := t.exec inputs
        let ev := Event.execCall t inputs fs1
        if taskResult.error.isNone then
          let fs2 : FS :=
            { fs1 with cache := setA fs1.cache outputDir taskResult.files }
          { fs := fs2.removeTemp tempId, events := [ev],
            outcome := .ok { task := t, taskHash := taskHash,
                             outputDir := outputDir, result := taskResult,
                             cacheHit := false } }
        else
          { fs := fs1.removeTemp tempId, events := [ev],
            outcome := .ok { task := t, taskHash := taskHash,
                             outputDir := outputDir, result := taskResult,
                             cacheHit := false } }

/-! ## Topological sort (Go `Graph.TopologicalSort`, Kahn's algorithm)

Go iterates its maps in unspecified order; the model fixes the canonical
first-insertion order for the initial queue (claims proved about the sort
do not depend on this choice).  In-degrees are `Int` because Go decrements
below zero when a dependency is listed more than once.  The loop is written
with fuel; `2·|tasks| + 1` pops are shown sufficient below. -/

/-- First-occurrence deduplication, helper: skip keys already seen. -/
def dedupFirstAux (seen : List String) : List String → List String
  | [] => []
  | s :: ss =>
      if s ∈ seen then dedupFirstAux seen ss
      else s :: dedupFirstAux (s :: seen) ss

/-- First-occurrence deduplication: the key set of a Go map built by
assigning each listed key once. -/
def dedupFirst (l : List String) : List String := dedupFirstAux [] l

/-- The dependency IDs recorded for a task ID in the edge map. -/
def edgeIds (g : Graph) (id : String) : List String :=
  (lookupA g.edges id).getD []

/-- The inner loop of Kahn's decrement pass: for every recorded dependency
of one task equal to `current`, decrement that task's in-degree and
enqueue it when the degree reaches zero. -/
def kahnInner (current tid : String) (es : List String)
    (st : List (String × Int) × List String) :
    List (String × Int) × List String :=
  es.foldl (fun st2 dep =>
    if dep = current then
      let newDeg := (lookupA st2.1 tid).getD 0 - 1
      let deg' := setA st2.1 tid newDeg
      if newDeg = 0 then (deg', st2.2 ++ [tid]) else (deg', st2.2)
    else st2) st

/-- The decrement pass of Kahn's algorithm: the inner loop applied to every
task's recorded dependency list. -/
def kahnDecrement (g : Graph) (current : String)
    (state : List (String × Int) × List String) :
    List (String × Int) × List String :=
  g.tasks.foldl (fun st otherTask =>
    kahnInner current otherTask.id ((lookupA g.edges otherTask.id).getD []) st)
    state

/-- Whether the decrement pass for `cur` pushes task `t`: its current
degree is positive and consumed entirely by occurrences of `cur`. -/
def kahnPush (deg : List (String × Int)) (g : Graph) (cur : String)
    (t : GoTask) : Bool :=
  decide (1 ≤ (lookupA deg t.id).getD 0 ∧
    (lookupA deg t.id).getD 0 ≤ ((edgeIds g t.id).count cur : Int))

/-- The Kahn work loop: pop the queue head, look the task up, append it to
the result, then run the decrement pass. -/
def kahnLoop (g : Graph) : Nat → List String → List (String × Int) →
    List GoTask → Except String (List GoTask)
  | _, [], _, acc => .ok acc
  | 0, _ :: _, _, acc => .ok acc
  | fuel + 1, current :: rest, inDeg, acc =>
    match g.GetTask current with
    | .error e => .error e
    | .ok task =>
      let st := kahnDecrement g current (inDeg, rest)
      kahnLoop g fuel st.2 st.1 (acc ++ [task])

/-- Go `Graph.TopologicalSort`. -/
def Graph.TopologicalSort (g : Graph) : Except String (List GoTask) :=
  match kahnLoop g (2 * g.tasks.length + 1)
      ((dedupFirst (g.tasks.map GoTask.id)).filter (fun id =>
        (((lookupA g.edges id).getD []).length : Int) = 0))
      ((dedupFirst (g.tasks.map GoTask.id)).map (fun id =>
        (id, (((lookupA g.edges id).getD []).length : Int)))) [] with
  | .error e => .error e
  | .ok result =>
      if result.length ≠ g.tasks.length then .error "cycle detected in task graph"
      else .ok result

/-! ## Sequential execution (Go `Runner.executeSequential`) -/

/-- Outcome of a whole run: final file system, emitted events, accumulated
results, and the run-level error if any. -/
structure RunOutcome where
  fs : FS
  events : List Event
  results : List ExecutionResult
  err : Option String

/-- The loop body of `executeSequential`: execute each task in order,
record it in the executed map, stop at the first failure. -/
def executeSeqLoop (resultDir : String) : List GoTask → FS → List Event →
    List ExecutionResult → List (String × ExecutionResult) → RunOutcome
  | [], fs, evs, results, _ => ⟨fs, evs, results, none⟩
  | t :: rest, fs, evs, results, executed =>
    let out := Runner.executeTask resultDir fs t executed
    match out.outcome with
    | .error e =>
        ⟨out.fs, evs ++ out.events, results,
          some ("failed to execute task " ++ t.id ++ ": " ++ e)⟩
    | .ok result =>
        let results' := results ++ [result]
        let executed' := setA executed t.id result
        let evs' := evs ++ out.events ++ [Event.collected t.id result]
        match result.result.error with
        | some m => ⟨out.fs, evs', results', some ("task " ++ t.id ++ " failed: " ++ m)⟩
        | none => executeSeqLoop resultDir rest out.fs evs' results' executed'

/-- Go `Runner.executeSequential`: topologically sort, then run the loop. -/
def Runner.executeSequential (resultDir : String) (fs : FS) (g : Graph) :
    RunOutcome :=
  match g.TopologicalSort with
  | .error e => ⟨fs, [], [], some ("failed to sort tasks: " ++ e)⟩
  | .ok ordered => executeSeqLoop resultDir ordered fs [] [] []

/-! ## Gradle version-catalog resolution (Go `gradle` package) -/

/-- Go `gradle.LibraryCoordinate`. -/
structure LibraryCoordinate where
  group : String
  name : String
  version : String
deriving DecidableEq

/-- Go `gradle.GradleDependency` (the fields read by artifact allocation). -/
structure GradleDependency where
  dtype : String
  group : String
  name : String
  version : String
  isLocal : Bool
deriving DecidableEq

/-- Go `gradle.GradleArtefactVersions` (the parsed version catalog). -/
structure GradleArtefactVersions where
  versions : List (String × String)
  libraries : List (String × LibraryCoordinate)
deriving DecidableEq

/-- Go `GradleArtefactVersions.GetLibrary`. -/
def GradleArtefactVersions.GetLibrary (gav : GradleArtefactVersions)
    (ref : String) : Option LibraryCoordinate :=
  lookupA gav.libraries ref

/-- Go `GradleArtefactVersions.GetLibraryVersion`. -/
def GradleArtefactVersions.GetLibraryVersion (gav : GradleArtefactVersions)
    (name : String) : String :=
  match lookupA gav.libraries name with
  | some lib => if lib.version ≠ "" then lib.version else ""
  | none => ""

/-- Go `strings.ReplaceAll(s, ".", "-")`. -/
def hyphenate (s : String) : String :=
  String.mk (s.data.map fun c => if c = '.' then '-' else c)

/-- Resolution of one declared external dependency to a `(group, name,
version)` coordinate, as in the artifact loop of
`GradleCompilationRoot.GetTaskDependencies`: a `libs.` reference (empty
group, nonempty name, catalog present) is looked up by its exact name
first, then by its dot-to-hyphen normalisation; a direct coordinate with
empty version falls back to `GetLibraryVersion(group + "-" + name)`.
Unresolved components stay `""`. -/
def resolveArtifactCoord (cat : Option GradleArtefactVersions)
    (dep : GradleDependency) : String × String × String :=
  if dep.group = "" ∧ dep.name ≠ "" ∧ cat.isSome then
    match cat with
    | some gav =>
      match gav.GetLibrary dep.name with
      | some lib => (lib.group, lib.name, lib.version)
      | none =>
        match gav.GetLibrary (hyphenate dep.name) with
        | some lib => (lib.group, lib.name, lib.version)
        | none => ("", "", "")
    | none => ("", "", "")
  else if dep.group ≠ "" ∧ dep.name ≠ "" then
    let version :=
      if dep.version = "" then
        match cat with
        | some gav => gav.GetLibraryVersion (dep.group ++ "-" ++ dep.name)
        | none => ""
      else dep.version
    (dep.group, dep.name, version)
  else ("", "", "")

/-- The artifact allocation loop of `GetTaskDependencies`: one
`NewArtifactDownload(group, name, version, …)` is appended per declared
dependency whose resolved coordinate is complete. -/
def allocateArtifacts (cat : Option GradleArtefactVersions)
    (deps : List GradleDependency) : List (String × String × String) :=
  deps.foldl (fun acc dep =>
    let r := resolveArtifactCoord cat dep
    if r.1 ≠ "" ∧ r.2.1 ≠ "" ∧ r.2.2 ≠ "" then acc ++ [r] else acc) []

/-- Modelled from the spec: the C9 sentence's resolution rule for a
version-catalog reference — "`libs.foo.bar` maps to entry `foo-bar` after
dot-to-hyphen normalisation; fall back to exact name" — i.e. the
hyphenated entry is consulted first and the exact reference name is the
fallback. -/
def specResolveCatalogRef (gav : GradleArtefactVersions) (name : String) :
    Option LibraryCoordinate :=
  match gav.GetLibrary (hyphenate name) with
  | some lib => some lib
  | none => gav.GetLibrary name

/-- Catalog for the C9 counterexample: both the literal entry `foo.bar`
and the hyphenated entry `foo-bar` exist, with different coordinates. -/
def catC9 : GradleArtefactVersions :=
  ⟨[], [("foo.bar", ⟨"g1", "a1", "1"⟩), ("foo-bar", ⟨"g2", "a2", "2"⟩)]⟩

/-- A declared catalog reference `libs.foo.bar`. -/
def depC9 : GradleDependency := ⟨"implementation", "", "foo.bar", "", false⟩

/-- Two declared dependencies naming the same external coordinate. -/
def depC9b : GradleDependency := ⟨"implementation", "g", "n", "1.0", false⟩

/-- Second declaration of the same coordinate (test configuration). -/
def depC9c : GradleDependency := ⟨"testImplementation", "g", "n", "1.0", false⟩

/-! ## Task objects mutated after insertion (for C10)

Go tasks are pointers whose `dependencies` slice can be appended to by
`AddDependency` after the task has been inserted into a graph, as
`GradleCompilationRoot.ResolveProjectDependencies` does for JAR-to-JAR
project edges.  `TaskStore` maps a task ID to its current dependency-ID
list; `GraphS.AddTask` snapshots that list into the edge map exactly as
`Graph.AddTask` does, while the runner's dependency tracking
(`executeParallel`) re-reads the live list. -/

structure TaskStore where
  deps : List (String × List String)

/-- The live `Dependencies()` list (as IDs) of a stored task. -/
def TaskStore.Dependencies (store : TaskStore) (tid : String) : List String :=
  (lookupA store.deps tid).getD []

/-- Go `JarCompile.AddDependency`: append to the live dependency list. -/
def TaskStore.AddDependency (store : TaskStore) (tid depId : String) : TaskStore :=
  ⟨setA store.deps tid (store.Dependencies tid ++ [depId])⟩

/-- A graph over store-backed tasks: IDs plus the edge map recorded at
insertion time (`Graph.AddTask` on pointer-backed tasks). -/
structure GraphS where
  taskIds : List String
  edges : List (String × List String)

/-- `Graph.AddTask` for store-backed tasks: reject duplicates by ID, else
append and snapshot the task's current dependency IDs into the edge map. -/
def GraphS.AddTask (g : GraphS) (store : TaskStore) (tid : String) :
    Except String GraphS :=
  if g.taskIds.any (fun ex => ex = tid) then
    .error ("task with ID " ++ tid ++ " already exists")
  else
    .ok ⟨g.taskIds ++ [tid], setA g.edges tid (store.Dependencies tid)⟩

/-- The dependency map the parallel runner builds at execution time from
the tasks' live `Dependencies()` (`executeParallel`, dependency
tracking initialisation). -/
def runnerTaskDeps (store : TaskStore) (tids : List String) :
    List (String × List String) :=
  tids.map (fun tid => (tid, store.Dependencies tid))

/-- Concrete task for the C4 witness. -/
def taskC4 : GoTask := .mk "tc4" "hc4" [] trivialExec

/-- Concrete failing task for the C5 witness. -/
def taskC5 : GoTask := .mk "tc5" "hc5" [] (fun _ => ⟨[], some "boom"⟩)

/-- Store and graph for the C10 witness: a JAR task inserted with one
compile dependency, before a peer-project JAR edge is added. -/
def store10 : TaskStore := ⟨[("jar", ["compileA"])]⟩

/-- The graph produced by inserting `jar` from `store10` into the empty
graph. -/
def g10 : GraphS := ⟨["jar"], setA [] "jar" (store10.Dependencies "jar")⟩

/-! ## Notions for the topological-sort claims -/

/-- Number of dependency occurrences of `id` not yet popped (not in `P`). -/
def cntU (g : Graph) (id : String) (P : List String) : Nat :=
  (edgeIds g id).countP (fun d => !P.contains d)

/-- A directed dependency path: `DepPath g a b` when `a` transitively
depends on `b` (through at least one edge). -/
inductive DepPath (g : Graph) : String → String → Prop
  | single : ∀ {a b : String}, b ∈ edgeIds g a → DepPath g a b
  | step : ∀ {a b c : String}, b ∈ edgeIds g a → DepPath g b c → DepPath g a c

/-- The graph contains a directed dependency cycle: some task ID
transitively depends on itself. -/
def HasCycle (g : Graph) : Prop :=
  ∃ id, (∃ t ∈ g.tasks, t.id = id) ∧ DepPath g id id

/-- `res` respects dependency order: every dependency recorded for a task
appears strictly earlier in the list. -/
def PosOk (g : Graph) (res : List GoTask) : Prop :=
  ∀ j (hj : j < res.length), ∀ d ∈ edgeIds g (res.get ⟨j, hj⟩).id,
    d ∈ (res.take j).map GoTask.id

/-- Loop invariant of Kahn's algorithm relating the in-degree map, the
ready queue and the already-popped tasks. -/
structure KahnInv (g : Graph) (queue : List String) (deg : List (String × Int))
    (acc : List GoTask) : Prop where
  hdeg : ∀ t ∈ g.tasks, lookupA deg t.id =
    some (cntU g t.id (acc.map GoTask.id) : Int)
  hqsub : ∀ id ∈ queue, ∃ t ∈ g.tasks, t.id = id
  hqzero : ∀ id ∈ queue, cntU g id (acc.map GoTask.id) = 0
  hpopzero : ∀ id ∈ acc.map GoTask.id, cntU g id (acc.map GoTask.id) = 0
  hnd : (acc.map GoTask.id ++ queue).Nodup
  hacc : ∀ t ∈ acc, t ∈ g.tasks
  hpos : PosOk g acc
  hmiss : ∀ t ∈ g.tasks, t.id ∉ acc.map GoTask.id → t.id ∉ queue →
    cntU g t.id (acc.map GoTask.id) ≠ 0

/-- Bound on the number of loop iterations still possible: queued pops plus
tasks that have never been enqueued. -/
def kahnMeasure (g : Graph) (queue popped : List String) : Nat :=
  queue.length +
    g.tasks.countP (fun t => !popped.contains t.id && !queue.contains t.id)

/-- Tasks and graph for the C6 witness: `b` depends on `a`. -/
def taskC6a : GoTask := .mk "a" "ha" [] trivialExec

/-- Witness task depending on `taskC6a`. -/
def taskC6b : GoTask := .mk "b" "hb" [taskC6a] trivialExec

/-- The two-task witness graph with edge map as `AddTask` records it. -/
def gC6 : Graph := ⟨[taskC6a, taskC6b], [("a", []), ("b", ["a"])]⟩

/-- Task returning no files and no error ("nothing to publish"). -/
def taskC8 : GoTask := .mk "t8" "h8" [] trivialExec

/-- One-task graph for the C8 counterexample. -/
def gC8 : Graph := ⟨[taskC8], [("t8", [])]⟩

/-- Task writing and returning one file. -/
def taskC8b : GoTask := .mk "t8b" "h8b" [] (fun _ => ⟨["out.txt"], none⟩)

/-- One-task graph for the amended C8 witness. -/
def gC8b : Graph := ⟨[taskC8b], [("t8b", [])]⟩

/-- The `ExecutionResult` produced by the cache-miss path of
`executeTask` (helper for stating its characterisation). -/
def missResult (resultDir : String) (t : GoTask)
    (inputs : List DependencyInput) : ExecutionResult :=
  { task := t, taskHash := ComputeTaskHash t,
    outputDir := resultDir ++ "/" ++ ComputeTaskHash t,
    result := t.exec inputs, cacheHit := false }

/-! ## Parallel execution (Go `Runner.executeParallel` / `Runner.workerParallel`)

The parallel scheduler is modelled as a small-step transition system.  A
worker (a) receives a task from the buffered `taskQueue` channel,
(b) snapshots the shared executed-tasks map (`SafeExecutedTasks.ToMap`),
and (c) runs `executeTask`, whose file-system effects are applied
atomically when it completes; the collector consumes one result
(`resultChan`) or one worker error (`errorChan`) per step, both FIFO.
Steps interleave arbitrarily.  Worker steps stay enabled after the
collector has returned (`halted ≠ none`): Go workers keep draining the
queue; only the collector stops.  The Go loop bound
`completedCount < len(allTasks)` is subsumed: each task completes at most
once (proved below), so at most `len(allTasks)` results ever arrive. -/

/-- The dependency-ID set recorded for a task (`taskDeps[task.ID()]`): a Go
map built from the live dependency list, so duplicate IDs collapse to
their first occurrence. -/
def depIdSet (t : GoTask) : List String := dedupFirst (t.deps.map GoTask.id)

/-- The `taskDeps` map after the initialisation loop of `executeParallel`. -/
def initTaskDeps (tasks : List GoTask) : List (String × List String) :=
  tasks.foldl (fun m t => setA m t.id (depIdSet t)) []

/-- The `taskInDegree` map after the initialisation loop. -/
def initInDeg (tasks : List GoTask) : List (String × Int) :=
  tasks.foldl (fun m t => setA m t.id ((depIdSet t).length : Int)) []

/-- State of the parallel scheduler: the immutable task list, the file
system, the `taskQueue` channel, the dequeued tasks in flight (with the
executed-map snapshot once `ToMap` has been called), the `resultChan` and
`errorChan` buffers, the shared `SafeExecutedTasks` map, the collector's
result list and `taskInDegree` map, the collector's return error once it
has stopped, the failing collected result if any (ghost), and the ordered
trace of observable events (ghost). -/
structure PState where
  tasks : List GoTask
  fs : FS
  queue : List GoTask
  running : List (GoTask × Option (List (String × ExecutionResult)))
  resultsBuf : List ExecutionResult
  errorsBuf : List String
  finished : List (String × ExecutionResult)
  results : List ExecutionResult
  inDeg : List (String × Int)
  halted : Option String
  failed : Option ExecutionResult
  trace : List Event

/-- The initial scheduler state: dependency tracking initialised from the
live dependency lists, and every task whose in-degree is zero queued in
task-list order. -/
def initPState (g : Graph) (fs : FS) : PState :=
  { tasks := g.tasks
    fs := fs
    queue := g.tasks.filter (fun t => (lookupA (initInDeg g.tasks) t.id).getD 0 = 0)
    running := []
    resultsBuf := []
    errorsBuf := []
    finished := []
    results := []
    inDeg := initInDeg g.tasks
    halted := none
    failed := none
    trace := [] }

/-- The collector's decrement pass: for every task whose recorded
dependency set contains the completed ID, decrement its in-degree and
enqueue it when the degree reaches zero. -/
def parDecrement (tasks : List GoTask) (tdeps : List (String × List String))
    (completedId : String) (st : List (String × Int) × List GoTask) :
    List (String × Int) × List GoTask :=
  tasks.foldl (fun st2 task =>
    if completedId ∈ (lookupA tdeps task.id).getD [] then
      let newDeg := (lookupA st2.1 task.id).getD 0 - 1
      let deg := setA st2.1 task.id newDeg
      if newDeg = 0 then (deg, st2.2 ++ [task]) else (deg, st2.2)
    else st2) st

/-- The collector consuming one successful result: append it to the result
list, record it in the shared map, then run the decrement pass and enqueue
the newly ready tasks. -/
def collectOk (s : PState) (r : ExecutionResult) (rest : List ExecutionResult) :
    PState :=
  let p := parDecrement s.tasks (initTaskDeps s.tasks) r.task.id (s.inDeg, [])
  { s with resultsBuf := rest,
           results := s.results ++ [r],
           finished := setA s.finished r.task.id r,
           inDeg := p.1,
           queue := s.queue ++ p.2,
           trace := s.trace ++ [Event.collected r.task.id r] }

/-- The collector consuming a failed result: append and record it, then
return with the error naming the failing task; no decrement pass runs. -/
def collectFail (s : PState) (r : ExecutionResult) (rest : List ExecutionResult)
    (m : String) : PState :=
  { s with resultsBuf := rest,
           results := s.results ++ [r],
           finished := setA s.finished r.task.id r,
           halted := some ("task " ++ r.task.id ++ " failed: " ++ m),
           failed := some r,
           trace := s.trace ++ [Event.collected r.task.id r] }

/-- A worker finishing `executeTask` on its dequeued task: apply the
file-system effects, extend the trace with the emitted events, and send
the result to `resultChan` or the wrapped error to `errorChan`. -/
def finishTask (resultDir : String) (s : PState) (t : GoTask)
    (snap : List (String × ExecutionResult))
    (r1 r2 : List (GoTask × Option (List (String × ExecutionResult)))) :
    PState :=
  let out := Runner.executeTask resultDir s.fs t snap
  { s with running := r1 ++ r2,
           fs := out.fs,
           trace := s.trace ++ out.events,
           resultsBuf := s.resultsBuf ++ (match out.outcome with
             | .ok r => [r]
             | .error _ => []),
           errorsBuf := s.errorsBuf ++ (match out.outcome with
             | .ok _ => []
             | .error e => ["failed to execute task " ++ t.id ++ ": " ++ e]) }

/-- One interleaving step of the parallel scheduler. -/
inductive PStep (resultDir : String) : PState → PState → Prop
  | dequeue (s : PState) (t : GoTask) (q : List GoTask) :
      s.queue = t :: q →
      PStep resultDir s
        { s with queue := q, running := s.running ++ [(t, none)] }
  | snapshot (s : PState) (t : GoTask)
      (r1 r2 : List (GoTask × Option (List (String × ExecutionResult)))) :
      s.running = r1 ++ (t, none) :: r2 →
      PStep resultDir s { s with running := r1 ++ (t, some s.finished) :: r2 }
  | finish (s : PState) (t : GoTask) (snap : List (String × ExecutionResult))
      (r1 r2 : List (GoTask × Option (List (String × ExecutionResult)))) :
      s.running = r1 ++ (t, some snap) :: r2 →
      PStep resultDir s (finishTask resultDir s t snap r1 r2)
  | collectOkStep (s : PState) (r : ExecutionResult) (rest : List ExecutionResult) :
      s.halted = none →
      s.resultsBuf = r :: rest →
      r.result.error = none →
      PStep resultDir s (collectOk s r rest)
  | collectFailStep (s : PState) (r : ExecutionResult) (rest : List ExecutionResult)
      (m : String) :
      s.halted = none →
      s.resultsBuf = r :: rest →
      r.result.error = some m →
      PStep resultDir s (collectFail s r rest m)
  | collectErrStep (s : PState) (e : String) (rest : List String) :
      s.halted = none →
      s.errorsBuf = e :: rest →
      PStep resultDir s { s with errorsBuf := rest, halted := some e }

/-- Reachability of a scheduler state from the initial state of a graph. -/
def PReach (resultDir : String) (g : Graph) (fs : FS) (s : PState) : Prop :=
  Relation.ReflTransGen (PStep resultDir) (initPState g fs) s

/-- The spec's graph invariants as used by the runner claims: task IDs are
unique, every live dependency of a graph task is itself in the task list,
and equal closure-hashes imply equal IDs (the spec's no-duplicate-
closure-hash invariant). -/
def WfTasks (tasks : List GoTask) : Prop :=
  (tasks.map GoTask.id).Nodup ∧
  (∀ t ∈ tasks, ∀ d ∈ t.deps, d ∈ tasks) ∧
  (∀ t1 ∈ tasks, ∀ t2 ∈ tasks,
    ComputeTaskHash t1 = ComputeTaskHash t2 → t1.id = t2.id)

/-- `id` has an error-free result in the collected-result list. -/
def goodRes (rs : List ExecutionResult) (id : String) : Bool :=
  rs.any (fun r => r.task.id = id && r.result.error.isNone)

/-- Every recorded dependency of `t` has completed without error. -/
def AllDepsGood (rs : List ExecutionResult) (t : GoTask) : Prop :=
  ∀ d ∈ depIdSet t, goodRes rs d = true

/-- Number of recorded dependencies of `t` not yet completed error-free. -/
def pendCount (rs : List ExecutionResult) (t : GoTask) : Nat :=
  (depIdSet t).countP (fun d => !goodRes rs d)

/-- How many scheduler slots (queue, in flight, result buffer, collected
results) are occupied by tasks with the given ID. -/
def occCount (s : PState) (id : String) : Nat :=
  (s.queue.map GoTask.id).count id +
  (s.running.map (fun p => p.1.id)).count id +
  (s.resultsBuf.map (fun r => r.task.id)).count id +
  (s.results.map (fun r => r.task.id)).count id

/-- The dependency-visibility property of an event trace (claim C1): at
every `Execute` invocation, each dependency was collected strictly
earlier with an error-free result, the inputs carry its ID, its published
directory and its files, and that directory exists in the file system at
call time with exactly those files. -/
def InputsOk (resultDir : String) (tr : List Event) : Prop :=
  ∀ i t inputs fsc, tr.get? i = some (Event.execCall t inputs fsc) →
    ∀ d ∈ t.deps, ∃ j res, j < i ∧
      tr.get? j = some (Event.collected d.id res) ∧
      res.result.error = none ∧
      res.outputDir = resultDir ++ "/" ++ ComputeTaskHash d ∧
      ({ taskId := d.id, outputDir := res.outputDir,
         files := res.result.files } : DependencyInput) ∈ inputs ∧
      ∃ l, lookupA fsc.cache res.outputDir = some l ∧ l.Perm res.result.files

/-- Transitive dependency through the live `Dependencies()` lists. -/
inductive LiveDep : GoTask → GoTask → Prop
  | direct {t d : GoTask} : d ∈ t.deps → LiveDep t d
  | trans {t d e : GoTask} : d ∈ t.deps → LiveDep d e → LiveDep t e

/-- Reachability invariant of the parallel scheduler. -/
structure PInv (resultDir : String) (T : List GoTask) (s : PState) : Prop where
  htasks : s.tasks = T
  hqmem : ∀ t ∈ s.queue, t ∈ T
  hrmem : ∀ p ∈ s.running, p.1 ∈ T
  hbmem : ∀ r ∈ s.resultsBuf, r.task ∈ T
  hresmem : ∀ r ∈ s.results, r.task ∈ T
  hocc : ∀ id, occCount s id ≤ 1
  hqgood : ∀ t ∈ s.queue, AllDepsGood s.results t
  hrgood : ∀ p ∈ s.running, AllDepsGood s.results p.1
  hbgood : ∀ r ∈ s.resultsBuf, AllDepsGood s.results r.task
  hresgood : ∀ r ∈ s.results, AllDepsGood s.results r.task
  hbshape : ∀ r ∈ s.resultsBuf,
    r.outputDir = resultDir ++ "/" ++ ComputeTaskHash r.task
  hresshape : ∀ r ∈ s.results,
    r.outputDir = resultDir ++ "/" ++ ComputeTaskHash r.task
  hdeg : ∀ t ∈ T, lookupA s.inDeg t.id = some (pendCount s.results t : Int)
  hfin : ∀ id r, lookupA s.finished id = some r → r ∈ s.results ∧ r.task.id = id
  hfin2 : ∀ r ∈ s.results, lookupA s.finished r.task.id = some r
  hsnap : ∀ t snap, (t, some snap) ∈ s.running →
    (∀ id r, lookupA snap id = some r → r ∈ s.results ∧ r.task.id = id) ∧
    (∀ d ∈ depIdSet t, ∃ r, lookupA snap d = some r ∧ r.result.error = none)
  hcol : ∀ r ∈ s.results, Event.collected r.task.id r ∈ s.trace
  hbpub : ∀ r ∈ s.resultsBuf, r.result.error = none →
    ∃ l, lookupA s.fs.cache r.outputDir = some l ∧ l.Perm r.result.files
  hrespub : ∀ r ∈ s.results, r.result.error = none →
    ∃ l, lookupA s.fs.cache r.outputDir = some l ∧ l.Perm r.result.files
  hexecev : ∀ t inputs fsc, Event.execCall t inputs fsc ∈ s.trace →
    t ∈ T ∧ AllDepsGood s.results t
  hio : InputsOk resultDir s.trace
  hfail : ∀ fr, s.failed = some fr → fr ∈ s.results ∧
    ∃ m, fr.result.error = some m ∧
      s.halted = some ("task " ++ fr.task.id ++ " failed: " ++ m)

/-! # Theorems -/

theorem lookupA_setA_self {α : Type} (l : List (String × α)) (k : String) (v : α) :
    lookupA (setA l k v) k = some v := by
  induction l with
  | nil => simp [setA, lookupA]
  | cons hd tl ih =>
    obtain ⟨k', w⟩ := hd
    by_cases h : k' = k <;> simp [setA, lookupA, h, ih]

theorem lookupA_setA_ne {α : Type} (l : List (String × α)) (k k' : String) (v : α)
    (h : k ≠ k') : lookupA (setA l k v) k' = lookupA l k' := by
  induction l with
  | nil => simp [setA, lookupA, h]
  | cons hd tl ih =>
    obtain ⟨k0, w⟩ := hd
    by_cases h0 : k0 = k
    · subst h0
      simp [setA, lookupA, h]
    · simp [setA, lookupA, h0, ih]

theorem lexLe_total (a b : List Char) : lexLe a b = true ∨ lexLe b a = true := by
  induction a generalizing b with
  | nil => left; rfl
  | cons c a ih =>
    cases b with
    | nil => right; rfl
    | cons d b =>
      rcases Nat.lt_trichotomy c.toNat d.toNat with h | h | h
      · left; simp [lexLe, h]
      · rcases ih b with h' | h'
        · left; simp [lexLe, h, h']
        · right; simp [lexLe, h.symm, h']
      · right; simp [lexLe, h]

theorem lexLe_antisymm (a b : List Char) (hab : lexLe a b = true)
    (hba : lexLe b a = true) : a = b := by
  induction a generalizing b with
  | nil =>
    cases b with
    | nil => rfl
    | cons d b => simp [lexLe] at hba
  | cons c a ih =>
    cases b with
    | nil => simp [lexLe] at hab
    | cons d b =>
      rcases Nat.lt_trichotomy c.toNat d.toNat with h | h | h
      · simp [lexLe, h, Nat.lt_asymm h] at hba
      · have hc : c = d := Char.ext (UInt32.ext h)
        subst hc
        simp only [lexLe, Nat.lt_irrefl, if_false] at hab hba
        rw [ih b hab hba]
      · simp [lexLe, h, Nat.lt_asymm h] at hab

theorem lexLe_trans (a b c : List Char) (hab : lexLe a b = true)
    (hbc : lexLe b c = true) : lexLe a c = true := by
  induction a generalizing b c with
  | nil => rfl
  | cons x a ih =>
    cases b with
    | nil => simp [lexLe] at hab
    | cons y b =>
      cases c with
      | nil => simp [lexLe] at hbc
      | cons z c =>
        simp only [lexLe] at hab hbc ⊢
        rcases Nat.lt_trichotomy x.toNat y.toNat with h1 | h1 | h1 <;>
          rcases Nat.lt_trichotomy y.toNat z.toNat with h2 | h2 | h2 <;>
          simp_all [Nat.lt_asymm, Nat.lt_irrefl] <;>
          first
            | (exact Or.inl (Nat.lt_trans h1 h2))
            | (exact Or.inl (h2 ▸ h1))
            | (exact Or.inl (h1 ▸ h2))
            | (exact ih b c hab hbc)
            | omega

theorem strLe_total (a b : String) : strLe a b = true ∨ strLe b a = true :=
  lexLe_total a.data b.data

theorem strLe_antisymm (a b : String) (hab : strLe a b = true)
    (hba : strLe b a = true) : a = b := by
  cases a; cases b
  exact congrArg String.mk (lexLe_antisymm _ _ hab hba)

theorem strLe_trans (a b c : String) (hab : strLe a b = true)
    (hbc : strLe b c = true) : strLe a c = true :=
  lexLe_trans a.data b.data c.data hab hbc

theorem insertSorted_perm (s : String) (l : List String) :
    (insertSorted s l).Perm (s :: l) := by
  induction l with
  | nil => exact List.Perm.refl _
  | cons t ts ih =>
    by_cases h : strLe s t = true
    · simp [insertSorted, h]
    · simp only [insertSorted, h]
      simp only [Bool.false_eq_true, if_false]
      exact (List.Perm.cons t ih).trans (List.Perm.swap s t ts)

theorem sortStrings_perm (l : List String) : (sortStrings l).Perm l := by
  induction l with
  | nil => exact List.Perm.refl _
  | cons s ss ih =>
    exact (insertSorted_perm s (sortStrings ss)).trans (List.Perm.cons s ih)

theorem strSorted_insertSorted (s : String) (l : List String)
    (h : StrSorted l) : StrSorted (insertSorted s l) := by
  induction l with
  | nil => simp [insertSorted, StrSorted]
  | cons t ts ih =>
    rcases List.pairwise_cons.mp h with ⟨ht, hts⟩
    by_cases hle : strLe s t = true
    · simp only [insertSorted, hle, if_true]
      refine List.pairwise_cons.mpr ⟨?_, h⟩
      intro b hb
      rcases hb with _ | hb
      · exact hle
      · exact strLe_trans s t b hle (ht _ (by assumption))
    · simp only [insertSorted, hle, Bool.false_eq_true, if_false]
      refine List.pairwise_cons.mpr ⟨?_, ih hts⟩
      intro b hb
      have hts' : (insertSorted s ts).Perm (s :: ts) := insertSorted_perm s ts
      have hb' : b ∈ s :: ts := hts'.mem_iff.mp hb
      rcases hb' with _ | hb'
      · rcases strLe_total s t with h' | h'
        · exact absurd h' hle
        · exact h'
      · exact ht _ (by assumption)

theorem strSorted_sortStrings (l : List String) : StrSorted (sortStrings l) := by
  induction l with
  | nil => simp [sortStrings, StrSorted]
  | cons s ss ih => exact strSorted_insertSorted s (sortStrings ss) ih

/-- A sorted permutation is unique, hence `sortStrings` is invariant under
permutations of its input. -/
theorem sortStrings_eq_of_perm (l l' : List String) (h : l.Perm l') :
    sortStrings l = sortStrings l' := by
  have hp : (sortStrings l).Perm (sortStrings l') :=
    (sortStrings_perm l).trans (h.trans (sortStrings_perm l').symm)
  have : IsAntisymm String (fun a b => strLe a b = true) :=
    ⟨fun a b => strLe_antisymm a b⟩
  exact List.eq_of_perm_of_sorted hp (strSorted_sortStrings l) (strSorted_sortStrings l')

theorem hashList_eq_map (ts : List GoTask) :
    hashList ts = ts.map ComputeTaskHash := by
  induction ts with
  | nil => rfl
  | cons t ts ih => rw [hashList, ih, List.map_cons]

/-! ## Claim C2: dependency-order invariance of the closure-hash -/

/-- Claim C2: for every task, permuting the order of its `Dependencies()`
list does not change `ComputeTaskHash`: the recursively computed dependency
closure-hashes are sorted before being written into the sha-256, so
dependency order does not perturb identity. -/
theorem computeTaskHash_dep_order_invariant
    (i h : String) (e : List DependencyInput → TaskResult)
    (deps deps' : List GoTask) (hperm : deps.Perm deps') :
    ComputeTaskHash (.mk i h deps e) = ComputeTaskHash (.mk i h deps' e) := by
  simp only [ComputeTaskHash, hashList_eq_map]
  rw [sortStrings_eq_of_perm _ _ (hperm.map ComputeTaskHash)]

/-- Witness for C2: swapping two concrete dependencies leaves the
closure-hash unchanged. -/
theorem computeTaskHash_dep_order_invariant_witness :
    ComputeTaskHash (.mk "t" "h0"
      [.mk "a" "ha" [] trivialExec, .mk "b" "hb" [] trivialExec] trivialExec) =
    ComputeTaskHash (.mk "t" "h0"
      [.mk "b" "hb" [] trivialExec, .mk "a" "ha" [] trivialExec] trivialExec) :=
  computeTaskHash_dep_order_invariant "t" "h0" trivialExec _ _
    (List.Perm.swap _ _ _)

/-! ## Claim C3: what keys the graph -/

/-- Counterexample to claim C3 as stated: two tasks with the same
closure-hash (identical own-hash `"cfg"`, no dependencies) but distinct
`ID()`s are both accepted by `Graph.AddTask`, so insertion is not rejected
"exactly when a task with the same closure-hash is already present". -/
theorem addTask_closure_hash_counterexample :
    ComputeTaskHash taskCdupA = ComputeTaskHash taskCdupB ∧
    taskCdupA.id ≠ taskCdupB.id ∧
    ∃ g1 g2, Graph.empty.AddTask taskCdupA = .ok g1 ∧
      g1.AddTask taskCdupB = .ok g2 := by
  refine ⟨?_, by decide, ⟨_, _, rfl, rfl⟩⟩
  simp only [taskCdupA, taskCdupB, ComputeTaskHash, hashList]

/-- Claim C3 (amended): `Graph.AddTask` rejects an inserted task exactly
when a task with the same `ID()` is already present — the identity keying
the graph is the task's `ID()`, not the closure-hash; for `KotlinCompile`,
`ID()` is its own configuration hash, which is independent of its
dependency list. -/
theorem addTask_rejects_iff_same_id :
    (∀ (g : Graph) (t : GoTask),
      (∃ e, g.AddTask t = .error e) ↔ ∃ ex ∈ g.tasks, ex.id = t.id) ∧
    (∀ (mtime : String → Option Nat) (k : KotlinCompile) (d : List GoTask),
      KotlinCompile.ID mtime { k with dependencies := d } =
        KotlinCompile.ID mtime k) := by
  constructor
  · intro g t
    unfold Graph.AddTask
    by_cases h : g.tasks.any (fun ex => ex.id = t.id)
    · simp only [h, if_true]
      simp only [List.any_eq_true, decide_eq_true_eq] at h
      exact ⟨fun _ => h, fun _ => ⟨_, rfl⟩⟩
    · simp only [h, if_false]
      simp only [List.any_eq_true, decide_eq_true_eq] at h
      constructor
      · rintro ⟨e, he⟩
        exact absurd he (by simp)
      · intro hex
        exact absurd hex h
  · intro mtime k d
    rfl

/-! ## Claim C4: cache probe short-circuits execution -/

/-- Helper: the cache-hit path of `executeTask`, fully characterised. -/
theorem executeTask_hit_eq (resultDir : String) (fs : FS) (t : GoTask)
    (m : List (String × ExecutionResult)) (entries : List String)
    (hc : lookupA fs.cache (resultDir ++ "/" ++ ComputeTaskHash t) = some entries)
    (hne : entries ≠ []) :
    Runner.executeTask resultDir fs t m =
      { fs := fs, events := [],
        outcome := .ok (Runner.loadCachedResult t (ComputeTaskHash t)
          (resultDir ++ "/" ++ ComputeTaskHash t) entries) } := by
  have hcached : Runner.isCached fs (resultDir ++ "/" ++ ComputeTaskHash t) = true := by
    unfold Runner.isCached
    rw [hc]
    simpa using hne
  unfold Runner.executeTask
  simp [hcached, hc]

/-- Claim C4: for every task whose published directory
`<cache-root>/<closure-hash>` exists and has at least one entry,
`executeTask` returns a result tagged cache-hit whose `Files` are the
relative paths collected by recursively walking that directory (lexical
order), the file system is untouched, and the task's `Execute` is not
invoked (no `execCall` event is emitted). -/
theorem executeTask_cache_hit (resultDir : String) (fs : FS) (t : GoTask)
    (m : List (String × ExecutionResult)) (entries : List String)
    (hc : lookupA fs.cache (resultDir ++ "/" ++ ComputeTaskHash t) = some entries)
    (hne : entries ≠ []) :
    Runner.executeTask resultDir fs t m =
      { fs := fs, events := [],
        outcome := .ok { task := t, taskHash := ComputeTaskHash t,
                         outputDir := resultDir ++ "/" ++ ComputeTaskHash t,
                         result := { files := sortStrings entries, error := none },
                         cacheHit := true } } := by
  rw [executeTask_hit_eq resultDir fs t m entries hc hne]
  rfl

/-- Witness for C4: a populated cache entry yields the cache-hit result. -/
theorem executeTask_cache_hit_witness :
    Runner.executeTask "cache"
        ⟨[("cache/" ++ ComputeTaskHash taskC4, ["out.txt"])], [], 0⟩ taskC4 [] =
      { fs := ⟨[("cache/" ++ ComputeTaskHash taskC4, ["out.txt"])], [], 0⟩,
        events := [],
        outcome := .ok { task := taskC4, taskHash := ComputeTaskHash taskC4,
                         outputDir := "cache/" ++ ComputeTaskHash taskC4,
                         result := { files := sortStrings ["out.txt"], error := none },
                         cacheHit := true } } :=
  executeTask_cache_hit "cache" _ taskC4 [] ["out.txt"]
    (by simp [lookupA]) (by simp)

/-! ## Claim C5: failure publishes nothing and removes the scratch dir -/

/-- Claim C5: when a task's `Execute` returns a result carrying an error,
the runner leaves the cache untouched (no cache directory is created or
populated for the task, so an absent `<cache-root>/<closure-hash>` stays
absent), removes the scratch directory, and carries the failing result
back. -/
theorem executeTask_failure_leaves_cache_absent
    (resultDir : String) (fs : FS) (t : GoTask)
    (m : List (String × ExecutionResult)) (inputs : List DependencyInput)
    (hfresh : ∀ i ∈ fs.temps, i < fs.nextTemp)
    (hmiss : Runner.isCached fs (resultDir ++ "/" ++ ComputeTaskHash t) = false)
    (hga : gatherDeps t.deps m = .ok inputs)
    (herr : (t.exec inputs).error.isSome) :
    (Runner.executeTask resultDir fs t m).fs.cache = fs.cache ∧
    (Runner.executeTask resultDir fs t m).fs.temps = fs.temps ∧
    (Runner.executeTask resultDir fs t m).outcome =
      .ok { task := t, taskHash := ComputeTaskHash t,
            outputDir := resultDir ++ "/" ++ ComputeTaskHash t,
            result := t.exec inputs, cacheHit := false } := by
  have hnone : (t.exec inputs).error.isNone = false := by
    rcases h : (t.exec inputs).error with _ | v
    · rw [h] at herr; simp [Option.isSome] at herr
    · simp [Option.isNone]
  have htemps : (fs.temps ++ [fs.nextTemp]).filter (fun i => i ≠ fs.nextTemp) = fs.temps := by
    rw [List.filter_append]
    have h1 : fs.temps.filter (fun i => i ≠ fs.nextTemp) = fs.temps := by
      rw [List.filter_eq_self]
      intro a ha
      simp only [ne_eq, decide_eq_true_eq]
      exact Nat.ne_of_lt (hfresh a ha)
    rw [h1]
    simp
  unfold Runner.executeTask
  simp only [hmiss, Bool.false_eq_true, if_false, hga, hnone, FS.removeTemp]
  refine ⟨by first | rfl | trivial, htemps, by first | rfl | trivial⟩

/-- Witness for C5: a failing task on an empty file system publishes
nothing and leaves no scratch directory behind. -/
theorem executeTask_failure_leaves_cache_absent_witness :
    (Runner.executeTask "cache" FS.empty taskC5 []).fs.cache = FS.empty.cache ∧
    (Runner.executeTask "cache" FS.empty taskC5 []).fs.temps = FS.empty.temps ∧
    (Runner.executeTask "cache" FS.empty taskC5 []).outcome =
      .ok { task := taskC5, taskHash := ComputeTaskHash taskC5,
            outputDir := "cache/" ++ ComputeTaskHash taskC5,
            result := taskC5.exec [], cacheHit := false } :=
  executeTask_failure_leaves_cache_absent "cache" FS.empty taskC5 [] []
    (by simp [FS.empty]) (by rfl) (by rfl) (by rfl)

/-! ## Claim C9: catalog-reference resolution order -/

/-- Counterexample to claim C9 as stated: with both entries `foo.bar` and
`foo-bar` in the catalog, the code resolves `libs.foo.bar` to the exact
entry `foo.bar`, whereas the claimed rule (hyphenated entry first, exact
name as fallback) picks `foo-bar`.  Additionally, two declared
dependencies naming the same coordinate allocate two ArtifactDownload
tasks, not one per distinct triple. -/
theorem resolveCatalogRef_counterexample :
    resolveArtifactCoord (some catC9) depC9 = ("g1", "a1", "1") ∧
    specResolveCatalogRef catC9 depC9.name = some ⟨"g2", "a2", "2"⟩ ∧
    allocateArtifacts (some catC9) [depC9] = [("g1", "a1", "1")] ∧
    allocateArtifacts none [depC9b, depC9c] =
      [("g", "n", "1.0"), ("g", "n", "1.0")] := by
  decide

/-- Claim C9 (amended): a version-catalog reference is resolved by looking
up the exact reference name first, falling back to the dot-to-hyphen
normalisation; one ArtifactDownload task is allocated per declared
external dependency whose resolved (group, name, version) triple is
complete (not per distinct triple). -/
theorem resolveCatalogRef_exact_name_first :
    (∀ (gav : GradleArtefactVersions) (dep : GradleDependency)
        (lib : LibraryCoordinate),
      dep.group = "" → dep.name ≠ "" →
      gav.GetLibrary dep.name = some lib →
      resolveArtifactCoord (some gav) dep = (lib.group, lib.name, lib.version)) ∧
    (∀ (gav : GradleArtefactVersions) (dep : GradleDependency),
      dep.group = "" → dep.name ≠ "" →
      gav.GetLibrary dep.name = none →
      resolveArtifactCoord (some gav) dep =
        (match gav.GetLibrary (hyphenate dep.name) with
         | some lib => (lib.group, lib.name, lib.version)
         | none => ("", "", ""))) ∧
    (∀ (cat : Option GradleArtefactVersions) (deps : List GradleDependency),
      allocateArtifacts cat deps = deps.filterMap (fun dep =>
        let r := resolveArtifactCoord cat dep
        if r.1 ≠ "" ∧ r.2.1 ≠ "" ∧ r.2.2 ≠ "" then some r else none)) := by
  refine ⟨?_, ?_, ?_⟩
  · intro gav dep lib hg hn hlib
    simp [resolveArtifactCoord, hg, hn, hlib]
  · intro gav dep hg hn hlib
    simp [resolveArtifactCoord, hg, hn, hlib]
  · intro cat deps
    suffices h : ∀ acc, deps.foldl (fun acc dep =>
        let r := resolveArtifactCoord cat dep
        if r.1 ≠ "" ∧ r.2.1 ≠ "" ∧ r.2.2 ≠ "" then acc ++ [r] else acc) acc =
        acc ++ deps.filterMap (fun dep =>
          let r := resolveArtifactCoord cat dep
          if r.1 ≠ "" ∧ r.2.1 ≠ "" ∧ r.2.2 ≠ "" then some r else none) by
      simpa [allocateArtifacts] using h []
    induction deps with
    | nil => intro acc; simp
    | cons d ds ih =>
      intro acc
      by_cases hd : (resolveArtifactCoord cat d).1 ≠ "" ∧
          (resolveArtifactCoord cat d).2.1 ≠ "" ∧ (resolveArtifactCoord cat d).2.2 ≠ ""
      · simp only [List.foldl_cons, List.filterMap_cons]
        rw [if_pos hd, if_pos hd, ih]
        simp
      · simp only [List.foldl_cons, List.filterMap_cons]
        rw [if_neg hd, if_neg hd, ih]

/-- Witness for C9 (amended): the three parts applied at concrete
catalogs and dependency lists. -/
theorem resolveCatalogRef_exact_name_first_witness :
    resolveArtifactCoord (some catC9) depC9 = ("g1", "a1", "1") ∧
    resolveArtifactCoord (some catC9) ⟨"implementation", "", "foo.baz", "", false⟩ =
      ("", "", "") ∧
    allocateArtifacts (some catC9) [depC9] = [depC9].filterMap (fun dep =>
      let r := resolveArtifactCoord (some catC9) dep
      if r.1 ≠ "" ∧ r.2.1 ≠ "" ∧ r.2.2 ≠ "" then some r else none) :=
  ⟨resolveCatalogRef_exact_name_first.1 catC9 depC9 ⟨"g1", "a1", "1"⟩
      (by decide) (by decide) (by decide),
   (resolveCatalogRef_exact_name_first.2.1 catC9
      ⟨"implementation", "", "foo.baz", "", false⟩
      (by decide) (by decide) (by decide)).trans (by decide),
   resolveCatalogRef_exact_name_first.2.2 (some catC9) [depC9]⟩

/-! ## Claim C10: snapshot edges versus live dependencies -/

/-- Helper: looking a fresh ID up in the runner's live dependency map. -/
theorem lookupA_runnerTaskDeps_append (store : TaskStore) (xs : List String)
    (tid : String) (h : tid ∉ xs) :
    lookupA (runnerTaskDeps store (xs ++ [tid])) tid =
      some (store.Dependencies tid) := by
  induction xs with
  | nil => simp [runnerTaskDeps, lookupA]
  | cons x xs ih =>
    have hx : x ≠ tid := fun hh => h (hh ▸ List.mem_cons_self x xs)
    simp only [List.cons_append, runnerTaskDeps, List.map_cons, lookupA, if_neg hx]
    exact ih (fun hh => h (List.mem_cons_of_mem x hh))

/-- Claim C10: `AddTask` records a snapshot of the task's dependency IDs
at insertion time and the edge map is never updated afterwards: a
dependency appended to an already-inserted task (as
`ResolveProjectDependencies` does for JAR-to-JAR edges) appears in the
task's live `Dependencies()` list — the one the runner's dependency
tracking reads — but not in the recorded edge map that the topological
sort orders by. -/
theorem addTask_snapshot_vs_live
    (store : TaskStore) (g g' : GraphS) (tid depId : String)
    (hadd : g.AddTask store tid = .ok g')
    (hnew : depId ∉ store.Dependencies tid) :
    (store.AddDependency tid depId).Dependencies tid =
      store.Dependencies tid ++ [depId] ∧
    lookupA g'.edges tid = some (store.Dependencies tid) ∧
    depId ∉ ((lookupA g'.edges tid).getD []) ∧
    lookupA (runnerTaskDeps (store.AddDependency tid depId) g'.taskIds) tid =
      some (store.Dependencies tid ++ [depId]) := by
  unfold GraphS.AddTask at hadd
  by_cases hdup : g.taskIds.any (fun ex => ex = tid)
  · rw [if_pos hdup] at hadd
    exact absurd hadd (by simp)
  · rw [if_neg hdup] at hadd
    have hg' : g' = ⟨g.taskIds ++ [tid], setA g.edges tid (store.Dependencies tid)⟩ := by
      cases hadd
      rfl
    subst hg'
    have hlive : (store.AddDependency tid depId).Dependencies tid =
        store.Dependencies tid ++ [depId] := by
      unfold TaskStore.AddDependency TaskStore.Dependencies
      simp [lookupA_setA_self]
    have hedge : lookupA (setA g.edges tid (store.Dependencies tid)) tid =
        some (store.Dependencies tid) := lookupA_setA_self _ _ _
    refine ⟨hlive, hedge, ?_, ?_⟩
    · rw [hedge]
      simpa using hnew
    · have htid : tid ∉ g.taskIds := by
        simp only [List.any_eq_true, decide_eq_true_eq] at hdup
        intro hmem
        exact hdup ⟨tid, hmem, rfl⟩
      rw [lookupA_runnerTaskDeps_append _ _ _ htid, hlive]

/-- Witness for C10: the peer-JAR dependency added after insertion shows
up in the live list and the runner's map, but not in the snapshot edges. -/
theorem addTask_snapshot_vs_live_witness :
    (store10.AddDependency "jar" "peerJar").Dependencies "jar" =
      store10.Dependencies "jar" ++ ["peerJar"] ∧
    lookupA g10.edges "jar" = some (store10.Dependencies "jar") ∧
    "peerJar" ∉ ((lookupA g10.edges "jar").getD []) ∧
    lookupA (runnerTaskDeps (store10.AddDependency "jar" "peerJar") g10.taskIds)
        "jar" = some (store10.Dependencies "jar" ++ ["peerJar"]) :=
  addTask_snapshot_vs_live store10 ⟨[], []⟩ g10 "jar" "peerJar" (by rfl) (by decide)

/-! ## Helper lemmas for the topological-sort proof -/

theorem setA_setA {α : Type} (l : List (String × α)) (k : String) (v w : α) :
    setA (setA l k v) k w = setA l k w := by
  induction l with
  | nil => simp [setA]
  | cons hd tl ih =>
    obtain ⟨k0, x⟩ := hd
    by_cases h : k0 = k <;> simp [setA, h, ih]

theorem contains_eq_decideMem (l : List String) (a : String) :
    l.contains a = decide (a ∈ l) := by
  by_cases h : a ∈ l
  · simp [List.elem_iff.mpr h, h]
  · have h1 : l.contains a = false := by
      rw [← Bool.not_eq_true, List.elem_iff]
      exact h
    simp [h1, h]

theorem cntU_zero_iff (g : Graph) (id : String) (P : List String) :
    cntU g id P = 0 ↔ ∀ d ∈ edgeIds g id, d ∈ P := by
  unfold cntU
  rw [List.countP_eq_zero]
  constructor
  · intro h d hd
    have := h d hd
    simp [contains_eq_decideMem] at this
    exact this
  · intro h d hd
    simp [contains_eq_decideMem, h d hd]

theorem cntU_mono (g : Graph) (id : String) (P P' : List String)
    (h : ∀ x ∈ P, x ∈ P') : cntU g id P' ≤ cntU g id P := by
  unfold cntU
  apply List.countP_mono_left
  intro d _ hd
  simp only [contains_eq_decideMem, Bool.not_eq_true', decide_eq_false_iff_not] at hd ⊢
  exact fun hc => hd (h d hc)

theorem cntU_pop (g : Graph) (id cur : String) (P : List String)
    (h : cur ∉ P) :
    cntU g id P = cntU g id (P ++ [cur]) + (edgeIds g id).count cur := by
  unfold cntU
  induction edgeIds g id with
  | nil => simp
  | cons d ds ih =>
    rw [List.countP_cons, List.countP_cons, List.count_cons, ih]
    simp only [contains_eq_decideMem]
    by_cases hd : d = cur <;> by_cases hp : d ∈ P <;>
      simp [hd, hp, h] <;> omega

theorem lookupA_mapSelf {β : Type} (f : String → β) (ids : List String)
    (x : String) (hx : x ∈ ids) :
    lookupA (ids.map fun i => (i, f i)) x = some (f x) := by
  induction ids with
  | nil => cases hx
  | cons i is ih =>
    by_cases h : i = x
    · subst h; simp [lookupA]
    · rcases List.mem_cons.mp hx with he | hx'
      · exact absurd he.symm h
      · simp only [List.map_cons, lookupA, if_neg h]
        exact ih hx'

theorem dedupFirstAux_eq_self (l : List String) : ∀ seen : List String,
    l.Nodup → (∀ x ∈ l, x ∉ seen) → dedupFirstAux seen l = l := by
  induction l with
  | nil => intro seen _ _; rfl
  | cons x xs ih =>
    intro seen hnd hdis
    rcases List.nodup_cons.mp hnd with ⟨hx, hxs⟩
    have h1 : x ∉ seen := hdis x (by simp)
    simp only [dedupFirstAux, if_neg h1]
    rw [ih (x :: seen) hxs]
    intro y hy
    simp only [List.mem_cons]
    push_neg
    exact ⟨fun he => hx (he ▸ hy), hdis y (by simp [hy])⟩

theorem dedupFirst_eq_self (l : List String) (hnd : l.Nodup) :
    dedupFirst l = l :=
  dedupFirstAux_eq_self l [] hnd (by simp)

theorem find_id_of_mem (tasks : List GoTask) (id : String) (t : GoTask)
    (hnd : (tasks.map GoTask.id).Nodup) (ht : t ∈ tasks) (hid : t.id = id) :
    tasks.find? (fun x => x.id = id) = some t := by
  induction tasks with
  | nil => cases ht
  | cons x xs ih =>
    rw [List.map_cons, List.nodup_cons] at hnd
    rcases List.mem_cons.mp ht with he | htl
    · subst he
      simp [List.find?_cons, hid]
    · have hxid : decide (x.id = id) = false := by
        simp only [decide_eq_false_iff_not]
        intro he
        exact hnd.1 (by rw [he, ← hid]; exact List.mem_map_of_mem GoTask.id htl)
      rw [List.find?_cons, hxid]
      exact ih hnd.2 htl

theorem getTask_of_mem (g : Graph) (id : String) (t : GoTask)
    (hnd : (g.tasks.map GoTask.id).Nodup) (ht : t ∈ g.tasks) (hid : t.id = id) :
    g.GetTask id = .ok t := by
  unfold Graph.GetTask
  rw [find_id_of_mem g.tasks id t hnd ht hid]

theorem depPath_trans (g : Graph) (a b c : String)
    (h1 : DepPath g a b) (h2 : DepPath g b c) : DepPath g a c := by
  induction h1 with
  | single h => exact DepPath.step h h2
  | step h _ ih => exact DepPath.step h (ih h2)

theorem kahnInner_spec (cur tid : String) (es : List String) :
    ∀ st : List (String × Int) × List String,
    kahnInner cur tid es st =
      ((if es.count cur = 0 then st.1
        else setA st.1 tid ((lookupA st.1 tid).getD 0 - (es.count cur : Int))),
       st.2 ++ (if 1 ≤ (lookupA st.1 tid).getD 0 ∧
           (lookupA st.1 tid).getD 0 ≤ (es.count cur : Int) then [tid] else [])) := by
  induction es with
  | nil =>
    intro st
    have hc : ¬(1 ≤ (lookupA st.1 tid).getD 0 ∧
        (lookupA st.1 tid).getD 0 ≤ (0 : Int)) := by omega
    simp [kahnInner, hc]
  | cons e es ih =>
    intro st
    by_cases he : e = cur
    · subst he
      have hcount : (e :: es).count e = es.count e + 1 := List.count_cons_self e es
      have hstep : kahnInner e tid (e :: es) st =
          kahnInner e tid es
            (setA st.1 tid ((lookupA st.1 tid).getD 0 - 1),
             st.2 ++ (if (lookupA st.1 tid).getD 0 - 1 = 0 then [tid] else [])) := by
        unfold kahnInner
        simp only [List.foldl_cons, if_pos rfl]
        by_cases hz : (lookupA st.1 tid).getD 0 - 1 = 0 <;> simp [hz]
      rw [hstep, ih]
      rw [lookupA_setA_self]
      simp only [Option.getD_some, hcount]
      refine Prod.ext ?_ ?_
      · by_cases hz : es.count e = 0
        · simp only [hz, if_pos rfl, Nat.cast_add, Nat.cast_zero, Nat.cast_one]
          have : ¬(es.count e + 1 = 0) := by omega
          simp only [hz, Nat.zero_add]
          have harith : (lookupA st.1 tid).getD 0 - 1 =
              (lookupA st.1 tid).getD 0 - ((1 : Nat) : Int) := by push_cast; ring
          simp [harith]
        · have h1 : ¬(es.count e + 1 = 0) := by omega
          simp only [hz, if_neg hz, if_neg h1]
          rw [setA_setA]
          push_cast
          ring_nf
      · by_cases h1 : (lookupA st.1 tid).getD 0 - 1 = 0 <;>
          by_cases h2 : 1 ≤ (lookupA st.1 tid).getD 0 - 1 ∧
            (lookupA st.1 tid).getD 0 - 1 ≤ (es.count e : Int) <;>
          by_cases h3 : 1 ≤ (lookupA st.1 tid).getD 0 ∧
            (lookupA st.1 tid).getD 0 ≤ ((es.count e + 1 : Nat) : Int) <;>
          simp only [h1, h2, h3, if_pos, if_neg, if_true, if_false,
            List.append_assoc, List.append_nil, List.nil_append] <;>
          first
            | rfl
            | (exfalso; push_cast at h1 h2 h3; omega)
    · have hne : (e = cur) = False := by simp [he]
      have hcount : (e :: es).count cur = es.count cur := by
        rw [List.count_cons]
        simp [he]
      have hstep : kahnInner cur tid (e :: es) st = kahnInner cur tid es st := by
        unfold kahnInner
        simp only [List.foldl_cons, hne, if_false]
      rw [hstep, ih, hcount]

theorem kahnOuter_preserve (g : Graph) (cur : String) :
    ∀ (ts : List GoTask) (st : List (String × Int) × List String) (id : String),
    id ∉ ts.map GoTask.id →
    lookupA (ts.foldl (fun st t =>
      kahnInner cur t.id ((lookupA g.edges t.id).getD []) st) st).1 id =
      lookupA st.1 id := by
  intro ts
  induction ts with
  | nil => intro st id _; rfl
  | cons t ts ih =>
    intro st id hid
    rw [List.map_cons, List.mem_cons] at hid
    push_neg at hid
    rw [List.foldl_cons, ih _ id hid.2, kahnInner_spec]
    by_cases hz : ((lookupA g.edges t.id).getD []).count cur = 0
    · simp [hz]
    · simp only [if_neg hz]
      exact lookupA_setA_ne _ _ _ _ (fun h => hid.1 h.symm)

theorem kahnOuter_spec (g : Graph) (cur : String) :
    ∀ (ts : List GoTask) (st : List (String × Int) × List String),
    (ts.map GoTask.id).Nodup →
    ((ts.foldl (fun st t =>
        kahnInner cur t.id ((lookupA g.edges t.id).getD []) st) st).2 =
      st.2 ++ (ts.filter (kahnPush st.1 g cur)).map GoTask.id) ∧
    (∀ t ∈ ts,
      lookupA (ts.foldl (fun st t =>
        kahnInner cur t.id ((lookupA g.edges t.id).getD []) st) st).1 t.id =
        (if (edgeIds g t.id).count cur = 0 then lookupA st.1 t.id
         else some ((lookupA st.1 t.id).getD 0 -
           ((edgeIds g t.id).count cur : Int)))) := by
  intro ts
  induction ts with
  | nil => intro st _; exact ⟨by simp, by simp⟩
  | cons t ts ih =>
    intro st hnd
    rw [List.map_cons, List.nodup_cons] at hnd
    obtain ⟨hts, hnd'⟩ := hnd
    obtain ⟨ihq, ihd⟩ := ih (kahnInner cur t.id ((lookupA g.edges t.id).getD []) st) hnd'
    have hlook : ∀ u ∈ ts, lookupA (kahnInner cur t.id
        ((lookupA g.edges t.id).getD []) st).1 u.id = lookupA st.1 u.id := by
      intro u hu
      have hne : u.id ≠ t.id := by
        intro he
        exact hts (he ▸ List.mem_map_of_mem GoTask.id hu)
      rw [kahnInner_spec]
      by_cases hz : ((lookupA g.edges t.id).getD []).count cur = 0
      · simp [hz]
      · simp only [if_neg hz]
        exact lookupA_setA_ne _ _ _ _ (fun h => hne h.symm)
    have hpush : ∀ u ∈ ts, kahnPush (kahnInner cur t.id
        ((lookupA g.edges t.id).getD []) st).1 g cur u = kahnPush st.1 g cur u := by
      intro u hu
      unfold kahnPush
      rw [hlook u hu]
    constructor
    · rw [List.foldl_cons, ihq]
      have hfilter : ts.filter (kahnPush (kahnInner cur t.id
          ((lookupA g.edges t.id).getD []) st).1 g cur) =
          ts.filter (kahnPush st.1 g cur) :=
        List.filter_congr hpush
      rw [hfilter]
      have hq2 : (kahnInner cur t.id ((lookupA g.edges t.id).getD []) st).2 =
          st.2 ++ (if kahnPush st.1 g cur t = true then [t.id] else []) := by
        rw [kahnInner_spec]
        unfold kahnPush
        by_cases hp : 1 ≤ (lookupA st.1 t.id).getD 0 ∧
            (lookupA st.1 t.id).getD 0 ≤
              ((((lookupA g.edges t.id).getD []).count cur : Nat) : Int)
        · simp only [if_pos hp]
          simp [edgeIds, hp]
        · simp only [if_neg hp]
          simp [edgeIds, hp]
      rw [hq2]
      rw [List.filter_cons]
      by_cases hp : kahnPush st.1 g cur t = true
      · simp [hp]
      · simp only [hp]
        simp at hp
        simp [hp]
    · intro u hu
      rcases List.mem_cons.mp hu with he | hu'
      · subst he
        rw [List.foldl_cons,
          kahnOuter_preserve g cur ts _ u.id hts, kahnInner_spec]
        by_cases hz : ((lookupA g.edges u.id).getD []).count cur = 0
        · simp only [if_pos hz]
          have : (edgeIds g u.id).count cur = 0 := hz
          simp [this]
        · simp only [if_neg hz]
          have hz' : ¬((edgeIds g u.id).count cur = 0) := hz
          rw [if_neg hz', lookupA_setA_self]
          rfl
      · rw [List.foldl_cons, ihd u hu', hlook u hu']

theorem countP_le_of_pointwise {α : Type} (l : List α) (p q r : α → Bool)
    (h : ∀ x ∈ l, (q x = true → p x = true) ∧
      (r x = true → p x = true ∧ q x = false)) :
    l.countP q + l.countP r ≤ l.countP p := by
  induction l with
  | nil => simp
  | cons x xs ih =>
    have hx := h x (by simp)
    have ihs := ih (fun y hy => h y (by simp [hy]))
    rw [List.countP_cons, List.countP_cons, List.countP_cons]
    rcases hq : q x <;> rcases hr : r x <;> rcases hp : p x <;>
      simp_all <;> omega

theorem posOk_append (g : Graph) (acc : List GoTask) (t : GoTask)
    (hpos : PosOk g acc) (ht : ∀ d ∈ edgeIds g t.id, d ∈ acc.map GoTask.id) :
    PosOk g (acc ++ [t]) := by
  intro j hj d hd
  rw [List.length_append, List.length_singleton] at hj
  by_cases hlt : j < acc.length
  · have hget : (acc ++ [t]).get ⟨j, by simpa using hj⟩ = acc.get ⟨j, hlt⟩ := by
      rw [List.get_eq_getElem, List.get_eq_getElem, List.getElem_append_left]
    rw [hget] at hd
    have := hpos j hlt d hd
    rw [List.take_append_of_le_length (Nat.le_of_lt hlt)]
    exact this
  · have hj' : j = acc.length := by omega
    subst hj'
    have hget : (acc ++ [t]).get ⟨acc.length, by simp⟩ = t := by
      rw [List.get_eq_getElem, List.getElem_append_right (Nat.le_refl _)]
      simp
    rw [hget] at hd
    rw [List.take_append_of_le_length (Nat.le_refl _), List.take_length]
    exact ht d hd

theorem kahnStep (g : Graph) (hnd : (g.tasks.map GoTask.id).Nodup)
    (cur : String) (rest : List String) (deg : List (String × Int))
    (acc : List GoTask) (inv : KahnInv g (cur :: rest) deg acc)
    (tcur : GoTask) (htcur : tcur ∈ g.tasks) (hidcur : tcur.id = cur) :
    KahnInv g (kahnDecrement g cur (deg, rest)).2
      (kahnDecrement g cur (deg, rest)).1 (acc ++ [tcur]) ∧
    kahnMeasure g (kahnDecrement g cur (deg, rest)).2
        ((acc ++ [tcur]).map GoTask.id) + 1 ≤
      kahnMeasure g (cur :: rest) (acc.map GoTask.id) := by
  obtain ⟨hq', hd'⟩ := kahnOuter_spec g cur g.tasks (deg, rest) hnd
  simp only at hq' hd'
  unfold kahnDecrement
  have hpop' : (acc ++ [tcur]).map GoTask.id = acc.map GoTask.id ++ [cur] := by
    rw [List.map_append, List.map_singleton, hidcur]
  -- structure of the old no-dup hypothesis
  have hndq := inv.hnd
  rw [List.nodup_append] at hndq
  obtain ⟨hndpop, hndcr, hdisj⟩ := hndq
  have hcurpop : cur ∉ acc.map GoTask.id := fun h => hdisj h (by simp)
  have hcurrest : cur ∉ rest := (List.nodup_cons.mp hndcr).1
  -- the decrement equation for unpopped counts
  have hcnt : ∀ id, cntU g id (acc.map GoTask.id) =
      cntU g id (acc.map GoTask.id ++ [cur]) + (edgeIds g id).count cur :=
    fun id => cntU_pop g id cur _ hcurpop
  -- characterisation of the push predicate
  have hpush_iff : ∀ t ∈ g.tasks, (kahnPush deg g cur t = true ↔
      (1 ≤ cntU g t.id (acc.map GoTask.id) ∧
       cntU g t.id (acc.map GoTask.id) ≤ (edgeIds g t.id).count cur)) := by
    intro t ht
    unfold kahnPush
    rw [inv.hdeg t ht]
    simp only [Option.getD_some, decide_eq_true_eq]
    constructor
    · rintro ⟨h1, h2⟩
      exact ⟨by exact_mod_cast h1, by exact_mod_cast h2⟩
    · rintro ⟨h1, h2⟩
      exact ⟨by exact_mod_cast h1, by exact_mod_cast h2⟩
  -- pushed tasks were neither popped nor queued
  have hpush_fresh : ∀ t ∈ g.tasks, kahnPush deg g cur t = true →
      t.id ∉ acc.map GoTask.id ∧ t.id ∉ (cur :: rest) := by
    intro t ht hp
    obtain ⟨h1, _⟩ := (hpush_iff t ht).mp hp
    constructor
    · intro hmem
      exact absurd (inv.hpopzero t.id hmem) (by omega)
    · intro hmem
      exact absurd (inv.hqzero t.id hmem) (by omega)
  -- zero count after the pop, for pushed tasks
  have hpush_zero : ∀ t ∈ g.tasks, kahnPush deg g cur t = true →
      cntU g t.id (acc.map GoTask.id ++ [cur]) = 0 := by
    intro t ht hp
    obtain ⟨_, h2⟩ := (hpush_iff t ht).mp hp
    have := hcnt t.id
    omega
  refine ⟨⟨?_, ?_, ?_, ?_, ?_, ?_, ?_, ?_⟩, ?_⟩
  · -- hdeg
    intro t ht
    rw [hpop']
    rw [hd' t ht]
    by_cases hz : (edgeIds g t.id).count cur = 0
    · rw [if_pos hz, inv.hdeg t ht]
      have := hcnt t.id
      have heq : cntU g t.id (acc.map GoTask.id) =
          cntU g t.id (acc.map GoTask.id ++ [cur]) := by omega
      rw [heq]
    · rw [if_neg hz, inv.hdeg t ht]
      simp only [Option.getD_some, Option.some.injEq]
      have := hcnt t.id
      omega
  · -- hqsub
    intro id hid
    rw [hq'] at hid
    rcases List.mem_append.mp hid with h | h
    · exact inv.hqsub id (by simp [h])
    · obtain ⟨t, htf, hteq⟩ := List.mem_map.mp h
      exact ⟨t, List.mem_of_mem_filter htf, hteq⟩
  · -- hqzero
    intro id hid
    rw [hpop']
    rw [hq'] at hid
    rcases List.mem_append.mp hid with h | h
    · have h0 := inv.hqzero id (by simp [h])
      have hmono := cntU_mono g id (acc.map GoTask.id)
        (acc.map GoTask.id ++ [cur]) (by intro x hx; simp [hx])
      omega
    · obtain ⟨t, htf, hteq⟩ := List.mem_map.mp h
      rw [← hteq]
      exact hpush_zero t (List.mem_of_mem_filter htf)
        (List.of_mem_filter htf)
  · -- hpopzero
    intro id hid
    rw [hpop'] at hid ⊢
    have hmono := cntU_mono g id (acc.map GoTask.id)
      (acc.map GoTask.id ++ [cur]) (by intro x hx; simp [hx])
    rcases List.mem_append.mp hid with h | h
    · have h0 := inv.hpopzero id h
      omega
    · have h0 := inv.hqzero id (by simp at h; simp [h])
      omega
  · -- hnd
    rw [hpop', hq']
    have hperm : (acc.map GoTask.id ++ [cur]) ++
        (rest ++ (g.tasks.filter (kahnPush deg g cur)).map GoTask.id) =
        (acc.map GoTask.id ++ (cur :: rest)) ++
          (g.tasks.filter (kahnPush deg g cur)).map GoTask.id := by
      simp [List.append_assoc]
    rw [hperm, List.nodup_append]
    refine ⟨inv.hnd, ?_, ?_⟩
    · have : ((g.tasks.filter (kahnPush deg g cur)).map GoTask.id).Sublist
          (g.tasks.map GoTask.id) :=
        (List.filter_sublist _).map GoTask.id
      exact this.nodup hnd
    · intro x hx hx'
      obtain ⟨t, htf, hteq⟩ := List.mem_map.mp hx'
      obtain ⟨hnp, hnq⟩ := hpush_fresh t (List.mem_of_mem_filter htf)
        (List.of_mem_filter htf)
      rcases List.mem_append.mp hx with h | h
      · exact hnp (hteq ▸ h)
      · exact hnq (hteq ▸ h)
  · -- hacc
    intro t ht
    rcases List.mem_append.mp ht with h | h
    · exact inv.hacc t h
    · rw [List.mem_singleton.mp h]
      exact htcur
  · -- hpos
    apply posOk_append g acc tcur inv.hpos
    intro d hd
    have h0 := inv.hqzero cur (by simp)
    rw [cntU_zero_iff] at h0
    exact h0 d (hidcur ▸ hd)
  · -- hmiss
    intro t ht hnp hnq
    rw [hpop'] at hnp ⊢
    rw [hq'] at hnq
    have hnp0 : t.id ∉ acc.map GoTask.id := fun h => hnp (by simp [h])
    have hncur : t.id ≠ cur := fun h => hnp (by simp [h])
    have hnrest : t.id ∉ rest := fun h => hnq (by simp [h])
    have hnpush : t.id ∉ (g.tasks.filter (kahnPush deg g cur)).map GoTask.id :=
      fun h => hnq (by simp [h])
    have hold := inv.hmiss t ht hnp0 (by simp [hncur, hnrest])
    intro h0
    -- if the count dropped to zero, the task must have been pushed
    have := hcnt t.id
    have hp : kahnPush deg g cur t = true := by
      rw [hpush_iff t ht]
      omega
    exact hnpush (List.mem_map.mpr ⟨t, List.mem_filter.mpr
      ⟨ht, hp⟩, rfl⟩)
  · -- measure decrease
    rw [hq', hpop']
    unfold kahnMeasure
    have hlen : ((g.tasks.filter (kahnPush deg g cur)).map GoTask.id).length =
        g.tasks.countP (kahnPush deg g cur) := by
      rw [List.length_map, ← List.countP_eq_length_filter]
    have hcount : g.tasks.countP (fun t =>
          !(acc.map GoTask.id ++ [cur]).contains t.id &&
          !(rest ++ (g.tasks.filter (kahnPush deg g cur)).map GoTask.id).contains t.id) +
        g.tasks.countP (kahnPush deg g cur) ≤
        g.tasks.countP (fun t =>
          !(acc.map GoTask.id).contains t.id && !(cur :: rest).contains t.id) := by
      apply countP_le_of_pointwise
      intro t ht
      constructor
      · intro hq2
        simp only [Bool.and_eq_true, Bool.not_eq_true',
          contains_eq_decideMem, decide_eq_false_iff_not] at hq2 ⊢
        obtain ⟨a, b⟩ := hq2
        simp only [List.mem_append] at a b
        push_neg at a b
        refine ⟨a.1, ?_⟩
        intro hmem
        rcases List.mem_cons.mp hmem with h | h
        · exact a.2 (by simp [h])
        · exact b.1 h
      · intro hp
        obtain ⟨hnp, hnq⟩ := hpush_fresh t ht hp
        constructor
        · simp only [Bool.and_eq_true, Bool.not_eq_true',
            contains_eq_decideMem, decide_eq_false_iff_not]
          exact ⟨hnp, hnq⟩
        · have hmem : t.id ∈ (g.tasks.filter (kahnPush deg g cur)).map GoTask.id :=
            List.mem_map.mpr ⟨t, List.mem_filter.mpr ⟨ht, hp⟩, rfl⟩
          simp [contains_eq_decideMem, hmem]
    rw [List.length_append, hlen]
    simp only [List.length_cons]
    omega

theorem kahnLoop_spec (g : Graph) (hnd : (g.tasks.map GoTask.id).Nodup) :
    ∀ (fuel : Nat) (queue : List String) (deg : List (String × Int))
      (acc : List GoTask),
    KahnInv g queue deg acc →
    kahnMeasure g queue (acc.map GoTask.id) ≤ fuel →
    ∃ res, kahnLoop g fuel queue deg acc = .ok res ∧
      (∃ ext, res = acc ++ ext) ∧ PosOk g res ∧
      (res.map GoTask.id).Nodup ∧ (∀ t ∈ res, t ∈ g.tasks) ∧
      (∀ t ∈ g.tasks, t.id ∉ res.map GoTask.id →
        cntU g t.id (res.map GoTask.id) ≠ 0) := by
  intro fuel
  induction fuel with
  | zero =>
    intro queue deg acc inv hm
    cases queue with
    | cons a as =>
      exfalso
      unfold kahnMeasure at hm
      simp at hm
    | nil =>
      refine ⟨acc, rfl, ⟨[], by simp⟩, inv.hpos, ?_, inv.hacc, ?_⟩
      · have h := inv.hnd
        simpa using h
      · intro t ht hp
        exact inv.hmiss t ht hp (by simp)
  | succ fuel ih =>
    intro queue deg acc inv hm
    cases queue with
    | nil =>
      refine ⟨acc, rfl, ⟨[], by simp⟩, inv.hpos, ?_, inv.hacc, ?_⟩
      · have h := inv.hnd
        simpa using h
      · intro t ht hp
        exact inv.hmiss t ht hp (by simp)
    | cons cur rest =>
      obtain ⟨tcur, htcur, hidcur⟩ := inv.hqsub cur (by simp)
      have hget : g.GetTask cur = .ok tcur :=
        getTask_of_mem g cur tcur hnd htcur hidcur
      obtain ⟨inv', hdec⟩ := kahnStep g hnd cur rest deg acc inv tcur htcur hidcur
      have hm' : kahnMeasure g (kahnDecrement g cur (deg, rest)).2
          ((acc ++ [tcur]).map GoTask.id) ≤ fuel := by omega
      obtain ⟨res, hres, ⟨ext, hext⟩, hpos, hnodup, hmem, hfin⟩ :=
        ih (kahnDecrement g cur (deg, rest)).2
          (kahnDecrement g cur (deg, rest)).1 (acc ++ [tcur]) inv' hm'
      refine ⟨res, ?_, ⟨tcur :: ext, by simpa [List.append_assoc] using hext⟩,
        hpos, hnodup, hmem, hfin⟩
      unfold kahnLoop
      rw [hget]
      exact hres

theorem cntU_nil (g : Graph) (id : String) :
    cntU g id [] = (edgeIds g id).length := by
  unfold cntU
  simp

theorem kahnInit_inv (g : Graph) (hnd : (g.tasks.map GoTask.id).Nodup) :
    KahnInv g
      ((g.tasks.map GoTask.id).filter (fun id =>
        (((lookupA g.edges id).getD []).length : Int) = 0))
      ((g.tasks.map GoTask.id).map (fun id =>
        (id, (((lookupA g.edges id).getD []).length : Int))))
      [] := by
  refine ⟨?_, ?_, ?_, ?_, ?_, ?_, ?_, ?_⟩
  · intro t ht
    rw [lookupA_mapSelf _ _ _ (List.mem_map_of_mem GoTask.id ht)]
    rw [List.map_nil, cntU_nil]
    rfl
  · intro id hid
    exact List.mem_map.mp (List.mem_of_mem_filter hid)
  · intro id hid
    have hp := List.of_mem_filter hid
    simp only [decide_eq_true_eq, Nat.cast_inj] at hp
    rw [List.map_nil, cntU_nil]
    exact_mod_cast hp
  · intro id hid
    simp at hid
  · simp only [List.map_nil, List.nil_append]
    exact hnd.filter _
  · intro t ht
    simp at ht
  · intro j hj
    simp at hj
  · intro t ht _ hq
    rw [List.map_nil, cntU_nil]
    intro hlen
    apply hq
    apply List.mem_filter.mpr
    refine ⟨List.mem_map_of_mem GoTask.id ht, ?_⟩
    simp only [decide_eq_true_eq]
    have : (edgeIds g t.id).length = 0 := hlen
    rw [show ((lookupA g.edges t.id).getD []) = edgeIds g t.id from rfl, this]
    rfl

theorem cycle_not_popped (g : Graph) (res : List GoTask) (hpos : PosOk g res) :
    ∀ j (hj : j < res.length) (id : String), DepPath g id id →
      (res.get ⟨j, hj⟩).id = id → False := by
  intro j
  induction j using Nat.strong_induction_on with
  | _ j ihj =>
    intro hj id hcyc hid
    have hdecomp : ∃ b ∈ edgeIds g id, DepPath g b b := by
      cases hcyc with
      | single h => exact ⟨id, h, DepPath.single h⟩
      | step h p => exact ⟨_, h, depPath_trans g _ id _ p (DepPath.single h)⟩
    obtain ⟨b, hb, hbcyc⟩ := hdecomp
    have hmem := hpos j hj b (by rw [hid]; exact hb)
    obtain ⟨u, hu, hub⟩ := List.mem_map.mp hmem
    obtain ⟨⟨i, hi⟩, hget⟩ := List.mem_iff_get.mp hu
    have hij : i < j := by
      have := hi
      rw [List.length_take] at this
      omega
    have hilen : i < res.length := by
      have := hi
      rw [List.length_take] at this
      omega
    apply ihj i hij hilen b hbcyc
    rw [← hub, ← hget]
    congr 1
    rw [List.get_eq_getElem, List.get_eq_getElem, List.getElem_take]

theorem kahnMeasure_le (g : Graph) (queue popped : List String) :
    kahnMeasure g queue popped ≤ queue.length + g.tasks.length := by
  unfold kahnMeasure
  exact Nat.add_le_add_left (List.countP_le_length _) _

theorem cycle_of_closed (g : Graph) (M : List String) (hne : M ≠ [])
    (hcl : ∀ m ∈ M, ∃ m' ∈ M, m' ∈ edgeIds g m) :
    ∃ c ∈ M, DepPath g c c := by
  choose f hfM hfE using hcl
  obtain ⟨m0, hm0⟩ := List.exists_mem_of_ne_nil M hne
  let step : {x : String // x ∈ M} → {x : String // x ∈ M} :=
    fun z => ⟨f z.1 z.2, hfM z.1 z.2⟩
  let seq : Nat → {x : String // x ∈ M} := fun n => step^[n] ⟨m0, hm0⟩
  have hsucc : ∀ n, seq (n + 1) = step (seq n) := by
    intro n
    simp only [seq, Function.iterate_succ_apply']
  have hedge : ∀ n, (seq (n + 1)).1 ∈ edgeIds g (seq n).1 := by
    intro n
    rw [hsucc n]
    exact hfE _ _
  have hpath : ∀ k i, DepPath g (seq i).1 (seq (i + k + 1)).1 := by
    intro k
    induction k with
    | zero => intro i; exact DepPath.single (hedge i)
    | succ k ihk =>
      intro i
      have h1 : DepPath g (seq i).1 (seq (i + k + 1)).1 := ihk i
      have h2 : DepPath g (seq (i + k + 1)).1 (seq (i + k + 2)).1 :=
        DepPath.single (hedge (i + k + 1))
      have h3 : i + (k + 1) + 1 = i + k + 2 := by omega
      rw [h3]
      exact depPath_trans g _ _ _ h1 h2
  have hfin : Finite {x : String // x ∈ M} := by
    have := (M.finite_toSet).to_subtype
    exact this
  obtain ⟨a, b, hab, heq⟩ := Finite.exists_ne_map_eq_of_infinite seq
  rcases Nat.lt_or_ge a b with h | h
  · refine ⟨(seq a).1, (seq a).2, ?_⟩
    have hb : b = a + (b - a - 1) + 1 := by omega
    have := hpath (b - a - 1) a
    rw [← hb, ← heq] at this
    exact this
  · have hba : a > b := by omega
    refine ⟨(seq b).1, (seq b).2, ?_⟩
    have ha : a = b + (a - b - 1) + 1 := by omega
    have := hpath (a - b - 1) b
    rw [← ha, heq] at this
    exact this

/-- Claim C6: for every well-formed graph (no duplicate IDs, every
referenced dependency present — the spec's Graph invariants),
`TopologicalSort` succeeds with an ordering in which every task appears
after all tasks it depends on exactly when the graph is acyclic, and the
only error it reports is the "cycle detected in task graph" error, raised
exactly when a directed dependency cycle exists. -/
theorem topologicalSort_correct (g : Graph)
    (hnd : (g.tasks.map GoTask.id).Nodup)
    (hclosed : ∀ t ∈ g.tasks, ∀ d ∈ edgeIds g t.id, ∃ t' ∈ g.tasks, t'.id = d) :
    (∀ res, g.TopologicalSort = .ok res →
      (PosOk g res ∧ res.length = g.tasks.length ∧ ∀ t ∈ res, t ∈ g.tasks)) ∧
    ((∃ e, g.TopologicalSort = .error e) ↔ HasCycle g) ∧
    (∀ e, g.TopologicalSort = .error e → e = "cycle detected in task graph") := by
  have hinv := kahnInit_inv g hnd
  have hmeas : kahnMeasure g
      ((g.tasks.map GoTask.id).filter (fun id =>
        (((lookupA g.edges id).getD []).length : Int) = 0))
      (([] : List GoTask).map GoTask.id) ≤ 2 * g.tasks.length + 1 := by
    have h1 : ((g.tasks.map GoTask.id).filter (fun id =>
        (((lookupA g.edges id).getD []).length : Int) = 0)).length ≤
        g.tasks.length := by
      calc _ ≤ (g.tasks.map GoTask.id).length := (List.filter_sublist _).length_le
        _ = g.tasks.length := List.length_map _ _
    have h2 := kahnMeasure_le g ((g.tasks.map GoTask.id).filter (fun id =>
        (((lookupA g.edges id).getD []).length : Int) = 0))
      (([] : List GoTask).map GoTask.id)
    omega
  obtain ⟨res, hres, _, hpos, hndres, hmemres, hfin⟩ :=
    kahnLoop_spec g hnd (2 * g.tasks.length + 1) _ _ [] hinv hmeas
  have hsort : g.TopologicalSort =
      (if res.length ≠ g.tasks.length then .error "cycle detected in task graph"
       else .ok res) := by
    unfold Graph.TopologicalSort
    rw [dedupFirst_eq_self _ hnd, hres]
  -- subset of IDs
  have hsub : res.map GoTask.id ⊆ g.tasks.map GoTask.id := by
    intro x hx
    obtain ⟨t, ht, hte⟩ := List.mem_map.mp hx
    exact hte ▸ List.mem_map_of_mem GoTask.id (hmemres t ht)
  -- the two directions of the dichotomy
  have hcycle_imp : HasCycle g → res.length ≠ g.tasks.length := by
    rintro ⟨c, ⟨tc, htc, htcid⟩, hcyc⟩ hlen
    -- all task ids would be in res
    have hperm : (res.map GoTask.id).Perm (g.tasks.map GoTask.id) := by
      apply List.Subperm.perm_of_length_le (List.subperm_of_subset hndres hsub)
      rw [List.length_map, List.length_map]
      omega
    have hc_in : c ∈ res.map GoTask.id := by
      rw [hperm.mem_iff]
      exact htcid ▸ List.mem_map_of_mem GoTask.id htc
    obtain ⟨u, hu, hue⟩ := List.mem_map.mp hc_in
    obtain ⟨⟨j, hj⟩, hgetu⟩ := List.mem_iff_get.mp hu
    exact cycle_not_popped g res hpos j hj c hcyc (by rw [hgetu, hue])
  have hnocycle_imp : ¬HasCycle g → res.length = g.tasks.length := by
    intro hnc
    by_contra hlen
    -- some task is missing from the result
    have hmiss : ∃ t ∈ g.tasks, t.id ∉ res.map GoTask.id := by
      by_contra hall
      push_neg at hall
      have hsub2 : g.tasks.map GoTask.id ⊆ res.map GoTask.id := by
        intro x hx
        obtain ⟨t, ht, hte⟩ := List.mem_map.mp hx
        exact hte ▸ hall t ht
      have hle1 := (List.subperm_of_subset hndres hsub).length_le
      have hle2 := (List.subperm_of_subset hnd hsub2).length_le
      rw [List.length_map, List.length_map] at hle1 hle2
      omega
    obtain ⟨t0, ht0, ht0m⟩ := hmiss
    -- the set of unfinished task ids is closed under taking one dependency
    set M := (g.tasks.map GoTask.id).filter
      (fun id => !((res.map GoTask.id).contains id)) with hM
    have hMne : M ≠ [] := by
      have : t0.id ∈ M := by
        rw [hM]
        apply List.mem_filter.mpr
        refine ⟨List.mem_map_of_mem GoTask.id ht0, ?_⟩
        simp [contains_eq_decideMem, ht0m]
      intro he
      rw [he] at this
      cases this
    have hMcl : ∀ m ∈ M, ∃ m' ∈ M, m' ∈ edgeIds g m := by
      intro m hm
      rw [hM] at hm
      have hmtask := List.mem_of_mem_filter hm
      have hmnot : m ∉ res.map GoTask.id := by
        have := List.of_mem_filter hm
        simpa [contains_eq_decideMem] using this
      obtain ⟨tm, htm, htme⟩ := List.mem_map.mp hmtask
      have hcnt := hfin tm htm (htme ▸ hmnot)
      rw [Ne, cntU_zero_iff] at hcnt
      push_neg at hcnt
      obtain ⟨d, hd, hdnot⟩ := hcnt
      obtain ⟨td, htd, htde⟩ := hclosed tm htm d (htme ▸ hd)
      refine ⟨d, ?_, htme ▸ hd⟩
      rw [hM]
      apply List.mem_filter.mpr
      refine ⟨htde ▸ List.mem_map_of_mem GoTask.id htd, ?_⟩
      simp [contains_eq_decideMem, hdnot]
    obtain ⟨c, hcM, hcyc⟩ := cycle_of_closed g M hMne hMcl
    apply hnc
    refine ⟨c, ?_, hcyc⟩
    have := List.mem_of_mem_filter (hM ▸ hcM)
    exact List.mem_map.mp this
  refine ⟨?_, ?_, ?_⟩
  · intro r hr
    rw [hsort] at hr
    by_cases hl : res.length ≠ g.tasks.length
    · rw [if_pos hl] at hr
      cases hr
    · rw [if_neg hl] at hr
      cases hr
      push_neg at hl
      exact ⟨hpos, hl, hmemres⟩
  · constructor
    · rintro ⟨e, he⟩
      rw [hsort] at he
      by_cases hl : res.length ≠ g.tasks.length
      · by_contra hnc
        exact hl (hnocycle_imp hnc)
      · rw [if_neg hl] at he
        cases he
    · intro hc
      refine ⟨"cycle detected in task graph", ?_⟩
      rw [hsort, if_pos (hcycle_imp hc)]
  · intro e he
    rw [hsort] at he
    by_cases hl : res.length ≠ g.tasks.length
    · rw [if_pos hl] at he
      cases he
      rfl
    · rw [if_neg hl] at he
      cases he

/-- Witness for C6: on the concrete two-task graph the error characterisation
and the ordering property hold. -/
theorem topologicalSort_correct_witness :
    ((∃ e, gC6.TopologicalSort = .error e) ↔ HasCycle gC6) ∧
    (∀ res, gC6.TopologicalSort = .ok res → PosOk gC6 res) :=
  ⟨(topologicalSort_correct gC6 (by decide) (by decide)).2.1,
   fun res hr => ((topologicalSort_correct gC6 (by decide) (by decide)).1 res hr).1⟩

/-- Helper: the cache-miss, successful-execution path of `executeTask`. -/
theorem executeTask_miss_eq (resultDir : String) (fs : FS) (t : GoTask)
    (m : List (String × ExecutionResult)) (inputs : List DependencyInput)
    (hmiss : Runner.isCached fs (resultDir ++ "/" ++ ComputeTaskHash t) = false)
    (hga : gatherDeps t.deps m = .ok inputs)
    (hok : (t.exec inputs).error.isNone = true) :
    Runner.executeTask resultDir fs t m =
      { fs := { cache := setA fs.cache (resultDir ++ "/" ++ ComputeTaskHash t)
                  (t.exec inputs).files,
                temps := (fs.temps ++ [fs.nextTemp]).filter
                  (fun i => i ≠ fs.nextTemp),
                nextTemp := fs.nextTemp + 1 },
        events := [Event.execCall t inputs
          { cache := fs.cache, temps := fs.temps ++ [fs.nextTemp],
            nextTemp := fs.nextTemp + 1 }],
        outcome := .ok (missResult resultDir t inputs) } := by
  unfold Runner.executeTask missResult
  simp only [hmiss, Bool.false_eq_true, if_false, hga, hok, if_true, FS.removeTemp]

/-- Helper: the loop's result list only grows. -/
theorem seqLoop_results_extend (resultDir : String) :
    ∀ (tasks : List GoTask) (fs : FS) (evs : List Event)
      (results : List ExecutionResult) (executed : List (String × ExecutionResult)),
    ∃ ext, (executeSeqLoop resultDir tasks fs evs results executed).results =
      results ++ ext := by
  intro tasks
  induction tasks with
  | nil => intro fs evs results executed; exact ⟨[], by simp [executeSeqLoop]⟩
  | cons t rest ih =>
    intro fs evs results executed
    unfold executeSeqLoop
    cases hout : (Runner.executeTask resultDir fs t executed).outcome with
    | error e => exact ⟨[], by simp [hout]⟩
    | ok result =>
      cases herr : result.result.error with
      | some m => exact ⟨[result], by simp [hout, herr]⟩
      | none =>
        obtain ⟨ext, hext⟩ := ih (Runner.executeTask resultDir fs t executed).fs
          (evs ++ ((Runner.executeTask resultDir fs t executed).events ++
            [Event.collected t.id result]))
          (results ++ [result]) (setA executed t.id result)
        exact ⟨result :: ext, by simp [hout, herr, hext]⟩

theorem missResult_result (resultDir : String) (t : GoTask)
    (inputs : List DependencyInput) :
    (missResult resultDir t inputs).result = t.exec inputs := rfl

/-- Helper: a successful sequential run whose results all carry files
publishes a non-empty cache directory for every executed task, and
preserves every non-empty cache directory it found. -/
theorem seqLoop_publishes (resultDir : String) :
    ∀ (tasks : List GoTask) (fs : FS) (evs : List Event)
      (results : List ExecutionResult) (executed : List (String × ExecutionResult)),
    (executeSeqLoop resultDir tasks fs evs results executed).err = none →
    (∀ r ∈ (executeSeqLoop resultDir tasks fs evs results executed).results,
      r.result.files ≠ []) →
    (∀ dir l, l ≠ [] → lookupA fs.cache dir = some l →
      lookupA (executeSeqLoop resultDir tasks fs evs results executed).fs.cache
        dir = some l) ∧
    (∀ t ∈ tasks, ∃ l, l ≠ [] ∧
      lookupA (executeSeqLoop resultDir tasks fs evs results executed).fs.cache
        (resultDir ++ "/" ++ ComputeTaskHash t) = some l) := by
  intro tasks
  induction tasks with
  | nil =>
    intro fs evs results executed _ _
    exact ⟨fun dir l _ h => by simpa [executeSeqLoop] using h, by simp⟩
  | cons t rest ih =>
    intro fs evs results executed herr hfiles
    by_cases hcach : Runner.isCached fs (resultDir ++ "/" ++ ComputeTaskHash t) = true
    · -- cache hit for the head task
      have hc : ∃ entries, entries ≠ [] ∧
          lookupA fs.cache (resultDir ++ "/" ++ ComputeTaskHash t) = some entries := by
        unfold Runner.isCached at hcach
        cases hl : lookupA fs.cache (resultDir ++ "/" ++ ComputeTaskHash t) with
        | none => rw [hl] at hcach; simp at hcach
        | some entries =>
          rw [hl] at hcach
          refine ⟨entries, ?_, rfl⟩
          intro he
          rw [he] at hcach
          simp at hcach
      obtain ⟨entries, hne, hl⟩ := hc
      have hexec := executeTask_hit_eq resultDir fs t executed entries hl hne
      rw [executeSeqLoop, hexec] at herr hfiles ⊢
      simp only at herr hfiles ⊢
      obtain ⟨hmono, hall⟩ := ih fs _ _ _ herr hfiles
      refine ⟨hmono, ?_⟩
      intro u hu
      rcases List.mem_cons.mp hu with he | hu'
      · subst he
        exact ⟨entries, hne, hmono _ entries hne hl⟩
      · exact hall u hu'
    · -- cache miss for the head task
      have hmiss : Runner.isCached fs
          (resultDir ++ "/" ++ ComputeTaskHash t) = false := by
        rcases hb : Runner.isCached fs (resultDir ++ "/" ++ ComputeTaskHash t)
        · rfl
        · exact absurd hb hcach
      cases hga : gatherDeps t.deps executed with
      | error missing =>
        exfalso
        rw [executeSeqLoop] at herr
        unfold Runner.executeTask at herr
        simp only [hmiss, Bool.false_eq_true, if_false, hga] at herr
        simp at herr
      | ok inputs =>
        cases hte : (t.exec inputs).error with
        | some msg =>
          exfalso
          rw [executeSeqLoop] at herr
          unfold Runner.executeTask at herr
          simp only [hmiss, Bool.false_eq_true, if_false, hga, hte,
            Option.isNone_some] at herr
          simp [hte] at herr
        | none =>
          have hok : (t.exec inputs).error.isNone = true := by simp [hte]
          have hexec := executeTask_miss_eq resultDir fs t executed inputs hmiss hga hok
          rw [executeSeqLoop, hexec] at herr hfiles ⊢
          simp only [missResult_result, hte] at herr hfiles ⊢
          obtain ⟨hmono, hall⟩ := ih _ _ _ _ herr hfiles
          have hfile_t : (t.exec inputs).files ≠ [] := by
            have hr := hfiles (missResult resultDir t inputs)
            rw [missResult_result] at hr
            apply hr
            rcases seqLoop_results_extend resultDir rest _ _ _ _ with ⟨ext, hext⟩
            rw [hext]
            simp
          constructor
          · intro dir l hlne hdir
            by_cases hdeq : resultDir ++ "/" ++ ComputeTaskHash t = dir
            · exfalso
              rw [← hdeq] at hdir
              unfold Runner.isCached at hmiss
              rw [hdir] at hmiss
              rcases l with _ | ⟨x, xs⟩
              · exact hlne rfl
              · simp at hmiss
            · apply hmono dir l hlne
              rw [lookupA_setA_ne _ _ _ _ hdeq]
              exact hdir
          · intro u hu
            rcases List.mem_cons.mp hu with he | hu'
            · subst he
              refine ⟨(u.exec inputs).files, hfile_t, ?_⟩
              apply hmono _ _ hfile_t
              exact lookupA_setA_self _ _ _
            · exact hall u hu'

/-- Helper: when every task's published directory is already non-empty,
the sequential loop only produces cache hits: no error, untouched file
system, no `execCall` events. -/
theorem seqLoop_cache_hits (resultDir : String) :
    ∀ (tasks : List GoTask) (fs : FS) (evs : List Event)
      (results : List ExecutionResult) (executed : List (String × ExecutionResult)),
    (∀ t ∈ tasks, ∃ l, l ≠ [] ∧
      lookupA fs.cache (resultDir ++ "/" ++ ComputeTaskHash t) = some l) →
    (executeSeqLoop resultDir tasks fs evs results executed).err = none ∧
    (executeSeqLoop resultDir tasks fs evs results executed).fs = fs ∧
    (∀ r ∈ (executeSeqLoop resultDir tasks fs evs results executed).results,
      r ∈ results ∨ r.cacheHit = true) ∧
    (∀ t inputs fsc, Event.execCall t inputs fsc ∈
        (executeSeqLoop resultDir tasks fs evs results executed).events →
      Event.execCall t inputs fsc ∈ evs) := by
  intro tasks
  induction tasks with
  | nil =>
    intro fs evs results executed _
    exact ⟨rfl, rfl, fun r hr => Or.inl hr, fun t i f h => h⟩
  | cons t rest ih =>
    intro fs evs results executed hcached
    obtain ⟨entries, hne, hl⟩ := hcached t (by simp)
    have hexec := executeTask_hit_eq resultDir fs t executed entries hl hne
    rw [executeSeqLoop, hexec]
    simp only
    obtain ⟨ih1, ih2, ih3, ih4⟩ := ih fs
      (evs ++ [] ++ [Event.collected t.id (Runner.loadCachedResult t
        (ComputeTaskHash t) (resultDir ++ "/" ++ ComputeTaskHash t) entries)])
      (results ++ [Runner.loadCachedResult t (ComputeTaskHash t)
        (resultDir ++ "/" ++ ComputeTaskHash t) entries])
      (setA executed t.id (Runner.loadCachedResult t (ComputeTaskHash t)
        (resultDir ++ "/" ++ ComputeTaskHash t) entries))
      (fun u hu => hcached u (by simp [hu]))
    refine ⟨?_, ?_, ?_, ?_⟩
    · exact ih1
    · exact ih2
    · intro r hr
      rcases ih3 r hr with h | h
      · rcases List.mem_append.mp h with h' | h'
        · exact Or.inl h'
        · right
          rw [List.mem_singleton.mp h']
          rfl
      · exact Or.inr h
    · intro u i f h
      have := ih4 u i f h
      rcases List.mem_append.mp this with h' | h'
      · simpa using h'
      · exfalso
        simp at h'

/-! ## Claim C8: cache idempotence of a second run -/

/-- Counterexample to claim C8 as stated: a task that succeeds while
emitting no files publishes an empty cache directory, which the cache
probe treats as a miss; after a fully successful first run, the second
run against the unchanged cache executes the task again (`Execute` is
invoked, result not tagged cache-hit). -/
theorem secondRun_counterexample :
    (Runner.executeSequential "cache" FS.empty gC8).err = none ∧
    (∃ r ∈ (Runner.executeSequential "cache"
        (Runner.executeSequential "cache" FS.empty gC8).fs gC8).results,
      r.cacheHit = false) ∧
    (∃ t inputs fsc, Event.execCall t inputs fsc ∈
      (Runner.executeSequential "cache"
        (Runner.executeSequential "cache" FS.empty gC8).fs gC8).events) := by
  have hsort : gC8.TopologicalSort = .ok [taskC8] := by rfl
  have hfs1 : (Runner.executeSequential "cache" FS.empty gC8).fs =
      ⟨[("cache" ++ "/" ++ ComputeTaskHash taskC8, [])], [], 1⟩ := by rfl
  have herr1 : (Runner.executeSequential "cache" FS.empty gC8).err = none := by rfl
  have hlook : lookupA [(("cache" ++ "/" ++ ComputeTaskHash taskC8),
      ([] : List String))] ("cache" ++ "/" ++ ComputeTaskHash taskC8) = some [] := by
    unfold lookupA
    simp
  have hmiss2 : Runner.isCached
      ⟨[(("cache" ++ "/" ++ ComputeTaskHash taskC8), [])], [], 1⟩
      ("cache" ++ "/" ++ ComputeTaskHash taskC8) = false := by
    unfold Runner.isCached
    rw [hlook]
    rfl
  have hexec2 := executeTask_miss_eq "cache"
    ⟨[(("cache" ++ "/" ++ ComputeTaskHash taskC8), [])], [], 1⟩ taskC8 [] []
    hmiss2 rfl rfl
  refine ⟨herr1, ?_, ?_⟩
  · rw [hfs1]
    unfold Runner.executeSequential
    rw [hsort]
    simp only
    rw [executeSeqLoop, hexec2]
    simp only [missResult_result, show (taskC8.exec []).error = none from rfl,
      executeSeqLoop]
    refine ⟨missResult "cache" taskC8 [], by simp, ?_⟩
    rfl
  · rw [hfs1]
    unfold Runner.executeSequential
    rw [hsort]
    simp only
    rw [executeSeqLoop, hexec2]
    simp only [missResult_result, show (taskC8.exec []).error = none from rfl,
      executeSeqLoop]
    refine ⟨taskC8, [],
      ⟨[("cache" ++ "/" ++ ComputeTaskHash taskC8, [])], [1], 2⟩, ?_⟩
    simp

/-- Claim C8 (amended): running the same graph a second time against the
unchanged cache after a fully successful first run in which every result
carried at least one file produces only cache-hit results, and no task's
`Execute` is invoked during the second run.  (A successful task that
emits no files leaves an empty published directory, which the cache probe
treats as a miss — see the counterexample.) -/
theorem secondRun_cache_hits (resultDir : String) (g : Graph) (fs0 : FS)
    (h1 : (Runner.executeSequential resultDir fs0 g).err = none)
    (h2 : ∀ r ∈ (Runner.executeSequential resultDir fs0 g).results,
      r.result.files ≠ []) :
    (Runner.executeSequential resultDir
        (Runner.executeSequential resultDir fs0 g).fs g).err = none ∧
    (∀ r ∈ (Runner.executeSequential resultDir
        (Runner.executeSequential resultDir fs0 g).fs g).results,
      r.cacheHit = true) ∧
    (∀ t inputs fsc, Event.execCall t inputs fsc ∉
      (Runner.executeSequential resultDir
        (Runner.executeSequential resultDir fs0 g).fs g).events) := by
  cases hsort : g.TopologicalSort with
  | error e =>
    exfalso
    unfold Runner.executeSequential at h1
    rw [hsort] at h1
    simp at h1
  | ok ordered =>
    unfold Runner.executeSequential at h1 h2 ⊢
    rw [hsort] at h1 h2 ⊢
    simp only at h1 h2 ⊢
    obtain ⟨hmono, hpub⟩ := seqLoop_publishes resultDir ordered fs0 [] [] [] h1 h2
    obtain ⟨e1, e2, e3, e4⟩ := seqLoop_cache_hits resultDir ordered
      (executeSeqLoop resultDir ordered fs0 [] [] []).fs [] [] [] hpub
    refine ⟨e1, ?_, ?_⟩
    · intro r hr
      rcases e3 r hr with h | h
      · simp at h
      · exact h
    · intro t inputs fsc hmem
      have := e4 t inputs fsc hmem
      simp at this

/-- Witness for C8 (amended): a one-task graph whose task emits a file is
all cache hits on its second run. -/
theorem secondRun_cache_hits_witness :
    (Runner.executeSequential "cache"
        (Runner.executeSequential "cache" FS.empty gC8b).fs gC8b).err = none ∧
    (∀ r ∈ (Runner.executeSequential "cache"
        (Runner.executeSequential "cache" FS.empty gC8b).fs gC8b).results,
      r.cacheHit = true) ∧
    (∀ t inputs fsc, Event.execCall t inputs fsc ∉
      (Runner.executeSequential "cache"
        (Runner.executeSequential "cache" FS.empty gC8b).fs gC8b).events) :=
  secondRun_cache_hits "cache" gC8b FS.empty (by rfl) (by
    intro r hr
    have hres : (Runner.executeSequential "cache" FS.empty gC8b).results =
        [missResult "cache" taskC8b []] := by rfl
    rw [hres] at hr
    rw [List.mem_singleton.mp hr]
    simp [missResult, taskC8b, GoTask.exec])
/-! ## Helper lemmas for the parallel-scheduler model -/

theorem mem_dedupFirstAux (a : String) :
    ∀ (l seen : List String), a ∈ dedupFirstAux seen l ↔ (a ∈ l ∧ a ∉ seen) := by
  intro l
  induction l with
  | nil => intro seen; simp [dedupFirstAux]
  | cons s ss ih =>
    intro seen
    unfold dedupFirstAux
    by_cases hs : s ∈ seen
    · rw [if_pos hs, ih]
      constructor
      · rintro ⟨h1, h2⟩
        exact ⟨List.mem_cons_of_mem _ h1, h2⟩
      · rintro ⟨h1, h2⟩
        rcases List.mem_cons.mp h1 with h | h
        · subst h
          exact absurd hs h2
        · exact ⟨h, h2⟩
    · rw [if_neg hs]
      constructor
      · intro h
        rcases List.mem_cons.mp h with h | h
        · subst h
          exact ⟨List.mem_cons_self _ _, hs⟩
        · rw [ih] at h
          refine ⟨List.mem_cons_of_mem _ h.1, fun hseen => h.2 ?_⟩
          exact List.mem_cons_of_mem _ hseen
      · rintro ⟨h1, h2⟩
        rcases List.mem_cons.mp h1 with h | h
        · subst h
          exact List.mem_cons_self _ _
        · by_cases has : a = s
          · subst has
            exact List.mem_cons_self _ _
          · refine List.mem_cons_of_mem _ ((ih (s :: seen)).mpr ⟨h, ?_⟩)
            intro hc
            rcases List.mem_cons.mp hc with h' | h'
            · exact has h'
            · exact h2 h'

theorem mem_dedupFirst (a : String) (l : List String) :
    a ∈ dedupFirst l ↔ a ∈ l := by
  unfold dedupFirst
  rw [mem_dedupFirstAux]
  simp

theorem nodup_dedupFirstAux :
    ∀ (l seen : List String), (dedupFirstAux seen l).Nodup := by
  intro l
  induction l with
  | nil => intro seen; simp [dedupFirstAux]
  | cons s ss ih =>
    intro seen
    unfold dedupFirstAux
    by_cases hs : s ∈ seen
    · rw [if_pos hs]
      exact ih seen
    · rw [if_neg hs]
      refine List.nodup_cons.mpr ⟨?_, ih _⟩
      intro hc
      rw [mem_dedupFirstAux] at hc
      exact hc.2 (List.mem_cons_self _ _)

theorem nodup_depIdSet (t : GoTask) : (depIdSet t).Nodup := by
  unfold depIdSet dedupFirst
  exact nodup_dedupFirstAux _ _

theorem mem_depIdSet (a : String) (t : GoTask) :
    a ∈ depIdSet t ↔ a ∈ t.deps.map GoTask.id := by
  unfold depIdSet
  rw [mem_dedupFirst]

theorem lookupA_foldl_setA_not_mem {α : Type} (f : GoTask → α) (id : String) :
    ∀ (tasks : List GoTask) (m0 : List (String × α)),
    id ∉ tasks.map GoTask.id →
    lookupA (tasks.foldl (fun m u => setA m u.id (f u)) m0) id = lookupA m0 id := by
  intro tasks
  induction tasks with
  | nil => intro m0 _; rfl
  | cons u rest ih =>
    intro m0 hid
    simp only [List.map_cons, List.mem_cons] at hid
    push_neg at hid
    rw [List.foldl_cons, ih _ hid.2, lookupA_setA_ne _ _ _ _ (fun h => hid.1 h.symm)]

theorem lookupA_foldl_setA {α : Type} (f : GoTask → α) :
    ∀ (tasks : List GoTask) (m0 : List (String × α)) (t : GoTask),
    (tasks.map GoTask.id).Nodup → t ∈ tasks →
    lookupA (tasks.foldl (fun m u => setA m u.id (f u)) m0) t.id = some (f t) := by
  intro tasks
  induction tasks with
  | nil => intro m0 t _ ht; cases ht
  | cons u rest ih =>
    intro m0 t hnd ht
    simp only [List.map_cons, List.nodup_cons] at hnd
    rw [List.foldl_cons]
    rcases List.mem_cons.mp ht with h | h
    · subst h
      rw [lookupA_foldl_setA_not_mem _ _ _ _ hnd.1, lookupA_setA_self]
    · exact ih _ t hnd.2 h

theorem lookupA_initTaskDeps (tasks : List GoTask) (t : GoTask)
    (hnd : (tasks.map GoTask.id).Nodup) (ht : t ∈ tasks) :
    lookupA (initTaskDeps tasks) t.id = some (depIdSet t) :=
  lookupA_foldl_setA _ tasks [] t hnd ht

theorem lookupA_initInDeg (tasks : List GoTask) (t : GoTask)
    (hnd : (tasks.map GoTask.id).Nodup) (ht : t ∈ tasks) :
    lookupA (initInDeg tasks) t.id = some ((depIdSet t).length : Int) :=
  lookupA_foldl_setA _ tasks [] t hnd ht

theorem id_inj (T : List GoTask) (hnd : (T.map GoTask.id).Nodup)
    {a b : GoTask} (ha : a ∈ T) (hb : b ∈ T) (h : a.id = b.id) : a = b :=
  List.inj_on_of_nodup_map hnd ha hb h

theorem appendRight_inj (p a b : String) (h : p ++ a = p ++ b) : a = b := by
  have hd : (p ++ a).data = (p ++ b).data := congrArg String.data h
  rw [String.data_append, String.data_append] at hd
  exact String.ext (List.append_cancel_left hd)

theorem gatherDeps_ok_spec :
    ∀ (ds : List GoTask) (m : List (String × ExecutionResult))
      (inputs : List DependencyInput),
    gatherDeps ds m = .ok inputs →
    ∀ d ∈ ds, ∃ res, lookupA m d.id = some res ∧
      ({ taskId := d.id, outputDir := res.outputDir,
         files := res.result.files } : DependencyInput) ∈ inputs := by
  intro ds
  induction ds with
  | nil => intro m inputs _ d hd; cases hd
  | cons d0 rest ih =>
    intro m inputs hga d hd
    unfold gatherDeps at hga
    cases hl : lookupA m d0.id with
    | none => rw [hl] at hga; cases hga
    | some res0 =>
      rw [hl] at hga
      cases hr : gatherDeps rest m with
      | error e => rw [hr] at hga; cases hga
      | ok rest2 =>
        rw [hr] at hga
        cases hga
        rcases List.mem_cons.mp hd with h | h
        · subst h
          exact ⟨res0, hl, List.mem_cons_self _ _⟩
        · obtain ⟨res, hres, hin⟩ := ih m rest2 hr d h
          exact ⟨res, hres, List.mem_cons_of_mem _ hin⟩

theorem goodRes_append (rs ext : List ExecutionResult) (id : String) :
    goodRes (rs ++ ext) id = (goodRes rs id || goodRes ext id) := by
  unfold goodRes
  rw [List.any_append]

theorem goodRes_mono (rs ext : List ExecutionResult) (id : String)
    (h : goodRes rs id = true) : goodRes (rs ++ ext) id = true := by
  rw [goodRes_append, h]
  rfl

theorem allDepsGood_mono (rs ext : List ExecutionResult) (t : GoTask)
    (h : AllDepsGood rs t) : AllDepsGood (rs ++ ext) t :=
  fun d hd => goodRes_mono _ _ _ (h d hd)

theorem goodRes_snoc (rs : List ExecutionResult) (r : ExecutionResult) (id : String) :
    goodRes (rs ++ [r]) id =
      (goodRes rs id || (decide (r.task.id = id) && r.result.error.isNone)) := by
  rw [goodRes_append]
  unfold goodRes
  simp

theorem goodRes_snoc_err (rs : List ExecutionResult) (r : ExecutionResult)
    (id : String) (m : String) (he : r.result.error = some m) :
    goodRes (rs ++ [r]) id = goodRes rs id := by
  rw [goodRes_snoc, he]
  simp

theorem pendCount_zero_iff (rs : List ExecutionResult) (t : GoTask) :
    pendCount rs t = 0 ↔ AllDepsGood rs t := by
  unfold pendCount AllDepsGood
  rw [List.countP_eq_zero]
  constructor
  · intro h d hd
    have := h d hd
    simpa using this
  · intro h d hd
    simpa using h d hd

theorem pendCount_snoc_err (rs : List ExecutionResult) (r : ExecutionResult)
    (t : GoTask) (m : String) (he : r.result.error = some m) :
    pendCount (rs ++ [r]) t = pendCount rs t := by
  unfold pendCount
  apply List.countP_congr
  intro d _
  rw [goodRes_snoc_err rs r d m he]

theorem countP_not_snoc :
    ∀ (l : List String) (p q : String → Bool) (c : String),
    l.Nodup → q c = true → p c = false → (∀ d, d ≠ c → q d = p d) →
    l.countP (fun d => !q d) =
      l.countP (fun d => !p d) - (if c ∈ l then 1 else 0) := by
  intro l
  induction l with
  | nil => intro p q c _ _ _ _; simp
  | cons x xs ih =>
    intro p q c hnd hqc hpc hagree
    rw [List.nodup_cons] at hnd
    rw [List.countP_cons, List.countP_cons]
    by_cases hxc : x = c
    · subst hxc
      rw [if_pos (List.mem_cons_self _ _)]
      have heq : xs.countP (fun d => !q d) = xs.countP (fun d => !p d) := by
        apply List.countP_congr
        intro d hd
        have hdx : d ≠ x := fun h => hnd.1 (h ▸ hd)
        rw [hagree d hdx]
      rw [heq, hqc, hpc]
      simp
    · rw [hagree x hxc]
      by_cases hcm : c ∈ xs
      · rw [if_pos (List.mem_cons_of_mem _ hcm)]
        rw [ih p q c hnd.2 hqc hpc hagree, if_pos hcm]
        have hge : 1 ≤ xs.countP (fun d => !p d) := by
          rw [Nat.succ_le_iff]
          rw [List.countP_pos]
          exact ⟨c, hcm, by rw [hpc]; rfl⟩
        rcases hpx : (!p x) with _ | _
        · simp
        · simp
          omega
      · have hcx : c ∉ x :: xs := by
          intro hc
          rcases List.mem_cons.mp hc with h | h
          · exact hxc h.symm
          · exact hcm h
        rw [if_neg hcx]
        rw [ih p q c hnd.2 hqc hpc hagree, if_neg hcm]
        simp

theorem pendCount_snoc_ok (rs : List ExecutionResult) (r : ExecutionResult)
    (t : GoTask) (he : r.result.error = none)
    (hng : goodRes rs r.task.id = false) :
    pendCount (rs ++ [r]) t =
      pendCount rs t - (if r.task.id ∈ depIdSet t then 1 else 0) := by
  unfold pendCount
  apply countP_not_snoc _ _ _ _ (nodup_depIdSet t)
  · rw [goodRes_snoc, hng, he]
    simp
  · exact hng
  · intro d hd
    rw [goodRes_snoc, he]
    have hne : (decide (r.task.id = d)) = false := by
      simp only [decide_eq_false_iff_not]
      exact fun h => hd h.symm
    rw [hne]
    simp

theorem count_ge_two_of_two_mem (l : List ExecutionResult)
    (r1 r2 : ExecutionResult) (id : String) (h1 : r1 ∈ l) (h2 : r2 ∈ l)
    (hne : r1 ≠ r2) (hid1 : r1.task.id = id) (hid2 : r2.task.id = id) :
    2 ≤ (l.map (fun r => r.task.id)).count id := by
  obtain ⟨l1, l2, rfl⟩ := List.append_of_mem h1
  rcases List.mem_append.mp h2 with h | h
  · have hc1 : 0 < (l1.map (fun r => r.task.id)).count id := by
      rw [List.count_pos_iff_mem]
      exact hid2 ▸ List.mem_map_of_mem _ h
    have hc2 : 0 < ((r1 :: l2).map (fun r => r.task.id)).count id := by
      rw [List.count_pos_iff_mem]
      exact hid1 ▸ List.mem_map_of_mem _ (List.mem_cons_self _ _)
    rw [List.map_append, List.count_append]
    omega
  · rcases List.mem_cons.mp h with h' | h'
    · exact absurd h'.symm hne
    · have hc1 : 0 < (l2.map (fun r => r.task.id)).count id := by
        rw [List.count_pos_iff_mem]
        exact hid2 ▸ List.mem_map_of_mem _ h'
      rw [List.map_append, List.count_append, List.map_cons, List.count_cons]
      simp only [hid1]
      simp
      omega

theorem inputsOk_append (resultDir : String) (tr ev2 : List Event)
    (hio : InputsOk resultDir tr)
    (hnew : ∀ t inputs fsc, Event.execCall t inputs fsc ∈ ev2 →
      ∀ d ∈ t.deps, ∃ res,
        Event.collected d.id res ∈ tr ∧
        res.result.error = none ∧
        res.outputDir = resultDir ++ "/" ++ ComputeTaskHash d ∧
        ({ taskId := d.id, outputDir := res.outputDir,
           files := res.result.files } : DependencyInput) ∈ inputs ∧
        ∃ l, lookupA fsc.cache res.outputDir = some l ∧
          l.Perm res.result.files) :
    InputsOk resultDir (tr ++ ev2) := by
  intro i t inputs fsc hi d hd
  by_cases hlt : i < tr.length
  · rw [List.get?_append hlt] at hi
    obtain ⟨j, res, hj, hjget, hrest⟩ := hio i t inputs fsc hi d hd
    refine ⟨j, res, hj, ?_, hrest⟩
    rw [List.get?_append (by omega)]
    exact hjget
  · push_neg at hlt
    rw [List.get?_append_right hlt] at hi
    have hmem : Event.execCall t inputs fsc ∈ ev2 := List.get?_mem hi
    obtain ⟨res, hcol, hh1, hh2, hh3, hh4⟩ := hnew t inputs fsc hmem d hd
    obtain ⟨j, hjget⟩ := List.get?_of_mem hcol
    have hjlt : j < tr.length := (List.get?_eq_some.mp hjget).1
    refine ⟨j, res, by omega, ?_, hh1, hh2, hh3, hh4⟩
    rw [List.get?_append hjlt]
    exact hjget

theorem inputsOk_append_simple (resultDir : String) (tr ev2 : List Event)
    (hio : InputsOk resultDir tr)
    (hne : ∀ t inputs fsc, Event.execCall t inputs fsc ∉ ev2) :
    InputsOk resultDir (tr ++ ev2) :=
  inputsOk_append resultDir tr ev2 hio (fun t inputs fsc hmem =>
    absurd hmem (hne t inputs fsc))

theorem executeTask_spec (resultDir : String) (fs : FS) (t : GoTask)
    (m : List (String × ExecutionResult)) :
    (∃ entries, entries ≠ [] ∧
      lookupA fs.cache (resultDir ++ "/" ++ ComputeTaskHash t) = some entries ∧
      Runner.executeTask resultDir fs t m =
        ⟨fs, [], .ok (Runner.loadCachedResult t (ComputeTaskHash t)
          (resultDir ++ "/" ++ ComputeTaskHash t) entries)⟩) ∨
    ((Runner.executeTask resultDir fs t m).fs.cache = fs.cache ∧
      (Runner.executeTask resultDir fs t m).events = [] ∧
      ∃ e, (Runner.executeTask resultDir fs t m).outcome = .error e) ∨
    (∃ inputs, gatherDeps t.deps m = .ok inputs ∧
      Runner.isCached fs (resultDir ++ "/" ++ ComputeTaskHash t) = false ∧
      (∃ fsc : FS, fsc.cache = fs.cache ∧
        (Runner.executeTask resultDir fs t m).events =
          [Event.execCall t inputs fsc]) ∧
      (Runner.executeTask resultDir fs t m).outcome =
        .ok (missResult resultDir t inputs) ∧
      (((t.exec inputs).error = none ∧
        (Runner.executeTask resultDir fs t m).fs.cache =
          setA fs.cache (resultDir ++ "/" ++ ComputeTaskHash t)
            (t.exec inputs).files) ∨
       ((t.exec inputs).error ≠ none ∧
        (Runner.executeTask resultDir fs t m).fs.cache = fs.cache))) := by
  by_cases hc : Runner.isCached fs (resultDir ++ "/" ++ ComputeTaskHash t) = true
  · left
    have hent : ∃ entries, entries ≠ [] ∧
        lookupA fs.cache (resultDir ++ "/" ++ ComputeTaskHash t) = some entries := by
      unfold Runner.isCached at hc
      cases hl : lookupA fs.cache (resultDir ++ "/" ++ ComputeTaskHash t) with
      | none => rw [hl] at hc; simp at hc
      | some entries =>
        rw [hl] at hc
        refine ⟨entries, ?_, rfl⟩
        intro he
        rw [he] at hc
        simp at hc
    obtain ⟨entries, hne, hl⟩ := hent
    exact ⟨entries, hne, hl, executeTask_hit_eq resultDir fs t m entries hl hne⟩
  · have hmiss : Runner.isCached fs (resultDir ++ "/" ++ ComputeTaskHash t) = false := by
      rcases hb : Runner.isCached fs (resultDir ++ "/" ++ ComputeTaskHash t)
      · rfl
      · exact absurd hb hc
    cases hga : gatherDeps t.deps m with
    | error missing =>
      right; left
      unfold Runner.executeTask
      simp only [hmiss, Bool.false_eq_true, if_false, hga]
      refine ⟨?_, ?_,
        ⟨"dependency " ++ missing ++ " not found in executed tasks", ?_⟩⟩ <;>
        trivial
    | ok inputs =>
      right; right
      cases he : (t.exec inputs).error with
      | none =>
        have hok : (t.exec inputs).error.isNone = true := by rw [he]; rfl
        have heq := executeTask_miss_eq resultDir fs t m inputs hmiss hga hok
        rw [heq]
        refine ⟨inputs, rfl, hmiss,
          ⟨⟨fs.cache, fs.temps ++ [fs.nextTemp], fs.nextTemp + 1⟩, rfl, rfl⟩,
          rfl, Or.inl ⟨he, rfl⟩⟩
      | some msg =>
        have hbad : (t.exec inputs).error.isNone = false := by rw [he]; rfl
        unfold Runner.executeTask
        simp only [hmiss, Bool.false_eq_true, if_false, hga, hbad]
        refine ⟨inputs, ?_, ?_,
          ⟨⟨fs.cache, fs.temps ++ [fs.nextTemp], fs.nextTemp + 1⟩, ?_, ?_⟩,
          ?_, Or.inr ⟨?_, ?_⟩⟩ <;>
          first
            | trivial
            | rfl
            | (rw [he]; simp)
theorem parDecrement_nil (tdeps : List (String × List String)) (c : String)
    (st : List (String × Int) × List GoTask) :
    parDecrement [] tdeps c st = st := rfl

theorem parDecrement_cons (u : GoTask) (rest : List GoTask)
    (tdeps : List (String × List String)) (c : String)
    (st : List (String × Int) × List GoTask) :
    parDecrement (u :: rest) tdeps c st =
      parDecrement rest tdeps c
        (if c ∈ (lookupA tdeps u.id).getD [] then
          let newDeg := (lookupA st.1 u.id).getD 0 - 1
          let deg := setA st.1 u.id newDeg
          if newDeg = 0 then (deg, st.2 ++ [u]) else (deg, st.2)
        else st) := rfl

theorem parDecrement_lookup_not_mem (tdeps : List (String × List String))
    (c : String) :
    ∀ (tasks : List GoTask) (st : List (String × Int) × List GoTask)
      (id : String), id ∉ tasks.map GoTask.id →
    lookupA (parDecrement tasks tdeps c st).1 id = lookupA st.1 id := by
  intro tasks
  induction tasks with
  | nil => intro st id _; rfl
  | cons u rest ih =>
    intro st id hid
    simp only [List.map_cons, List.mem_cons] at hid
    push_neg at hid
    rw [parDecrement_cons]
    by_cases hcu : c ∈ (lookupA tdeps u.id).getD []
    · rw [if_pos hcu]
      simp only
      by_cases hz : (lookupA st.1 u.id).getD 0 - 1 = 0
      · rw [if_pos hz, ih _ _ hid.2]
        exact lookupA_setA_ne _ _ _ _ (fun h => hid.1 h.symm)
      · rw [if_neg hz, ih _ _ hid.2]
        exact lookupA_setA_ne _ _ _ _ (fun h => hid.1 h.symm)
    · rw [if_neg hcu]
      exact ih _ _ hid.2

theorem parDecrement_spec (tdeps : List (String × List String)) (c : String)
    (f : GoTask → Int) :
    ∀ (tasks : List GoTask) (deg0 : List (String × Int)) (q0 : List GoTask),
    (tasks.map GoTask.id).Nodup →
    (∀ t ∈ tasks, lookupA deg0 t.id = some (f t)) →
    (parDecrement tasks tdeps c (deg0, q0)).2 =
      q0 ++ tasks.filter (fun u =>
        decide (c ∈ (lookupA tdeps u.id).getD []) && decide (f u = 1)) ∧
    ∀ t ∈ tasks, lookupA (parDecrement tasks tdeps c (deg0, q0)).1 t.id =
      some (if c ∈ (lookupA tdeps t.id).getD [] then f t - 1 else f t) := by
  intro tasks
  induction tasks with
  | nil =>
    intro deg0 q0 _ _
    exact ⟨by simp [parDecrement_nil], fun t ht => absurd ht (List.not_mem_nil t)⟩
  | cons u rest ih =>
    intro deg0 q0 hnd hdeg
    simp only [List.map_cons, List.nodup_cons] at hnd
    have hdu : lookupA deg0 u.id = some (f u) := hdeg u (List.mem_cons_self _ _)
    rw [parDecrement_cons]
    by_cases hcu : c ∈ (lookupA tdeps u.id).getD []
    · rw [if_pos hcu]
      simp only [hdu, Option.getD_some]
      have hdeg1 : ∀ t ∈ rest,
          lookupA (setA deg0 u.id (f u - 1)) t.id = some (f t) := by
        intro t ht
        have hne : u.id ≠ t.id := fun h => hnd.1 (h ▸ List.mem_map_of_mem _ ht)
        rw [lookupA_setA_ne _ _ _ _ hne]
        exact hdeg t (List.mem_cons_of_mem _ ht)
      by_cases hone : f u = 1
      · rw [if_pos (by omega)]
        obtain ⟨ihq, ihd⟩ := ih (setA deg0 u.id (f u - 1)) (q0 ++ [u]) hnd.2 hdeg1
        constructor
        · rw [ihq, List.filter_cons_of_pos (by simp [hcu, hone])]
          simp
        · intro t ht
          rcases List.mem_cons.mp ht with h | h
          · subst h
            rw [parDecrement_lookup_not_mem _ _ _ _ _ hnd.1,
              lookupA_setA_self, if_pos hcu]
          · exact ihd t h
      · rw [if_neg (by omega)]
        obtain ⟨ihq, ihd⟩ := ih (setA deg0 u.id (f u - 1)) q0 hnd.2 hdeg1
        constructor
        · rw [ihq, List.filter_cons_of_neg (by simp [hone])]
        · intro t ht
          rcases List.mem_cons.mp ht with h | h
          · subst h
            rw [parDecrement_lookup_not_mem _ _ _ _ _ hnd.1,
              lookupA_setA_self, if_pos hcu]
          · exact ihd t h
    · rw [if_neg hcu]
      obtain ⟨ihq, ihd⟩ := ih deg0 q0 hnd.2
        (fun t ht => hdeg t (List.mem_cons_of_mem _ ht))
      constructor
      · rw [ihq, List.filter_cons_of_neg (by simp [hcu])]
      · intro t ht
        rcases List.mem_cons.mp ht with h | h
        · subst h
          rw [parDecrement_lookup_not_mem _ _ _ _ _ hnd.1, if_neg hcu]
          exact hdu
        · exact ihd t h

theorem pendCount_empty (t : GoTask) :
    pendCount [] t = (depIdSet t).length := by
  unfold pendCount
  apply List.countP_eq_length.mpr
  intro d _
  rfl

/-- The scheduler invariant holds in the initial state. -/
theorem pInv_init (resultDir : String) (g : Graph) (fs : FS)
    (hnd : (g.tasks.map GoTask.id).Nodup) :
    PInv resultDir g.tasks (initPState g fs) := by
  have hqchar : ∀ t ∈ (initPState g fs).queue, t ∈ g.tasks ∧ depIdSet t = [] := by
    intro t ht
    have hmem := List.mem_of_mem_filter ht
    have hp := List.of_mem_filter ht
    simp only [decide_eq_true_eq] at hp
    rw [lookupA_initInDeg g.tasks t hnd hmem] at hp
    simp only [Option.getD_some, Nat.cast_eq_zero] at hp
    exact ⟨hmem, List.length_eq_zero.mp hp⟩
  refine ⟨rfl, ?_, ?_, ?_, ?_, ?_, ?_, ?_, ?_, ?_, ?_, ?_, ?_, ?_, ?_, ?_,
    ?_, ?_, ?_, ?_, ?_, ?_⟩
  · exact fun t ht => (hqchar t ht).1
  · intro p hp
    simp [initPState] at hp
  · intro r hr
    simp [initPState] at hr
  · intro r hr
    simp [initPState] at hr
  · intro id
    unfold occCount
    have h1 : ((initPState g fs).queue.map GoTask.id).count id ≤
        (g.tasks.map GoTask.id).count id := by
      apply List.Sublist.count_le
      exact List.Sublist.map _ (List.filter_sublist _)
    have h2 : (g.tasks.map GoTask.id).count id ≤ 1 :=
      List.nodup_iff_count_le_one.mp hnd id
    simp only [initPState, List.map_nil, List.count_nil]
    simp only [initPState] at h1
    omega
  · intro t ht
    obtain ⟨_, hdep⟩ := hqchar t ht
    intro d hd
    rw [hdep] at hd
    cases hd
  · intro p hp
    simp [initPState] at hp
  · intro r hr
    simp [initPState] at hr
  · intro r hr
    simp [initPState] at hr
  · intro r hr
    simp [initPState] at hr
  · intro r hr
    simp [initPState] at hr
  · intro t ht
    show lookupA (initInDeg g.tasks) t.id = some ((pendCount [] t : Nat) : Int)
    rw [lookupA_initInDeg g.tasks t hnd ht, pendCount_empty]
  · intro id r hr
    simp [initPState, lookupA] at hr
  · intro r hr
    simp [initPState] at hr
  · intro t snap hmem
    simp [initPState] at hmem
  · intro r hr
    simp [initPState] at hr
  · intro r hr
    simp [initPState] at hr
  · intro r hr
    simp [initPState] at hr
  · intro t inputs fsc hmem
    simp [initPState] at hmem
  · intro i t inputs fsc hi
    simp [initPState] at hi
  · intro fr hfr
    simp [initPState] at hfr
theorem goodRes_exists (rs : List ExecutionResult) (id : String)
    (h : goodRes rs id = true) :
    ∃ r ∈ rs, r.task.id = id ∧ r.result.error = none := by
  unfold goodRes at h
  obtain ⟨r, hr, hp⟩ := List.any_eq_true.mp h
  simp only [Bool.and_eq_true, decide_eq_true_eq,
    Option.isNone_iff_eq_none] at hp
  exact ⟨r, hr, hp.1, hp.2⟩

theorem goodRes_of_mem (rs : List ExecutionResult) (r : ExecutionResult)
    (hr : r ∈ rs) (he : r.result.error = none) :
    goodRes rs r.task.id = true := by
  unfold goodRes
  apply List.any_eq_true.mpr
  exact ⟨r, hr, by simp [he]⟩

theorem count_pos_of_mem_fmap {α : Type} (f : α → String) (l : List α) (x : α)
    (hx : x ∈ l) : 0 < (l.map f).count (f x) := by
  rw [List.count_pos_iff]
  exact List.mem_map_of_mem f hx

theorem not_allDepsGood_of_pend_pos (rs : List ExecutionResult) (u : GoTask)
    (hp : pendCount rs u ≠ 0) : ¬ AllDepsGood rs u := by
  intro h
  exact hp ((pendCount_zero_iff rs u).mpr h)

/-- A task none of whose occupancy conditions hold occupies no slot: if some
recorded dependency of `u` has not completed error-free, `u` is nowhere in
the scheduler. -/
theorem occ_zero_of_pending (resultDir : String) (T : List GoTask) (s : PState)
    (hinv : PInv resultDir T s) (hnd : (T.map GoTask.id).Nodup) (u : GoTask)
    (hu : u ∈ T) (hpend : ¬ AllDepsGood s.results u) : occCount s u.id = 0 := by
  unfold occCount
  have hq : (s.queue.map GoTask.id).count u.id = 0 := by
    rw [List.count_eq_zero]
    intro hc
    obtain ⟨x, hx, hxe⟩ := List.mem_map.mp hc
    have hxu : x = u := id_inj T hnd (hinv.hqmem x hx) hu hxe
    exact hpend (hxu ▸ hinv.hqgood x hx)
  have hr : (s.running.map (fun p => p.1.id)).count u.id = 0 := by
    rw [List.count_eq_zero]
    intro hc
    obtain ⟨x, hx, hxe⟩ := List.mem_map.mp hc
    have hxu : x.1 = u := id_inj T hnd (hinv.hrmem x hx) hu hxe
    exact hpend (hxu ▸ hinv.hrgood x hx)
  have hb : (s.resultsBuf.map (fun r => r.task.id)).count u.id = 0 := by
    rw [List.count_eq_zero]
    intro hc
    obtain ⟨x, hx, hxe⟩ := List.mem_map.mp hc
    have hxu : x.task = u := id_inj T hnd (hinv.hbmem x hx) hu hxe
    exact hpend (hxu ▸ hinv.hbgood x hx)
  have hres : (s.results.map (fun r => r.task.id)).count u.id = 0 := by
    rw [List.count_eq_zero]
    intro hc
    obtain ⟨x, hx, hxe⟩ := List.mem_map.mp hc
    have hxu : x.task = u := id_inj T hnd (hinv.hresmem x hx) hu hxe
    exact hpend (hxu ▸ hinv.hresgood x hx)
  omega

/-- Invariant preservation: a worker dequeues a task. -/
theorem pstep_dequeue (resultDir : String) (T : List GoTask) (s : PState)
    (t : GoTask) (q : List GoTask) (hq : s.queue = t :: q)
    (hinv : PInv resultDir T s) :
    PInv resultDir T
      { s with queue := q, running := s.running ++ [(t, none)] } := by
  have htq : t ∈ s.queue := by rw [hq]; exact List.mem_cons_self _ _
  refine ⟨hinv.htasks, ?_, ?_, hinv.hbmem, hinv.hresmem, ?_, ?_, ?_,
    hinv.hbgood, hinv.hresgood, hinv.hbshape, hinv.hresshape, hinv.hdeg,
    hinv.hfin, hinv.hfin2, ?_, hinv.hcol, hinv.hbpub, hinv.hrespub,
    hinv.hexecev, hinv.hio, hinv.hfail⟩
  · intro x hx
    exact hinv.hqmem x (by rw [hq]; exact List.mem_cons_of_mem _ hx)
  · intro p hp
    rcases List.mem_append.mp hp with h | h
    · exact hinv.hrmem p h
    · rw [List.mem_singleton.mp h]
      exact hinv.hqmem t htq
  · intro id
    have h0 := hinv.hocc id
    unfold occCount at h0 ⊢
    rw [hq] at h0
    simp only [List.map_cons, List.count_cons, List.map_append,
      List.count_append, List.map_cons, List.map_nil, List.count_nil,
      List.count_singleton] at h0 ⊢
    omega
  · intro x hx
    exact hinv.hqgood x (by rw [hq]; exact List.mem_cons_of_mem _ hx)
  · intro p hp
    rcases List.mem_append.mp hp with h | h
    · exact hinv.hrgood p h
    · rw [List.mem_singleton.mp h]
      exact hinv.hqgood t htq
  · intro u snap hmem
    rcases List.mem_append.mp hmem with h | h
    · exact hinv.hsnap u snap h
    · exfalso
      have := List.mem_singleton.mp h
      cases this

/-- Invariant preservation: a worker snapshots the executed-tasks map. -/
theorem pstep_snapshot (resultDir : String) (T : List GoTask) (s : PState)
    (t : GoTask)
    (r1 r2 : List (GoTask × Option (List (String × ExecutionResult))))
    (hrun : s.running = r1 ++ (t, none) :: r2)
    (hinv : PInv resultDir T s) :
    PInv resultDir T { s with running := r1 ++ (t, some s.finished) :: r2 } := by
  have htr : (t, (none : Option (List (String × ExecutionResult)))) ∈
      s.running := by
    rw [hrun]
    exact List.mem_append.mpr (Or.inr (List.mem_cons_self _ _))
  refine ⟨hinv.htasks, hinv.hqmem, ?_, hinv.hbmem, hinv.hresmem, ?_,
    hinv.hqgood, ?_, hinv.hbgood, hinv.hresgood, hinv.hbshape,
    hinv.hresshape, hinv.hdeg, hinv.hfin, hinv.hfin2, ?_, hinv.hcol,
    hinv.hbpub, hinv.hrespub, hinv.hexecev, hinv.hio, hinv.hfail⟩
  · intro p hp
    rcases List.mem_append.mp hp with h | h
    · exact hinv.hrmem p (by rw [hrun]; exact List.mem_append.mpr (Or.inl h))
    · rcases List.mem_cons.mp h with h' | h'
      · rw [h']
        exact hinv.hrmem (t, none) htr
      · exact hinv.hrmem p
          (by rw [hrun]
              exact List.mem_append.mpr (Or.inr (List.mem_cons_of_mem _ h')))
  · intro id
    have h0 := hinv.hocc id
    unfold occCount at h0 ⊢
    rw [hrun] at h0
    simp only [List.map_append, List.count_append, List.map_cons,
      List.count_cons] at h0 ⊢
    omega
  · intro p hp
    rcases List.mem_append.mp hp with h | h
    · exact hinv.hrgood p (by rw [hrun]; exact List.mem_append.mpr (Or.inl h))
    · rcases List.mem_cons.mp h with h' | h'
      · rw [h']
        exact hinv.hrgood (t, none) htr
      · exact hinv.hrgood p
          (by rw [hrun]
              exact List.mem_append.mpr (Or.inr (List.mem_cons_of_mem _ h')))
  · intro u snap hmem
    rcases List.mem_append.mp hmem with h | h
    · exact hinv.hsnap u snap
        (by rw [hrun]; exact List.mem_append.mpr (Or.inl h))
    · rcases List.mem_cons.mp h with h' | h'
      · have hu : u = t ∧ some snap = some s.finished := by
          have := h'
          exact ⟨congrArg Prod.fst this, congrArg Prod.snd this⟩
        obtain ⟨hu1, hu2⟩ := hu
        have hsnapf : snap = s.finished := by
          injection hu2
        subst hu1
        subst hsnapf
        constructor
        · intro id r hl
          exact hinv.hfin id r hl
        · intro d hd
          have hgood := hinv.hrgood _ htr d hd
          obtain ⟨r, hrmem, hrid, hrerr⟩ := goodRes_exists _ _ hgood
          refine ⟨r, ?_, hrerr⟩
          rw [← hrid]
          exact hinv.hfin2 r hrmem
      · exact hinv.hsnap u snap
          (by rw [hrun]
              exact List.mem_append.mpr (Or.inr (List.mem_cons_of_mem _ h')))

/-- Invariant preservation: the collector consumes a worker error and
returns. -/
theorem pstep_collectErr (resultDir : String) (T : List GoTask) (s : PState)
    (e : String) (rest : List String) (hhalt : s.halted = none)
    (hinv : PInv resultDir T s) :
    PInv resultDir T { s with errorsBuf := rest, halted := some e } := by
  refine ⟨hinv.htasks, hinv.hqmem, hinv.hrmem, hinv.hbmem, hinv.hresmem,
    hinv.hocc, hinv.hqgood, hinv.hrgood, hinv.hbgood, hinv.hresgood,
    hinv.hbshape, hinv.hresshape, hinv.hdeg, hinv.hfin, hinv.hfin2,
    hinv.hsnap, hinv.hcol, hinv.hbpub, hinv.hrespub, hinv.hexecev,
    hinv.hio, ?_⟩
  intro fr hfr
  obtain ⟨_, m, _, hh⟩ := hinv.hfail fr hfr
  rw [hhalt] at hh
  cases hh
/-- Invariant preservation: a worker finishes `executeTask` on its
dequeued task. -/
theorem pstep_finish (resultDir : String) (T : List GoTask) (s : PState)
    (hwf : WfTasks T) (t : GoTask) (snap : List (String × ExecutionResult))
    (r1 r2 : List (GoTask × Option (List (String × ExecutionResult))))
    (hrun : s.running = r1 ++ (t, some snap) :: r2)
    (hinv : PInv resultDir T s) :
    PInv resultDir T (finishTask resultDir s t snap r1 r2) := by
  obtain ⟨hnd, hclo, hhash⟩ := hwf
  have htr : (t, some snap) ∈ s.running := by
    rw [hrun]
    exact List.mem_append.mpr (Or.inr (List.mem_cons_self _ _))
  have htT : t ∈ T := hinv.hrmem _ htr
  have hrsub : ∀ p, p ∈ r1 ++ r2 → p ∈ s.running := by
    intro p hp
    rw [hrun]
    rcases List.mem_append.mp hp with h | h
    · exact List.mem_append.mpr (Or.inl h)
    · exact List.mem_append.mpr (Or.inr (List.mem_cons_of_mem _ h))
  have hruncnt : 0 < (s.running.map (fun p => p.1.id)).count t.id :=
    count_pos_of_mem_fmap (fun p => p.1.id) s.running (t, some snap) htr
  rcases executeTask_spec resultDir s.fs t snap with
    ⟨entries, hne, hl, heq⟩ | ⟨hcache, hev, e, hout⟩ |
    ⟨inputs, hga, hmiss, ⟨fsc, hfsc, hev⟩, hout, hrest⟩
  · -- cache hit: no events, file system untouched, cached result sent
    simp only [finishTask, heq, List.append_nil]
    refine ⟨hinv.htasks, hinv.hqmem, ?_, ?_, hinv.hresmem, ?_, hinv.hqgood,
      ?_, ?_, hinv.hresgood, ?_, hinv.hresshape, hinv.hdeg, hinv.hfin,
      hinv.hfin2, ?_, hinv.hcol, ?_, hinv.hrespub, hinv.hexecev, hinv.hio,
      hinv.hfail⟩
    · intro p hp
      exact hinv.hrmem p (hrsub p hp)
    · intro r hr
      rcases List.mem_append.mp hr with h | h
      · exact hinv.hbmem r h
      · rw [List.mem_singleton.mp h]
        exact htT
    · intro id
      have h0 := hinv.hocc id
      unfold occCount at h0 ⊢
      rw [hrun] at h0
      simp only [Runner.loadCachedResult, List.map_append, List.count_append,
        List.map_cons, List.count_cons, List.map_nil, List.count_nil,
        List.count_singleton] at h0 ⊢
      omega
    · intro p hp
      exact hinv.hrgood p (hrsub p hp)
    · intro r hr
      rcases List.mem_append.mp hr with h | h
      · exact hinv.hbgood r h
      · rw [List.mem_singleton.mp h]
        exact hinv.hrgood _ htr
    · intro r hr
      rcases List.mem_append.mp hr with h | h
      · exact hinv.hbshape r h
      · rw [List.mem_singleton.mp h]
        rfl
    · intro u usnap hmem
      exact hinv.hsnap u usnap (hrsub _ hmem)
    · intro r hr herr
      rcases List.mem_append.mp hr with h | h
      · exact hinv.hbpub r h herr
      · rw [List.mem_singleton.mp h]
        exact ⟨entries, hl, (sortStrings_perm entries).symm⟩
  · -- executeTask returned an internal error: no events, cache untouched,
    -- the wrapped error goes to the error channel
    simp only [finishTask, hout, hev, List.append_nil]
    refine ⟨hinv.htasks, hinv.hqmem, ?_, hinv.hbmem, hinv.hresmem, ?_,
      hinv.hqgood, ?_, hinv.hbgood, hinv.hresgood, hinv.hbshape,
      hinv.hresshape, hinv.hdeg, hinv.hfin, hinv.hfin2, ?_, hinv.hcol,
      ?_, ?_, hinv.hexecev, hinv.hio, hinv.hfail⟩
    · intro p hp
      exact hinv.hrmem p (hrsub p hp)
    · intro id
      have h0 := hinv.hocc id
      unfold occCount at h0 ⊢
      rw [hrun] at h0
      simp only [List.map_append, List.count_append, List.map_cons,
        List.count_cons, List.map_nil, List.count_nil] at h0 ⊢
      omega
    · intro p hp
      exact hinv.hrgood p (hrsub p hp)
    · intro u usnap hmem
      exact hinv.hsnap u usnap (hrsub _ hmem)
    · intro r hr herr
      rw [hcache]
      exact hinv.hbpub r hr herr
    · intro r hr herr
      rw [hcache]
      exact hinv.hrespub r hr herr
  · -- the task was executed: one execCall event; on success the result is
    -- published into the task's cache directory
    simp only [finishTask, hout, hev, List.append_nil]
    refine ⟨hinv.htasks, hinv.hqmem, ?_, ?_, hinv.hresmem, ?_, hinv.hqgood,
      ?_, ?_, hinv.hresgood, ?_, hinv.hresshape, hinv.hdeg, hinv.hfin,
      hinv.hfin2, ?_, ?_, ?_, ?_, ?_, ?_, hinv.hfail⟩
    · intro p hp
      exact hinv.hrmem p (hrsub p hp)
    · intro r hr
      rcases List.mem_append.mp hr with h | h
      · exact hinv.hbmem r h
      · rw [List.mem_singleton.mp h]
        exact htT
    · intro id
      have h0 := hinv.hocc id
      unfold occCount at h0 ⊢
      rw [hrun] at h0
      simp only [missResult, List.map_append, List.count_append,
        List.map_cons, List.count_cons, List.map_nil, List.count_nil,
        List.count_singleton] at h0 ⊢
      omega
    · intro p hp
      exact hinv.hrgood p (hrsub p hp)
    · intro r hr
      rcases List.mem_append.mp hr with h | h
      · exact hinv.hbgood r h
      · rw [List.mem_singleton.mp h]
        exact hinv.hrgood _ htr
    · intro r hr
      rcases List.mem_append.mp hr with h | h
      · exact hinv.hbshape r h
      · rw [List.mem_singleton.mp h]
        rfl
    · intro u usnap hmem
      exact hinv.hsnap u usnap (hrsub _ hmem)
    · intro r hr
      exact List.mem_append_left _ (hinv.hcol r hr)
    · -- published directories of buffered results survive the new publish
      intro r hr herr
      rcases List.mem_append.mp hr with h | h
      · rcases hrest with ⟨herr2, hset⟩ | ⟨herr2, hsame⟩
        · obtain ⟨l, hlk, hperm⟩ := hinv.hbpub r h herr
          by_cases hdeq : r.outputDir = resultDir ++ "/" ++ ComputeTaskHash t
          · exfalso
            have hsh := hinv.hbshape r h
            rw [hsh] at hdeq
            have hhe : ComputeTaskHash r.task = ComputeTaskHash t :=
              appendRight_inj (resultDir ++ "/") _ _ hdeq
            have hid : r.task.id = t.id := hhash r.task (hinv.hbmem r h) t htT hhe
            have hb1 : 0 < (s.resultsBuf.map (fun x => x.task.id)).count t.id := by
              have h5 := count_pos_of_mem_fmap (fun x => x.task.id) s.resultsBuf r h
              simp only [hid] at h5
              exact h5
            have h0 := hinv.hocc t.id
            unfold occCount at h0
            omega
          · rw [hset, lookupA_setA_ne _ _ _ _ (fun h2 => hdeq h2.symm)]
            exact ⟨l, hlk, hperm⟩
        · rw [hsame]
          exact hinv.hbpub r h herr
      · rw [List.mem_singleton.mp h] at herr ⊢
        rcases hrest with ⟨herr2, hset⟩ | ⟨herr2, hsame⟩
        · rw [hset]
          exact ⟨(t.exec inputs).files, lookupA_setA_self _ _ _, List.Perm.refl _⟩
        · exact absurd herr herr2
    · -- published directories of collected results survive the new publish
      intro r hr herr
      rcases hrest with ⟨herr2, hset⟩ | ⟨herr2, hsame⟩
      · obtain ⟨l, hlk, hperm⟩ := hinv.hrespub r hr herr
        by_cases hdeq : r.outputDir = resultDir ++ "/" ++ ComputeTaskHash t
        · exfalso
          have hsh := hinv.hresshape r hr
          rw [hsh] at hdeq
          have hhe : ComputeTaskHash r.task = ComputeTaskHash t :=
            appendRight_inj (resultDir ++ "/") _ _ hdeq
          have hid : r.task.id = t.id := hhash r.task (hinv.hresmem r hr) t htT hhe
          have hb1 : 0 < (s.results.map (fun x => x.task.id)).count t.id := by
            have h5 := count_pos_of_mem_fmap (fun x => x.task.id) s.results r hr
            simp only [hid] at h5
            exact h5
          have h0 := hinv.hocc t.id
          unfold occCount at h0
          omega
        · rw [hset, lookupA_setA_ne _ _ _ _ (fun h2 => hdeq h2.symm)]
          exact ⟨l, hlk, hperm⟩
      · rw [hsame]
        exact hinv.hrespub r hr herr
    · intro u inputs2 fsc2 hmem
      rcases List.mem_append.mp hmem with h | h
      · exact hinv.hexecev u inputs2 fsc2 h
      · have := List.mem_singleton.mp h
        injection this with h1 h2 h3
        subst h1
        exact ⟨htT, hinv.hrgood _ htr⟩
    · -- dependency visibility of the new execCall event
      show InputsOk resultDir (s.trace ++ [Event.execCall t inputs fsc])
      apply inputsOk_append resultDir s.trace _ hinv.hio
      intro t2 inputs2 fsc2 hmem d hd
      have heq2 := List.mem_singleton.mp hmem
      injection heq2 with h1 h2 h3
      rw [h1] at hd
      rw [h2, h3]
      have hdid : d.id ∈ depIdSet t :=
        (mem_depIdSet _ _).mpr (List.mem_map_of_mem _ hd)
      obtain ⟨hsnap1, hsnap2⟩ := hinv.hsnap t snap htr
      obtain ⟨res, hlook, herrres⟩ := hsnap2 d.id hdid
      obtain ⟨hresmem2, hresid⟩ := hsnap1 d.id res hlook
      obtain ⟨res2, hlook2, hin⟩ := gatherDeps_ok_spec t.deps snap inputs hga d hd
      rw [hlook] at hlook2
      injection hlook2 with hres2
      subst hres2
      have hdT : d ∈ T := hclo t htT d hd
      have hrt : res.task = d :=
        id_inj T hnd (hinv.hresmem res hresmem2) hdT hresid
      refine ⟨res, hresid ▸ hinv.hcol res hresmem2, herrres, ?_, hin, ?_⟩
      · rw [hinv.hresshape res hresmem2, hrt]
      · obtain ⟨l, hlk, hperm⟩ := hinv.hrespub res hresmem2 herrres
        rw [hfsc]
        exact ⟨l, hlk, hperm⟩
/-- Invariant preservation: the collector consumes a successful result. -/
theorem pstep_collectOk (resultDir : String) (T : List GoTask) (s : PState)
    (hwf : WfTasks T) (r : ExecutionResult) (rest : List ExecutionResult)
    (hhalt : s.halted = none) (hbuf : s.resultsBuf = r :: rest)
    (herr : r.result.error = none) (hinv : PInv resultDir T s) :
    PInv resultDir T (collectOk s r rest) := by
  obtain ⟨hnd, hclo, hhash⟩ := hwf
  have hrbuf : r ∈ s.resultsBuf := by
    rw [hbuf]
    exact List.mem_cons_self _ _
  have hrT : r.task ∈ T := hinv.hbmem r hrbuf
  have hng : goodRes s.results r.task.id = false := by
    rcases hgb : goodRes s.results r.task.id
    · rfl
    · exfalso
      obtain ⟨r2, hr2, hrid2, herr2⟩ := goodRes_exists _ _ hgb
      have hb1 : 0 < (s.resultsBuf.map (fun x => x.task.id)).count r.task.id :=
        count_pos_of_mem_fmap (fun x => x.task.id) s.resultsBuf r hrbuf
      have hb2 : 0 < (s.results.map (fun x => x.task.id)).count r.task.id := by
        have h5 := count_pos_of_mem_fmap (fun x => x.task.id) s.results r2 hr2
        simp only [hrid2] at h5
        exact h5
      have h0 := hinv.hocc r.task.id
      unfold occCount at h0
      omega
  obtain ⟨hq2, hd2⟩ := parDecrement_spec (initTaskDeps T) r.task.id
    (fun u => (pendCount s.results u : Int)) T s.inDeg [] hnd hinv.hdeg
  have hmemext : ∀ u,
      u ∈ (parDecrement T (initTaskDeps T) r.task.id (s.inDeg, [])).2 →
      u ∈ T ∧ r.task.id ∈ depIdSet u ∧ pendCount s.results u = 1 := by
    intro u hu
    rw [hq2, List.nil_append] at hu
    have huT := List.mem_of_mem_filter hu
    have hp := List.of_mem_filter hu
    simp only [Bool.and_eq_true, decide_eq_true_eq] at hp
    rw [lookupA_initTaskDeps T u hnd huT, Option.getD_some] at hp
    refine ⟨huT, hp.1, ?_⟩
    exact_mod_cast hp.2
  have hextgood : ∀ u,
      u ∈ (parDecrement T (initTaskDeps T) r.task.id (s.inDeg, [])).2 →
      AllDepsGood (s.results ++ [r]) u := by
    intro u hu
    obtain ⟨huT, humem, hupend⟩ := hmemext u hu
    rw [← pendCount_zero_iff]
    rw [pendCount_snoc_ok s.results r u herr hng, hupend, if_pos humem]
  have hextocc : ∀ u,
      u ∈ (parDecrement T (initTaskDeps T) r.task.id (s.inDeg, [])).2 →
      occCount s u.id = 0 := by
    intro u hu
    obtain ⟨huT, humem, hupend⟩ := hmemext u hu
    apply occ_zero_of_pending resultDir T s hinv hnd u huT
    apply not_allDepsGood_of_pend_pos
    omega
  have hextcnt : ∀ id,
      (((parDecrement T (initTaskDeps T) r.task.id (s.inDeg, [])).2).map
        GoTask.id).count id ≤ 1 := by
    intro id
    rw [hq2, List.nil_append]
    calc ((List.filter _ T).map GoTask.id).count id
        ≤ (T.map GoTask.id).count id :=
          List.Sublist.count_le (List.Sublist.map _ (List.filter_sublist _)) _
      _ ≤ 1 := List.nodup_iff_count_le_one.mp hnd id
  simp only [collectOk, hinv.htasks]
  refine ⟨rfl, ?_, hinv.hrmem, ?_, ?_, ?_, ?_, ?_, ?_, ?_, ?_, ?_, ?_, ?_,
    ?_, ?_, ?_, ?_, ?_, ?_, ?_, ?_⟩
  · intro u hu
    rcases List.mem_append.mp hu with h | h
    · exact hinv.hqmem u h
    · exact (hmemext u h).1
  · intro x hx
    exact hinv.hbmem x (by rw [hbuf]; exact List.mem_cons_of_mem _ hx)
  · intro x hx
    rcases List.mem_append.mp hx with h | h
    · exact hinv.hresmem x h
    · rw [List.mem_singleton.mp h]
      exact hrT
  · intro id
    have h0 := hinv.hocc id
    have hle := hextcnt id
    unfold occCount at h0 ⊢
    rw [hbuf] at h0
    by_cases hE : (((parDecrement T (initTaskDeps T) r.task.id
        (s.inDeg, [])).2).map GoTask.id).count id = 0
    · simp only [List.map_append, List.count_append, List.map_cons,
        List.count_cons, List.map_nil, List.count_nil,
        List.count_singleton] at h0 ⊢
      omega
    · have hpos := Nat.pos_of_ne_zero hE
      obtain ⟨u, hu, hue⟩ := List.mem_map.mp (List.count_pos_iff.mp hpos)
      have hocc0 := hextocc u hu
      rw [hue] at hocc0
      unfold occCount at hocc0
      rw [hbuf] at hocc0
      simp only [List.map_append, List.count_append, List.map_cons,
        List.count_cons, List.map_nil, List.count_nil,
        List.count_singleton] at h0 hocc0 ⊢
      omega
  · intro u hu
    rcases List.mem_append.mp hu with h | h
    · exact allDepsGood_mono _ _ _ (hinv.hqgood u h)
    · exact hextgood u h
  · intro p hp
    exact allDepsGood_mono _ _ _ (hinv.hrgood p hp)
  · intro x hx
    apply allDepsGood_mono
    exact hinv.hbgood x (by rw [hbuf]; exact List.mem_cons_of_mem _ hx)
  · intro x hx
    rcases List.mem_append.mp hx with h | h
    · exact allDepsGood_mono _ _ _ (hinv.hresgood x h)
    · rw [List.mem_singleton.mp h]
      exact allDepsGood_mono _ _ _ (hinv.hbgood r hrbuf)
  · intro x hx
    exact hinv.hbshape x (by rw [hbuf]; exact List.mem_cons_of_mem _ hx)
  · intro x hx
    rcases List.mem_append.mp hx with h | h
    · exact hinv.hresshape x h
    · rw [List.mem_singleton.mp h]
      exact hinv.hbshape r hrbuf
  · intro u huT
    rw [hd2 u huT, lookupA_initTaskDeps T u hnd huT, Option.getD_some,
      pendCount_snoc_ok s.results r u herr hng]
    by_cases hm : r.task.id ∈ depIdSet u
    · rw [if_pos hm, if_pos hm]
      have hge : 1 ≤ pendCount s.results u := by
        unfold pendCount
        rw [Nat.succ_le_iff, List.countP_pos]
        exact ⟨r.task.id, hm, by rw [hng]; rfl⟩
      congr 1
      omega
    · rw [if_neg hm, if_neg hm]
      simp
  · intro id x hl
    by_cases hid : r.task.id = id
    · rw [← hid, lookupA_setA_self] at hl
      injection hl with hl2
      rw [← hl2]
      exact ⟨List.mem_append_right _ (List.mem_singleton.mpr rfl), hid⟩
    · rw [lookupA_setA_ne _ _ _ _ hid] at hl
      obtain ⟨hm, hi⟩ := hinv.hfin id x hl
      exact ⟨List.mem_append_left _ hm, hi⟩
  · intro x hx
    rcases List.mem_append.mp hx with h | h
    · by_cases hid : r.task.id = x.task.id
      · exfalso
        have hb1 : 0 < (s.resultsBuf.map (fun y => y.task.id)).count
            r.task.id :=
          count_pos_of_mem_fmap (fun y => y.task.id) s.resultsBuf r hrbuf
        have hb2 : 0 < (s.results.map (fun y => y.task.id)).count
            r.task.id := by
          have h5 := count_pos_of_mem_fmap (fun y => y.task.id) s.results x h
          simp only [← hid] at h5
          exact h5
        have h0 := hinv.hocc r.task.id
        unfold occCount at h0
        omega
      · rw [lookupA_setA_ne _ _ _ _ hid]
        exact hinv.hfin2 x h
    · rw [List.mem_singleton.mp h]
      exact lookupA_setA_self _ _ _
  · intro u usnap hmem
    obtain ⟨h1, h2⟩ := hinv.hsnap u usnap hmem
    constructor
    · intro id x hl
      obtain ⟨hm, hi⟩ := h1 id x hl
      exact ⟨List.mem_append_left _ hm, hi⟩
    · exact h2
  · intro x hx
    rcases List.mem_append.mp hx with h | h
    · exact List.mem_append_left _ (hinv.hcol x h)
    · rw [List.mem_singleton.mp h]
      exact List.mem_append_right _ (List.mem_singleton.mpr rfl)
  · intro x hx herr2
    exact hinv.hbpub x (by rw [hbuf]; exact List.mem_cons_of_mem _ hx) herr2
  · intro x hx herr2
    rcases List.mem_append.mp hx with h | h
    · exact hinv.hrespub x h herr2
    · rw [List.mem_singleton.mp h] at herr2 ⊢
      exact hinv.hbpub r hrbuf herr2
  · intro u inputs fsc hmem
    rcases List.mem_append.mp hmem with h | h
    · obtain ⟨h1, h2⟩ := hinv.hexecev u inputs fsc h
      exact ⟨h1, allDepsGood_mono _ _ _ h2⟩
    · exact Event.noConfusion (List.mem_singleton.mp h)
  · apply inputsOk_append_simple resultDir s.trace _ hinv.hio
    intro u inputs fsc hmem
    exact Event.noConfusion (List.mem_singleton.mp hmem)
  · intro fr hfr
    obtain ⟨_, m, _, hh⟩ := hinv.hfail fr hfr
    rw [hhalt] at hh
    cases hh

/-- Invariant preservation: the collector consumes a failed result and
returns the error naming the failing task. -/
theorem pstep_collectFail (resultDir : String) (T : List GoTask) (s : PState)
    (hwf : WfTasks T) (r : ExecutionResult) (rest : List ExecutionResult)
    (m : String) (hbuf : s.resultsBuf = r :: rest)
    (herr : r.result.error = some m) (hinv : PInv resultDir T s) :
    PInv resultDir T (collectFail s r rest m) := by
  obtain ⟨hnd, hclo, hhash⟩ := hwf
  have hrbuf : r ∈ s.resultsBuf := by
    rw [hbuf]
    exact List.mem_cons_self _ _
  have hrT : r.task ∈ T := hinv.hbmem r hrbuf
  simp only [collectFail]
  refine ⟨hinv.htasks, hinv.hqmem, hinv.hrmem, ?_, ?_, ?_, ?_, ?_, ?_, ?_,
    ?_, ?_, ?_, ?_, ?_, ?_, ?_, ?_, ?_, ?_, ?_, ?_⟩
  · intro x hx
    exact hinv.hbmem x (by rw [hbuf]; exact List.mem_cons_of_mem _ hx)
  · intro x hx
    rcases List.mem_append.mp hx with h | h
    · exact hinv.hresmem x h
    · rw [List.mem_singleton.mp h]
      exact hrT
  · intro id
    have h0 := hinv.hocc id
    unfold occCount at h0 ⊢
    rw [hbuf] at h0
    simp only [List.map_append, List.count_append, List.map_cons,
      List.count_cons, List.map_nil, List.count_nil,
      List.count_singleton] at h0 ⊢
    omega
  · intro u hu
    exact allDepsGood_mono _ _ _ (hinv.hqgood u hu)
  · intro p hp
    exact allDepsGood_mono _ _ _ (hinv.hrgood p hp)
  · intro x hx
    apply allDepsGood_mono
    exact hinv.hbgood x (by rw [hbuf]; exact List.mem_cons_of_mem _ hx)
  · intro x hx
    rcases List.mem_append.mp hx with h | h
    · exact allDepsGood_mono _ _ _ (hinv.hresgood x h)
    · rw [List.mem_singleton.mp h]
      exact allDepsGood_mono _ _ _ (hinv.hbgood r hrbuf)
  · intro x hx
    exact hinv.hbshape x (by rw [hbuf]; exact List.mem_cons_of_mem _ hx)
  · intro x hx
    rcases List.mem_append.mp hx with h | h
    · exact hinv.hresshape x h
    · rw [List.mem_singleton.mp h]
      exact hinv.hbshape r hrbuf
  · intro u huT
    rw [pendCount_snoc_err s.results r u m herr]
    exact hinv.hdeg u huT
  · intro id x hl
    by_cases hid : r.task.id = id
    · rw [← hid, lookupA_setA_self] at hl
      injection hl with hl2
      rw [← hl2]
      exact ⟨List.mem_append_right _ (List.mem_singleton.mpr rfl), hid⟩
    · rw [lookupA_setA_ne _ _ _ _ hid] at hl
      obtain ⟨hm, hi⟩ := hinv.hfin id x hl
      exact ⟨List.mem_append_left _ hm, hi⟩
  · intro x hx
    rcases List.mem_append.mp hx with h | h
    · by_cases hid : r.task.id = x.task.id
      · exfalso
        have hb1 : 0 < (s.resultsBuf.map (fun y => y.task.id)).count
            r.task.id :=
          count_pos_of_mem_fmap (fun y => y.task.id) s.resultsBuf r hrbuf
        have hb2 : 0 < (s.results.map (fun y => y.task.id)).count
            r.task.id := by
          have h5 := count_pos_of_mem_fmap (fun y => y.task.id) s.results x h
          simp only [← hid] at h5
          exact h5
        have h0 := hinv.hocc r.task.id
        unfold occCount at h0
        omega
      · rw [lookupA_setA_ne _ _ _ _ hid]
        exact hinv.hfin2 x h
    · rw [List.mem_singleton.mp h]
      exact lookupA_setA_self _ _ _
  · intro u usnap hmem
    obtain ⟨h1, h2⟩ := hinv.hsnap u usnap hmem
    constructor
    · intro id x hl
      obtain ⟨hm, hi⟩ := h1 id x hl
      exact ⟨List.mem_append_left _ hm, hi⟩
    · exact h2
  · intro x hx
    rcases List.mem_append.mp hx with h | h
    · exact List.mem_append_left _ (hinv.hcol x h)
    · rw [List.mem_singleton.mp h]
      exact List.mem_append_right _ (List.mem_singleton.mpr rfl)
  · intro x hx herr2
    exact hinv.hbpub x (by rw [hbuf]; exact List.mem_cons_of_mem _ hx) herr2
  · intro x hx herr2
    rcases List.mem_append.mp hx with h | h
    · exact hinv.hrespub x h herr2
    · exfalso
      rw [List.mem_singleton.mp h] at herr2
      rw [herr] at herr2
      cases herr2
  · intro u inputs fsc hmem
    rcases List.mem_append.mp hmem with h | h
    · obtain ⟨h1, h2⟩ := hinv.hexecev u inputs fsc h
      exact ⟨h1, allDepsGood_mono _ _ _ h2⟩
    · exact Event.noConfusion (List.mem_singleton.mp h)
  · apply inputsOk_append_simple resultDir s.trace _ hinv.hio
    intro u inputs fsc hmem
    exact Event.noConfusion (List.mem_singleton.mp hmem)
  · intro fr hfr
    have hfr2 : r = fr := by
      injection hfr
    subst hfr2
    exact ⟨List.mem_append_right _ (List.mem_singleton.mpr rfl), m, herr, rfl⟩
/-- Invariant preservation for every scheduler step. -/
theorem pstep_preserves (resultDir : String) (T : List GoTask)
    (hwf : WfTasks T) {s s2 : PState} (hstep : PStep resultDir s s2)
    (hinv : PInv resultDir T s) : PInv resultDir T s2 := by
  cases hstep with
  | dequeue t q hq => exact pstep_dequeue resultDir T s t q hq hinv
  | snapshot t r1 r2 hrun =>
      exact pstep_snapshot resultDir T s t r1 r2 hrun hinv
  | finish t snap r1 r2 hrun =>
      exact pstep_finish resultDir T s hwf t snap r1 r2 hrun hinv
  | collectOkStep r rest hhalt hbuf herr =>
      exact pstep_collectOk resultDir T s hwf r rest hhalt hbuf herr hinv
  | collectFailStep r rest m hhalt hbuf herr =>
      exact pstep_collectFail resultDir T s hwf r rest m hbuf herr hinv
  | collectErrStep e rest hhalt hbuf =>
      exact pstep_collectErr resultDir T s e rest hhalt hinv

/-- The scheduler invariant holds at every reachable state. -/
theorem preach_inv (resultDir : String) (g : Graph) (fs0 : FS)
    (hwf : WfTasks g.tasks) (s : PState)
    (hreach : PReach resultDir g fs0 s) : PInv resultDir g.tasks s := by
  unfold PReach at hreach
  induction hreach with
  | refl => exact pInv_init resultDir g fs0 hwf.1
  | tail hsteps hstep ih =>
      exact pstep_preserves resultDir g.tasks hwf hstep ih

/-- A successful `TopologicalSort` respects dependency order, has unique
IDs, and only lists graph tasks (replay of the Kahn-loop analysis). -/
theorem topologicalSort_ok_spec (g : Graph)
    (hnd : (g.tasks.map GoTask.id).Nodup) (res : List GoTask)
    (hres : g.TopologicalSort = .ok res) :
    PosOk g res ∧ (res.map GoTask.id).Nodup ∧ ∀ t ∈ res, t ∈ g.tasks := by
  have hinv := kahnInit_inv g hnd
  have hmeas : kahnMeasure g
      ((g.tasks.map GoTask.id).filter (fun id =>
        (((lookupA g.edges id).getD []).length : Int) = 0))
      (([] : List GoTask).map GoTask.id) ≤ 2 * g.tasks.length + 1 := by
    have h1 : ((g.tasks.map GoTask.id).filter (fun id =>
        (((lookupA g.edges id).getD []).length : Int) = 0)).length ≤
        g.tasks.length := by
      calc _ ≤ (g.tasks.map GoTask.id).length := (List.filter_sublist _).length_le
        _ = g.tasks.length := List.length_map _ _
    have h2 := kahnMeasure_le g ((g.tasks.map GoTask.id).filter (fun id =>
        (((lookupA g.edges id).getD []).length : Int) = 0))
      (([] : List GoTask).map GoTask.id)
    omega
  obtain ⟨res0, hres0, _, hpos, hndres, hmemres, _⟩ :=
    kahnLoop_spec g hnd (2 * g.tasks.length + 1) _ _ [] hinv hmeas
  have hsort : g.TopologicalSort =
      (if res0.length ≠ g.tasks.length then .error "cycle detected in task graph"
       else .ok res0) := by
    unfold Graph.TopologicalSort
    rw [dedupFirst_eq_self _ hnd, hres0]
  rw [hsort] at hres
  by_cases hl : res0.length ≠ g.tasks.length
  · rw [if_pos hl] at hres
    cases hres
  · rw [if_neg hl] at hres
    cases hres
    exact ⟨hpos, hndres, hmemres⟩

/-- The sequential loop preserves dependency visibility: every `Execute`
invocation it performs sees all its dependencies collected, passed in the
inputs, and published. -/
theorem seqLoop_inputsOk (resultDir : String) (T : List GoTask)
    (hnd : (T.map GoTask.id).Nodup)
    (hclo : ∀ t ∈ T, ∀ d ∈ t.deps, d ∈ T)
    (hhash : ∀ t1 ∈ T, ∀ t2 ∈ T,
      ComputeTaskHash t1 = ComputeTaskHash t2 → t1.id = t2.id) :
    ∀ (tasks : List GoTask) (fs : FS) (evs : List Event)
      (results : List ExecutionResult)
      (executed : List (String × ExecutionResult)),
    (∀ t ∈ tasks, t ∈ T) →
    (tasks.map GoTask.id).Nodup →
    (∀ t ∈ tasks, lookupA executed t.id = none) →
    (∀ id r, lookupA executed id = some r → r.task.id = id ∧ r.task ∈ T ∧
      r.result.error = none ∧
      r.outputDir = resultDir ++ "/" ++ ComputeTaskHash r.task ∧
      Event.collected id r ∈ evs ∧
      ∃ l, lookupA fs.cache r.outputDir = some l ∧ l.Perm r.result.files) →
    InputsOk resultDir evs →
    InputsOk resultDir
      (executeSeqLoop resultDir tasks fs evs results executed).events := by
  intro tasks
  induction tasks with
  | nil =>
    intro fs evs results executed _ _ _ _ hio
    exact hio
  | cons t rest ih =>
    intro fs evs results executed hmem hnds hfresh hexinv hio
    have htT : t ∈ T := hmem t (List.mem_cons_self _ _)
    simp only [List.map_cons, List.nodup_cons] at hnds
    rcases executeTask_spec resultDir fs t executed with
      ⟨entries, hne, hl, heq⟩ | ⟨hcache, hev, e, hout⟩ |
      ⟨inputs, hga, hmiss, ⟨fsc, hfsc, hev⟩, hout, hrest⟩
    · -- cache hit: no Execute call, recurse with the cached result recorded
      have hexec := executeTask_hit_eq resultDir fs t executed entries hl hne
      rw [executeSeqLoop, hexec]
      simp only
      apply ih fs _ _ _ (fun u hu => hmem u (List.mem_cons_of_mem _ hu))
        hnds.2
      · intro u hu
        have hne2 : t.id ≠ u.id := by
          intro h
          apply hnds.1
          rw [h]
          exact List.mem_map_of_mem _ hu
        rw [lookupA_setA_ne _ _ _ _ hne2]
        exact hfresh u (List.mem_cons_of_mem _ hu)
      · intro id r hlk
        by_cases hid : t.id = id
        · rw [← hid, lookupA_setA_self] at hlk
          injection hlk with hlk2
          rw [← hlk2, ← hid]
          refine ⟨rfl, htT, rfl, rfl, ?_, ?_⟩
          · exact List.mem_append_right _ (List.mem_singleton.mpr rfl)
          · exact ⟨entries, hl, (sortStrings_perm entries).symm⟩
        · rw [lookupA_setA_ne _ _ _ _ hid] at hlk
          obtain ⟨h1, h2, h3, h4, h5, h6⟩ := hexinv id r hlk
          exact ⟨h1, h2, h3, h4,
            List.mem_append_left _ (List.mem_append_left _ h5), h6⟩
      · rw [List.append_nil]
        apply inputsOk_append_simple resultDir evs _ hio
        intro u inputs2 fsc2 hmem2
        exact Event.noConfusion (List.mem_singleton.mp hmem2)
    · -- a dependency was missing: the loop stops without an Execute call
      rw [executeSeqLoop]
      simp only [hout, hev, List.append_nil]
      exact hio
    · -- cache miss: Execute runs; its inputs come from the executed map
      have hnew : ∀ d ∈ t.deps, ∃ res,
          Event.collected d.id res ∈ evs ∧
          res.result.error = none ∧
          res.outputDir = resultDir ++ "/" ++ ComputeTaskHash d ∧
          ({ taskId := d.id, outputDir := res.outputDir,
             files := res.result.files } : DependencyInput) ∈ inputs ∧
          ∃ l, lookupA fsc.cache res.outputDir = some l ∧
            l.Perm res.result.files := by
        intro d hd
        obtain ⟨res, hlk, hin⟩ := gatherDeps_ok_spec t.deps executed inputs hga d hd
        obtain ⟨h1, h2, h3, h4, h5, h6⟩ := hexinv d.id res hlk
        have hdT : d ∈ T := hclo t htT d hd
        have hrt : res.task = d := id_inj T hnd h2 hdT h1
        refine ⟨res, h5, h3, ?_, hin, ?_⟩
        · rw [h4, hrt]
        · rw [hfsc]
          exact h6
      have hio2 : InputsOk resultDir
          (evs ++ [Event.execCall t inputs fsc]) := by
        apply inputsOk_append resultDir evs _ hio
        intro t2 inputs2 fsc2 hmem2 d hd
        have heq2 := List.mem_singleton.mp hmem2
        injection heq2 with h1 h2 h3
        rw [h1] at hd
        rw [h2, h3]
        exact hnew d hd
      rw [executeSeqLoop]
      simp only [hout, hev]
      cases hte : (t.exec inputs).error with
      | some msg =>
        simp only [missResult_result, hte]
        apply inputsOk_append_simple resultDir _ _ hio2
        intro u inputs2 fsc2 hmem2
        exact Event.noConfusion (List.mem_singleton.mp hmem2)
      | none =>
        rcases hrest with ⟨herr2, hset⟩ | ⟨herr2, hsame⟩
        · simp only [missResult_result, hte]
          apply ih _ _ _ _ (fun u hu => hmem u (List.mem_cons_of_mem _ hu))
            hnds.2
          · intro u hu
            have hne2 : t.id ≠ u.id := by
              intro h
              apply hnds.1
              rw [h]
              exact List.mem_map_of_mem _ hu
            rw [lookupA_setA_ne _ _ _ _ hne2]
            exact hfresh u (List.mem_cons_of_mem _ hu)
          · intro id r hlk
            by_cases hid : t.id = id
            · rw [← hid, lookupA_setA_self] at hlk
              injection hlk with hlk2
              rw [← hlk2, ← hid]
              refine ⟨rfl, htT, hte, rfl, ?_, ?_⟩
              · exact List.mem_append_right _ (List.mem_singleton.mpr rfl)
              · rw [show (missResult resultDir t inputs).outputDir =
                  resultDir ++ "/" ++ ComputeTaskHash t from rfl, hset]
                exact ⟨(t.exec inputs).files, lookupA_setA_self _ _ _,
                  List.Perm.refl _⟩
            · rw [lookupA_setA_ne _ _ _ _ hid] at hlk
              obtain ⟨h1, h2, h3, h4, h5, h6⟩ := hexinv id r hlk
              refine ⟨h1, h2, h3, h4,
                List.mem_append_left _ (List.mem_append_left _ h5), ?_⟩
              obtain ⟨l, hlk2, hperm⟩ := h6
              by_cases hdeq : r.outputDir =
                  resultDir ++ "/" ++ ComputeTaskHash t
              · exfalso
                rw [h4] at hdeq
                have hhe : ComputeTaskHash r.task = ComputeTaskHash t :=
                  appendRight_inj (resultDir ++ "/") _ _ hdeq
                have hid2 : r.task.id = t.id := hhash r.task h2 t htT hhe
                have hfr := hfresh t (List.mem_cons_self _ _)
                rw [← hid2, h1] at hfr
                rw [hfr] at hlk
                cases hlk
              · rw [hset, lookupA_setA_ne _ _ _ _ (fun h => hdeq h.symm)]
                exact ⟨l, hlk2, hperm⟩
          · apply inputsOk_append_simple resultDir _ _ hio2
            intro u inputs2 fsc2 hmem2
            exact Event.noConfusion (List.mem_singleton.mp hmem2)
        · exact absurd hte herr2
theorem inputsOk_nil (resultDir : String) : InputsOk resultDir [] := by
  intro i t inputs fsc hi
  simp at hi

/-- The two-task witness graph satisfies the spec's graph invariants. -/
theorem wfTasks_gC6 : WfTasks gC6.tasks := by
  refine ⟨by decide, ?_, by decide⟩
  intro t ht d hd
  have ht2 : t = taskC6a ∨ t = taskC6b := by
    simpa [gC6] using ht
  rcases ht2 with h | h
  · subst h
    simp [taskC6a, GoTask.deps] at hd
  · subst h
    simp only [taskC6b, GoTask.deps] at hd
    rw [List.mem_singleton.mp hd]
    simp [gC6]

/-- Claim C1: dependency visibility.  In every sequential run and at every
reachable state of the parallel scheduler, whenever a task's `Execute` is
invoked, each of its dependencies has already completed error-free and
been collected earlier, the inputs contain an entry with that dependency's
ID, published output directory `<resultDir>/<closure-hash>` and its
returned files, and that directory exists in the file system at call time
with exactly those files.  Assumes the spec's graph invariants
(`WfTasks`): unique task IDs, dependency-closed task list, and
closure-hash-determined identity. -/
theorem dependency_visibility (resultDir : String) (g : Graph) (fs0 : FS)
    (hwf : WfTasks g.tasks) :
    InputsOk resultDir (Runner.executeSequential resultDir fs0 g).events ∧
    (∀ s, PReach resultDir g fs0 s → InputsOk resultDir s.trace) := by
  constructor
  · cases hsort : g.TopologicalSort with
    | error e =>
      unfold Runner.executeSequential
      rw [hsort]
      simp only
      exact inputsOk_nil resultDir
    | ok ordered =>
      obtain ⟨hpos, hndord, hmemord⟩ :=
        topologicalSort_ok_spec g hwf.1 ordered hsort
      unfold Runner.executeSequential
      rw [hsort]
      simp only
      apply seqLoop_inputsOk resultDir g.tasks hwf.1 hwf.2.1 hwf.2.2 ordered
        fs0 [] [] [] hmemord hndord
      · intro u _
        rfl
      · intro id r h
        cases h
      · exact inputsOk_nil resultDir
  · intro s hreach
    exact (preach_inv resultDir g fs0 hwf s hreach).hio

/-- Witness for C1: the hypotheses are satisfied by the concrete two-task
graph (`b` depends on `a`), and the theorem applies to it. -/
theorem dependency_visibility_witness :
    WfTasks gC6.tasks ∧
    (InputsOk "cache" (Runner.executeSequential "cache" FS.empty gC6).events ∧
     ∀ s, PReach "cache" gC6 FS.empty s → InputsOk "cache" s.trace) :=
  ⟨wfTasks_gC6, dependency_visibility "cache" gC6 FS.empty wfTasks_gC6⟩
/-- A live transitive dependency yields a directed path in the recorded
edge map, when the edges match the live lists. -/
theorem liveDep_depPath (g : Graph)
    (hclo : ∀ t ∈ g.tasks, ∀ d ∈ t.deps, d ∈ g.tasks)
    (hedges : ∀ t ∈ g.tasks, edgeIds g t.id = t.deps.map GoTask.id) :
    ∀ t f, LiveDep t f → t ∈ g.tasks → DepPath g t.id f.id := by
  intro t f hdep
  induction hdep with
  | direct h =>
    intro ht
    apply DepPath.single
    rw [hedges _ ht]
    exact List.mem_map_of_mem _ h
  | trans h hp ih =>
    intro ht
    have hd := hclo _ ht _ h
    apply DepPath.step
    · rw [hedges _ ht]
      exact List.mem_map_of_mem _ h
    · exact ih hd

/-- In a list with unique IDs, positions are determined by the ID. -/
theorem posOk_idx_unique (ordered : List GoTask)
    (hnd : (ordered.map GoTask.id).Nodup) :
    ∀ (i j : Nat) (hi : i < ordered.length) (hj : j < ordered.length),
    (ordered.get ⟨i, hi⟩).id = (ordered.get ⟨j, hj⟩).id → i = j := by
  intro i j hi hj h
  have hlen : (ordered.map GoTask.id).length = ordered.length :=
    List.length_map _ _
  have h2 : (ordered.map GoTask.id).get ⟨i, by omega⟩ =
      (ordered.map GoTask.id).get ⟨j, by omega⟩ := by
    simp only [List.get_eq_getElem, List.getElem_map]
    exact h
  have h3 := (List.Nodup.get_inj_iff hnd).mp h2
  exact congrArg Fin.val h3

/-- In a dependency-respecting order with unique IDs, the target of a
directed dependency path appears strictly earlier than its source. -/
theorem posOk_depPath_lt (g : Graph) (ordered : List GoTask)
    (hpos : PosOk g ordered) (hnd : (ordered.map GoTask.id).Nodup) :
    ∀ a b, DepPath g a b →
    ∀ (i j : Nat) (hi : i < ordered.length) (hj : j < ordered.length),
    (ordered.get ⟨i, hi⟩).id = a → (ordered.get ⟨j, hj⟩).id = b → j < i := by
  intro a b hpath
  induction hpath with
  | single hedge =>
    rename_i a2 b2
    intro i j hi hj ha hb
    have hmem := hpos i hi b2 (by rw [ha]; exact hedge)
    obtain ⟨u, hu, hub⟩ := List.mem_map.mp hmem
    obtain ⟨⟨k, hk⟩, hgetu⟩ := List.mem_iff_get.mp hu
    have hki : k < i := by
      have := hk
      rw [List.length_take] at this
      omega
    have hkl : k < ordered.length := by omega
    have hgetk : (ordered.get ⟨k, hkl⟩).id = b2 := by
      rw [← hub, ← hgetu]
      congr 1
      rw [List.get_eq_getElem, List.get_eq_getElem, List.getElem_take]
    have hjk : j = k :=
      posOk_idx_unique ordered hnd j k hj hkl (by rw [hb, hgetk])
    omega
  | step hedge hpath2 ih =>
    rename_i a2 b2 c2
    intro i j hi hj ha hb
    have hmem := hpos i hi b2 (by rw [ha]; exact hedge)
    obtain ⟨u, hu, hub⟩ := List.mem_map.mp hmem
    obtain ⟨⟨k, hk⟩, hgetu⟩ := List.mem_iff_get.mp hu
    have hki : k < i := by
      have := hk
      rw [List.length_take] at this
      omega
    have hkl : k < ordered.length := by omega
    have hgetk : (ordered.get ⟨k, hkl⟩).id = b2 := by
      rw [← hub, ← hgetu]
      congr 1
      rw [List.get_eq_getElem, List.get_eq_getElem, List.getElem_take]
    have hjk : j < k := ih k j hkl hj hgetk hb
    omega

theorem loadCachedResult_error (t : GoTask) (h o : String)
    (entries : List String) :
    (Runner.loadCachedResult t h o entries).result.error = none := rfl

/-- The sequential loop on a first task failure: the returned error names
the failing task, the failing task splits the processed order, every new
`Execute` call belongs to the processed prefix, and every new result's
task lies in the processed prefix. -/
theorem seqLoop_fail_spec (resultDir : String) :
    ∀ (tasks : List GoTask) (fs : FS) (evs : List Event)
      (results : List ExecutionResult)
      (executed : List (String × ExecutionResult)),
    (∀ r ∈ results, r.result.error = none) →
    ∀ fr m,
      fr ∈ (executeSeqLoop resultDir tasks fs evs results executed).results →
      fr.result.error = some m →
      (executeSeqLoop resultDir tasks fs evs results executed).err =
        some ("task " ++ fr.task.id ++ " failed: " ++ m) ∧
      ∃ pre rest2, tasks = pre ++ fr.task :: rest2 ∧
        (∀ u inputs fsc, Event.execCall u inputs fsc ∈
            (executeSeqLoop resultDir tasks fs evs results executed).events →
          Event.execCall u inputs fsc ∈ evs ∨ u ∈ pre ++ [fr.task]) ∧
        (∀ r ∈ (executeSeqLoop resultDir tasks fs evs results executed).results,
          r ∈ results ∨ r.task ∈ pre ++ [fr.task]) := by
  intro tasks
  induction tasks with
  | nil =>
    intro fs evs results executed hall fr m hfr herr
    exfalso
    have := hall fr hfr
    rw [this] at herr
    cases herr
  | cons t rest ih =>
    intro fs evs results executed hall fr m hfr herr
    rcases executeTask_spec resultDir fs t executed with
      ⟨entries, hne, hl, heq⟩ | ⟨hcache, hev, e, hout⟩ |
      ⟨inputs, hga, hmiss, ⟨fsc, hfsc, hev⟩, hout, hrest⟩
    · -- cache hit: the cached result is error-free, recurse
      have hexec := executeTask_hit_eq resultDir fs t executed entries hl hne
      rw [executeSeqLoop, hexec] at hfr ⊢
      simp only [loadCachedResult_error] at hfr ⊢
      have hall2 : ∀ r ∈ results ++ [Runner.loadCachedResult t
          (ComputeTaskHash t) (resultDir ++ "/" ++ ComputeTaskHash t) entries],
          r.result.error = none := by
        intro r hr
        rcases List.mem_append.mp hr with h | h
        · exact hall r h
        · rw [List.mem_singleton.mp h]
          rfl
      obtain ⟨herr2, pre, rest2, hteq, hevs, hress⟩ :=
        ih _ _ _ _ hall2 fr m hfr herr
      refine ⟨herr2, t :: pre, rest2, by rw [hteq, List.cons_append], ?_, ?_⟩
      · intro u inputs2 fsc2 hm2
        rcases hevs u inputs2 fsc2 hm2 with h | h
        · simp only [List.append_nil] at h
          rcases List.mem_append.mp h with h2 | h2
          · exact Or.inl h2
          · exact absurd (List.mem_singleton.mp h2)
              (fun h5 => Event.noConfusion h5)
        · right
          rcases List.mem_append.mp h with h2 | h2
          · exact List.mem_append_left _ (List.mem_cons_of_mem _ h2)
          · exact List.mem_append_right _ h2
      · intro r hr
        rcases hress r hr with h | h
        · rcases List.mem_append.mp h with h2 | h2
          · exact Or.inl h2
          · right
            rw [List.mem_singleton.mp h2]
            exact List.mem_append_left _ (List.mem_cons_self _ _)
        · right
          rcases List.mem_append.mp h with h2 | h2
          · exact List.mem_append_left _ (List.mem_cons_of_mem _ h2)
          · exact List.mem_append_right _ h2
    · -- internal error: results unchanged, so no failing result is new
      exfalso
      rw [executeSeqLoop] at hfr
      simp only [hout] at hfr
      have := hall fr hfr
      rw [this] at herr
      cases herr
    · -- executed
      rw [executeSeqLoop] at hfr ⊢
      simp only [hout, hev] at hfr ⊢
      cases hte : (t.exec inputs).error with
      | some msg =>
        simp only [missResult_result, hte] at hfr ⊢
        rcases List.mem_append.mp hfr with h2 | h2
        · exfalso
          have := hall fr h2
          rw [this] at herr
          cases herr
        · have hfrm := List.mem_singleton.mp h2
          subst hfrm
          rw [missResult_result, hte] at herr
          injection herr with hm
          subst hm
          refine ⟨rfl, [], rest, rfl, ?_, ?_⟩
          · intro u inputs2 fsc2 hm2
            rcases List.mem_append.mp hm2 with h3 | h3
            · rcases List.mem_append.mp h3 with h4 | h4
              · exact Or.inl h4
              · right
                have h5 := List.mem_singleton.mp h4
                injection h5 with hu _ _
                subst hu
                exact List.mem_append_right _ (List.mem_singleton.mpr rfl)
            · exact absurd (List.mem_singleton.mp h3)
                (fun h5 => Event.noConfusion h5)
          · intro r hr
            rcases List.mem_append.mp hr with h3 | h3
            · exact Or.inl h3
            · right
              rw [List.mem_singleton.mp h3]
              exact List.mem_append_right _ (List.mem_singleton.mpr rfl)
      | none =>
        simp only [missResult_result, hte] at hfr ⊢
        have hall2 : ∀ r ∈ results ++ [missResult resultDir t inputs],
            r.result.error = none := by
          intro r hr
          rcases List.mem_append.mp hr with h | h
          · exact hall r h
          · rw [List.mem_singleton.mp h, missResult_result]
            exact hte
        obtain ⟨herr2, pre, rest2, hteq, hevs, hress⟩ :=
          ih _ _ _ _ hall2 fr m hfr herr
        refine ⟨herr2, t :: pre, rest2, by rw [hteq, List.cons_append], ?_, ?_⟩
        · intro u inputs2 fsc2 hm2
          rcases hevs u inputs2 fsc2 hm2 with h | h
          · rcases List.mem_append.mp h with h2 | h2
            · rcases List.mem_append.mp h2 with h3 | h3
              · exact Or.inl h3
              · right
                have h5 := List.mem_singleton.mp h3
                injection h5 with hu _ _
                subst hu
                exact List.mem_append_left _ (List.mem_cons_self _ _)
            · exact absurd (List.mem_singleton.mp h2)
                (fun h5 => Event.noConfusion h5)
          · right
            rcases List.mem_append.mp h with h2 | h2
            · exact List.mem_append_left _ (List.mem_cons_of_mem _ h2)
            · exact List.mem_append_right _ h2
        · intro r hr
          rcases hress r hr with h | h
          · rcases List.mem_append.mp h with h2 | h2
            · exact Or.inl h2
            · right
              rw [List.mem_singleton.mp h2]
              exact List.mem_append_left _ (List.mem_cons_self _ _)
          · right
            rcases List.mem_append.mp h with h2 | h2
            · exact List.mem_append_left _ (List.mem_cons_of_mem _ h2)
            · exact List.mem_append_right _ h2
/-- Claim C7: failure propagation.  On the first task failure the collector
(parallel) or the loop (sequential) stops and returns the accumulated
results with an error naming the failing task, and no task that depends
transitively (through the live dependency lists) on the failed task is
ever executed or completed.  Assumes the spec's graph invariants and that
the recorded edges match the live dependency lists (no post-insertion
mutation). -/
theorem failure_propagation (resultDir : String) (g : Graph) (fs0 : FS)
    (hwf : WfTasks g.tasks)
    (hedges : ∀ t ∈ g.tasks, edgeIds g t.id = t.deps.map GoTask.id) :
    (∀ s, PReach resultDir g fs0 s → ∀ fr, s.failed = some fr →
      (∃ m, fr.result.error = some m ∧
        s.halted = some ("task " ++ fr.task.id ++ " failed: " ++ m)) ∧
      ∀ t ∈ g.tasks, LiveDep t fr.task →
        (∀ inputs fsc, Event.execCall t inputs fsc ∉ s.trace) ∧
        (∀ r ∈ s.results, r.task.id ≠ t.id)) ∧
    (∀ fr m, fr ∈ (Runner.executeSequential resultDir fs0 g).results →
      fr.result.error = some m →
      (Runner.executeSequential resultDir fs0 g).err =
        some ("task " ++ fr.task.id ++ " failed: " ++ m) ∧
      ∀ t ∈ g.tasks, LiveDep t fr.task →
        (∀ inputs fsc, Event.execCall t inputs fsc ∉
          (Runner.executeSequential resultDir fs0 g).events) ∧
        (∀ r ∈ (Runner.executeSequential resultDir fs0 g).results,
          r.task.id ≠ t.id)) := by
  have hnd := hwf.1
  have hclo := hwf.2.1
  have hhash := hwf.2.2
  constructor
  · -- parallel scheduler
    intro s hreach fr hfail
    have hinv := preach_inv resultDir g fs0 hwf s hreach
    obtain ⟨hfrmem, m, hfrerr, hhalted⟩ := hinv.hfail fr hfail
    refine ⟨⟨m, hfrerr, hhalted⟩, ?_⟩
    have hng : goodRes s.results fr.task.id = false := by
      rcases hgb : goodRes s.results fr.task.id
      · rfl
      · exfalso
        obtain ⟨r2, hr2, hrid2, herr2⟩ := goodRes_exists _ _ hgb
        have hne : fr ≠ r2 := by
          intro h
          rw [← h, hfrerr] at herr2
          cases herr2
        have hcnt := count_ge_two_of_two_mem s.results fr r2 fr.task.id
          hfrmem hr2 hne rfl hrid2
        have h0 := hinv.hocc fr.task.id
        unfold occCount at h0
        omega
    have hblock : ∀ t f2, LiveDep t f2 → f2 = fr.task → t ∈ g.tasks →
        AllDepsGood s.results t → False := by
      intro t f2 hdep
      induction hdep with
      | direct h =>
        rename_i t2 d2
        intro hfeq ht hgood
        subst hfeq
        have hdid : fr.task.id ∈ depIdSet t2 :=
          (mem_depIdSet _ _).mpr (List.mem_map_of_mem _ h)
        have hgd := hgood fr.task.id hdid
        rw [hng] at hgd
        exact Bool.noConfusion hgd
      | trans h hp ih =>
        rename_i t2 d2 e2
        intro hfeq ht hgood
        subst hfeq
        have hdid : d2.id ∈ depIdSet t2 :=
          (mem_depIdSet _ _).mpr (List.mem_map_of_mem _ h)
        have hgd := hgood d2.id hdid
        obtain ⟨rd, hrd, hrdid, hrderr⟩ := goodRes_exists _ _ hgd
        have hdT : d2 ∈ g.tasks := hclo t2 ht d2 h
        have hrdt : rd.task = d2 :=
          id_inj g.tasks hnd (hinv.hresmem rd hrd) hdT hrdid
        have hgood2 := hinv.hresgood rd hrd
        rw [hrdt] at hgood2
        exact ih rfl hdT hgood2
    intro t ht hdep
    constructor
    · intro inputs fsc hmem
      obtain ⟨htT, hgood⟩ := hinv.hexecev t inputs fsc hmem
      exact hblock t fr.task hdep rfl htT hgood
    · intro r hr hid
      have hrt : r.task = t := id_inj g.tasks hnd (hinv.hresmem r hr) ht hid
      have hgood := hinv.hresgood r hr
      rw [hrt] at hgood
      exact hblock t fr.task hdep rfl ht hgood
  · -- sequential runner
    intro fr m hfr herr
    cases hsort : g.TopologicalSort with
    | error e =>
      exfalso
      unfold Runner.executeSequential at hfr
      rw [hsort] at hfr
      simp only at hfr
      cases hfr
    | ok ordered =>
      obtain ⟨hpos, hndord, hmemord⟩ :=
        topologicalSort_ok_spec g hnd ordered hsort
      unfold Runner.executeSequential at hfr ⊢
      rw [hsort] at hfr ⊢
      simp only at hfr ⊢
      obtain ⟨herr2, pre, rest2, hteq, hevs, hress⟩ :=
        seqLoop_fail_spec resultDir ordered fs0 [] [] []
          (by intro r hr; cases hr) fr m hfr herr
      subst hteq
      refine ⟨herr2, ?_⟩
      intro t ht hdep
      have hpath : DepPath g t.id fr.task.id :=
        liveDep_depPath g hclo hedges t fr.task hdep ht
      have hjlen : pre.length < (pre ++ fr.task :: rest2).length := by
        rw [List.length_append, List.length_cons]
        omega
      have hgetfr : ((pre ++ fr.task :: rest2).get ⟨pre.length, hjlen⟩).id =
          fr.task.id := by
        have h9 : (pre ++ fr.task :: rest2).get ⟨pre.length, hjlen⟩ =
            fr.task := by
          rw [List.get_eq_getElem, List.getElem_append_right (Nat.le_refl _)]
          simp
        rw [h9]
      have hnotpre : t ∉ pre ++ [fr.task] := by
        intro hmem2
        rcases List.mem_append.mp hmem2 with h2 | h2
        · obtain ⟨⟨i, hi⟩, hgett⟩ := List.mem_iff_get.mp h2
          have hil : i < (pre ++ fr.task :: rest2).length := by
            rw [List.length_append, List.length_cons]
            omega
          have hgett2 : ((pre ++ fr.task :: rest2).get ⟨i, hil⟩).id = t.id := by
            have h9 : (pre ++ fr.task :: rest2).get ⟨i, hil⟩ = t := by
              rw [List.get_eq_getElem, List.getElem_append_left hi]
              exact hgett
            rw [h9]
          have hlt := posOk_depPath_lt g (pre ++ fr.task :: rest2) hpos hndord
            t.id fr.task.id hpath i pre.length hil hjlen hgett2 hgetfr
          omega
        · have ht2 := List.mem_singleton.mp h2
          have hpath2 : DepPath g fr.task.id fr.task.id := ht2 ▸ hpath
          have hlt := posOk_depPath_lt g (pre ++ fr.task :: rest2) hpos hndord
            fr.task.id fr.task.id hpath2 pre.length pre.length hjlen hjlen
            hgetfr hgetfr
          omega
      constructor
      · intro inputs fsc hmem2
        rcases hevs t inputs fsc hmem2 with h2 | h2
        · cases h2
        · exact hnotpre h2
      · intro r hr hid
        rcases hress r hr with h2 | h2
        · cases h2
        · have hrT : r.task ∈ g.tasks := by
            apply hmemord
            rcases List.mem_append.mp h2 with h3 | h3
            · exact List.mem_append_left _ h3
            · rw [List.mem_singleton.mp h3]
              exact List.mem_append_right _ (List.mem_cons_self _ _)
          have hrt : r.task = t := id_inj g.tasks hnd hrT ht hid
          rw [hrt] at h2
          exact hnotpre h2

/-- Witness for C7: the hypotheses hold for the concrete two-task graph,
and the theorem applies to it. -/
theorem failure_propagation_witness :
    (WfTasks gC6.tasks ∧
      ∀ t ∈ gC6.tasks, edgeIds gC6 t.id = t.deps.map GoTask.id) ∧
    ((∀ s, PReach "cache" gC6 FS.empty s → ∀ fr, s.failed = some fr →
      (∃ m, fr.result.error = some m ∧
        s.halted = some ("task " ++ fr.task.id ++ " failed: " ++ m)) ∧
      ∀ t ∈ gC6.tasks, LiveDep t fr.task →
        (∀ inputs fsc, Event.execCall t inputs fsc ∉ s.trace) ∧
        (∀ r ∈ s.results, r.task.id ≠ t.id)) ∧
    (∀ fr m, fr ∈ (Runner.executeSequential "cache" FS.empty gC6).results →
      fr.result.error = some m →
      (Runner.executeSequential "cache" FS.empty gC6).err =
        some ("task " ++ fr.task.id ++ " failed: " ++ m) ∧
      ∀ t ∈ gC6.tasks, LiveDep t fr.task →
        (∀ inputs fsc, Event.execCall t inputs fsc ∉
          (Runner.executeSequential "cache" FS.empty gC6).events) ∧
        (∀ r ∈ (Runner.executeSequential "cache" FS.empty gC6).results,
          r.task.id ≠ t.id))) :=
  ⟨⟨wfTasks_gC6, by decide⟩,
   failure_propagation "cache" gC6 FS.empty wfTasks_gC6 (by decide)⟩
